import Mathlib

/-!
Verification development for the moz-trace-graph trace engine.

The trace-construction core (src/trace.js), the snapshot replay
(parseTrace), the viewport model (TraceBounds in src/trace-graph.js) and
the binary range query (binarySearch in src/trace-graph.js) are embedded
shallowly below.

Modelling conventions:
* JS numbers are modelled as `Int` (idealized arithmetic); a
  possibly-undefined number is `Option Int`, with `none` playing the role
  of `undefined` (and of the `NaN` produced by arithmetic on `undefined`).
* Opaque JS values (source locations in their serialized form, argument
  lists, call sites, return/throw/yield payloads) are modelled by the
  opaque type `Val := String`; the JSON encoder/decoder pair is treated as
  the identity on them, matching the spec's exclusion of JSON mechanics.
* Object references are modelled as indices (`uid`s) into the trace's
  flat `frames` list, exactly mirroring the source's flat `frames` array.
* The call stack `_stack` starts as `[this]`; the sentinel entry (the
  trace object itself) is modelled as `none`, a frame as `some uid`.  The
  head of the Lean list is the top of the JS stack.  `finish()` sets
  `_stack = null`, modelled by the outer `Option` being `none`.
* A JS statement that throws before mutating anything is modelled by
  returning the state unchanged; the only reachable throw (a clientless
  trace finishing) is modelled explicitly where the replay needs it.
-/

namespace MozTrace

/-- Opaque JS values (arguments, call sites, return values, serialized
source locations).  Round-tripping through JSON is the identity on them. -/
abbrev Val := String

/-- JS subtraction on number-or-undefined: any undefined operand gives
`NaN`, collapsed to `none`. -/
def jsSub : Option Int → Option Int → Option Int
  | some a, some b => some (a - b)
  | _, _ => none

/-- JS addition on number-or-undefined. -/
def jsAdd : Option Int → Option Int → Option Int
  | some a, some b => some (a + b)
  | _, _ => none

/-- JS truthiness of a number-or-undefined: `undefined` and `0` are falsy. -/
def jsFalsy : Option Int → Bool
  | none => true
  | some t => t == 0

/-- JS `>` on number-or-undefined: comparisons against `undefined` are false. -/
def jsGt : Option Int → Option Int → Bool
  | some a, some b => b < a
  | _, _ => false

/-- The `enteredFrame` packet (src/trace.js onEnteredFrame).  `location`
is the serialized (`JSON.stringify`ed) source location, kept opaque. -/
structure EnterPacket where
  name : String
  location : String
  parameterNames : List String
  callsite : Option Val
  args : Option Val
  time : Option Int
  deriving Repr, DecidableEq

/-- The `exitedFrame` packet (src/trace.js onExitedFrame). -/
structure ExitPacket where
  time : Option Int
  ret : Option Val
  thr : Option Val
  yld : Option Val
  deriving Repr, DecidableEq

/-- One frame object, as stored in the trace's flat `frames` array.
References to other frames are `uid`s; `older` is `some none` when it
points at the trace object (the sentinel parent of root frames). -/
structure FrameSt where
  uid : Nat
  depth : Nat
  childrenL : List Nat
  older : Option (Option Nat)
  previous : Option Nat
  next : Option Nat
  fid : Nat
  name : String
  location : String
  parameterNames : List String
  callsite : Option Val
  args : Option Val
  startTime : Option Int
  endTime : Option Int
  totalTime : Option Int
  selfTime : Option Int
  ret : Option Val
  thr : Option Val
  yld : Option Val
  deriving Repr, DecidableEq

/-- One aggregated function record (`trace.functions[fid]`).
`totalTime`/`selfTime` are lazily initialized on the first exit. -/
structure FuncRec where
  count : Nat
  name : String
  location : String
  parameterNames : List String
  totalTime : Option Int := none
  selfTime : Option Int := none
  deriving Repr, DecidableEq

/-- The full mutable state of a `Trace` object.  `stack = none` models
`_stack = null` (after `finish()`); a stack entry `none` is the sentinel
(the trace object itself), `some u` the frame with uid `u`.  The head of
the list is the top of the stack.  `fmap` is the `_functionIds` map as an
insertion-ordered association list (its nulling by `finish()` is not
observable: every later access is preceded by a throwing `_stack` access,
so it is not modelled).  `listening` records whether the client listeners
installed by the constructor are still attached. -/
structure TraceSt where
  childrenT : List Nat := []
  frames : List FrameSt := []
  functions : List FuncRec := []
  maxDepth : Nat := 0
  stack : Option (List (Option Nat)) := some [none]
  fmap : List (String × Nat) := []
  startTime : Option Int := none
  endTime : Option Int := none
  finished : Bool := false
  hasClient : Bool := true
  listening : Bool := true
  deriving Repr, DecidableEq

/-- `new Trace(client, name)`: fresh state; listeners are attached only
when a client is given. -/
def newTrace (hasClient : Bool) : TraceSt :=
  { stack := some [none], hasClient := hasClient, listening := hasClient }

/-- `locationToString(loc, name)` = `(name || "") + JSON.stringify(loc)`;
with `location` already the serialized form this is concatenation (an
empty `name` is falsy in JS, and `"" ++ loc = loc` matches `("") + loc`). -/
def locationToString (loc : String) (name : String) : String := name ++ loc

/-- `Trace.prototype.finish`: detach the listeners, null the live
bookkeeping, mark finished.  On a clientless trace the very first
statement (`this._client.removeListener`) throws before any mutation, so
the state is returned unchanged there. -/
def Trace.finish (st : TraceSt) : TraceSt :=
  if st.hasClient then
    { st with listening := false, stack := none, finished := true }
  else st

/-- The default function record used to keep lookups total on states that
the source would crash on (never reachable from ingestion). -/
def defaultFuncRec : FuncRec := { count := 0, name := "", location := "", parameterNames := [] }

/-- The `totalTime` of the frame object `frames[c]` (used when summing
children's total times; an absent frame gives `undefined`, unreachable). -/
def childTotal (frames : List FrameSt) (c : Nat) : Option Int :=
  match frames.get? c with
  | some cf => cf.totalTime
  | none => none

/-- The last element of `current.children` (`current` being the stack
top: the trace object for the sentinel, else the frame `cu`). -/
def lastChildOf (st : TraceSt) (current : Option Nat) : Option Nat :=
  match current with
  | none => st.childrenT.getLast?
  | some cu => (((st.frames.get? cu).map FrameSt.childrenL).getD []).getLast?

/-- `Trace.prototype.onEnteredFrame`.  The stack-null case models the
`TypeError` thrown by `this._currentFrame` on a finished trace (thrown
before any mutation).  The empty-stack case is unreachable (the sentinel
is never popped).  The JS guard `if (current)` is always taken: the stack
top is either the trace object or a frame object, both truthy. -/
def Trace.onEnteredFrame (st : TraceSt) (p : EnterPacket) : TraceSt :=
  match st.stack with
  | none => st
  | some [] => st
  | some (current :: rest) =>
    let stk := current :: rest
    let uid := st.frames.length
    let depth := stk.length - 1
    -- frame.previous = current.children[current.children.length - 1] (if any)
    let prevOpt : Option Nat := lastChildOf st current
    -- frame.previous.next = frame
    let frames1 := match prevOpt with
      | some pu => st.frames.modify (fun fr => { fr with next := some uid }) pu
      | none => st.frames
    -- function identity resolution (this._functionIds / this.functions)
    let key := locationToString p.location p.name
    let fid := match st.fmap.lookup key with
      | some i => i
      | none => st.functions.length
    let fmap1 := match st.fmap.lookup key with
      | some _ => st.fmap
      | none => st.fmap ++ [(key, st.functions.length)]
    let newRec : FuncRec :=
      { count := 0, name := p.name, location := p.location,
        parameterNames := p.parameterNames }
    let functions1 := match st.fmap.lookup key with
      | some _ => st.functions
      | none => st.functions ++ [newRec]
    -- aggregated.count++
    let functions2 := functions1.modify (fun r => { r with count := r.count + 1 }) fid
    let aggregated := (functions2.get? fid).getD defaultFuncRec
    let frame : FrameSt :=
      { uid := uid, depth := depth, childrenL := [],
        older := some current, previous := prevOpt, next := none,
        fid := fid, name := aggregated.name, location := aggregated.location,
        parameterNames := aggregated.parameterNames,
        callsite := p.callsite, args := p.args,
        startTime := p.time, endTime := none,
        totalTime := none, selfTime := none,
        ret := none, thr := none, yld := none }
    -- this.frames.push(frame); current.children.push(frame)
    let frames2 := frames1 ++ [frame]
    let (childrenT1, frames3) :=
      match current with
      | none => (st.childrenT ++ [uid], frames2)
      | some cu => (st.childrenT,
          frames2.modify (fun fr => { fr with childrenL := fr.childrenL ++ [uid] }) cu)
    { st with
      frames := frames3,
      childrenT := childrenT1,
      stack := some (some uid :: stk),
      maxDepth := if depth > st.maxDepth then depth else st.maxDepth,
      fmap := fmap1,
      functions := functions2,
      startTime := if st.startTime.isNone then p.time else st.startTime,
      endTime := p.time }

/-- `Trace.prototype.onExitedFrame`.  A sentinel on top finalizes the
trace; otherwise the top frame is popped, closed and its timing folded
into its aggregate.  The stack-null and missing-frame cases model throws
on unreachable states. -/
def Trace.onExitedFrame (st : TraceSt) (p : ExitPacket) : TraceSt :=
  match st.stack with
  | none => st
  | some [] => st
  | some (none :: _) => Trace.finish st
  | some (some u :: rest) =>
    match st.frames.get? u with
    | none => { st with stack := some rest }
    | some fr =>
      let endT := p.time
      let totalT := jsSub endT fr.startTime
      let selfT := fr.childrenL.foldl (fun acc c => jsSub acc (childTotal st.frames c)) totalT
      let fr1 : FrameSt :=
        { fr with
          endTime := endT, totalTime := totalT, selfTime := selfT,
          ret := if p.ret.isSome then p.ret else fr.ret,
          thr := if p.thr.isSome then p.thr else fr.thr,
          yld := if p.yld.isSome then p.yld else fr.yld }
      let functions1 := st.functions.modify (fun r =>
        let r1 := if r.totalTime.isNone
          then { r with totalTime := some 0, selfTime := some 0 } else r
        { r1 with totalTime := jsAdd r1.totalTime totalT,
                  selfTime := jsAdd r1.selfTime selfT }) fr.fid
      { st with
        stack := some rest,
        frames := st.frames.set u fr1,
        functions := functions1,
        endTime := if jsFalsy st.endTime || jsGt endT st.endTime then endT else st.endTime }

/-- One ingestion event, as delivered by the trace client. -/
inductive Event where
  | enter (p : EnterPacket)
  | exitF (p : ExitPacket)
  deriving Repr, DecidableEq

/-- Process one event. -/
def Trace.step (st : TraceSt) : Event → TraceSt
  | .enter p => Trace.onEnteredFrame st p
  | .exitF p => Trace.onExitedFrame st p

/-- Process a list of events in order. -/
def Trace.run (st : TraceSt) (es : List Event) : TraceSt := es.foldl Trace.step st

/-- `Trace.prototype.frameByUid`: plain array indexing, `undefined` when
out of range. -/
def Trace.frameByUid (st : TraceSt) (uid : Nat) : Option FrameSt := st.frames.get? uid

/-! ### Serialization (Trace.prototype.toJSON / _frameToJSONObj)

`JSON.stringify` itself is excluded by the spec; the serialized output is
modelled structurally.  A field of the JSON object is present exactly
when the source copies a value that is not `undefined` (`JSON.stringify`
drops properties whose value is `undefined`), so every copied field is an
`Option`, `none` meaning absent from the output. -/

/-- The JSON object for one frame, as produced by `_frameToJSONObj`
(properties `fid`, `startTime`, `endTime`, `arguments`, `return`,
`throw`, `yield`, `children`, in that fixed key order). -/
inductive FrameJSON where
  | mk (fid : Nat) (startTime : Option Int) (endTime : Option Int)
      (args : Option Val) (ret : Option Val) (thr : Option Val) (yld : Option Val)
      (children : List FrameJSON)
  deriving Repr

namespace FrameJSON

def fid : FrameJSON → Nat | mk f _ _ _ _ _ _ _ => f
def startTime : FrameJSON → Option Int | mk _ s _ _ _ _ _ _ => s
def endTime : FrameJSON → Option Int | mk _ _ e _ _ _ _ _ => e
def args : FrameJSON → Option Val | mk _ _ _ a _ _ _ _ => a
def ret : FrameJSON → Option Val | mk _ _ _ _ r _ _ _ => r
def thr : FrameJSON → Option Val | mk _ _ _ _ _ t _ _ => t
def yld : FrameJSON → Option Val | mk _ _ _ _ _ _ y _ => y
def children : FrameJSON → List FrameJSON | mk _ _ _ _ _ _ _ c => c

end FrameJSON

/-- The top-level JSON object produced by `Trace.prototype.toJSON`:
`{ functions: this.functions, children: [...] }`. -/
structure Snapshot where
  functions : List FuncRec
  children : List FrameJSON
  deriving Repr

/-- Sequence an option-producing map over a list (used to express the
recursive serialization over the `children` arrays). -/
def mapO (f : α → Option β) : List α → Option (List β)
  | [] => some []
  | a :: l =>
    match f a, mapO f l with
    | some b, some bs => some (b :: bs)
    | _, _ => none

/-- `Trace.prototype._frameToJSONObj`, on the uid graph.  The source
recurses through object references; here the recursion is bounded by a
fuel argument (`frames.length` is enough on every state whose children
uids strictly exceed their parents', which ingestion guarantees); `none`
means the recursion could not complete (unreachable on trace states). -/
def frameToJSONObj (frames : List FrameSt) : Nat → Nat → Option FrameJSON
  | 0, _ => none
  | fuel + 1, u =>
    match frames.get? u with
    | none => none
    | some fr =>
      match mapO (frameToJSONObj frames fuel) fr.childrenL with
      | none => none
      | some kids =>
        some (.mk fr.fid fr.startTime fr.endTime fr.args fr.ret fr.thr fr.yld kids)

/-- `Trace.prototype.toJSON`. -/
def Trace.toJSON (st : TraceSt) : Option Snapshot :=
  match mapO (frameToJSONObj st.frames st.frames.length) st.childrenT with
  | none => none
  | some kids => some ⟨st.functions, kids⟩

/-! ### parseTrace (src/unnamed/part_000)

The replay drives the ingestion API with synthetic packets derived from a
snapshot.  `none` models the replay aborting with an exception: reading
`aggregated.name` on an out-of-range `fid`, or the clientless trace's
`finish()` throwing on `this._client.removeListener` during a sentinel
exit (both unreachable for snapshots of closed traces). -/

/-- `exitFrame(frame)` of parseTrace. -/
def parseExitFrame (st : TraceSt) (fr : FrameJSON) : Option TraceSt :=
  match st.stack with
  | some (none :: _) =>
    if st.hasClient then some (Trace.onExitedFrame st ⟨fr.endTime, fr.ret, fr.thr, fr.yld⟩)
    else none
  | _ => some (Trace.onExitedFrame st ⟨fr.endTime, fr.ret, fr.thr, fr.yld⟩)

mutual

/-- `enterFrame(frame)` of parseTrace: synthesize the enter packet from
the aggregate record (`callsite` is absent from serialized frames, so the
synthesized packet carries `undefined` there), recurse into the children,
then exit. -/
def parseEnterFrame (functions : List FuncRec) (fr : FrameJSON) (st : TraceSt) :
    Option TraceSt :=
  match fr with
  | .mk fid startT endT args retV thrV yldV kids =>
    match functions.get? fid with
    | none => none
    | some aggregated =>
      let pkt : EnterPacket :=
        { name := aggregated.name, location := aggregated.location,
          parameterNames := aggregated.parameterNames,
          callsite := none, args := args, time := startT }
      match parseEnterKids functions kids (Trace.onEnteredFrame st pkt) with
      | none => none
      | some st1 => parseExitFrame st1 (.mk fid startT endT args retV thrV yldV kids)

/-- The `for (var child of frame.children) enterFrame(child)` loop. -/
def parseEnterKids (functions : List FuncRec) (kids : List FrameJSON) (st : TraceSt) :
    Option TraceSt :=
  match kids with
  | [] => some st
  | k :: rest =>
    match parseEnterFrame functions k st with
    | none => none
    | some st1 => parseEnterKids functions rest st1

end

/-- `parseTrace(data)` on an already-decoded snapshot: replay every root
into a fresh clientless trace, then set `finished` directly. -/
def parseTrace (s : Snapshot) : Option TraceSt :=
  match parseEnterKids s.functions s.children (newTrace false) with
  | none => none
  | some st => some { st with finished := true }

/-! ### TraceBounds (src/trace-graph.js)

The viewport model.  Values are modelled as rationals (idealized JS
numbers: no NaN arises because `setBounds` replaces falsy inputs before
any arithmetic, and the claims quantify over rational states). -/

/-- The state of a `TraceBounds` object (`_totalTime`, `_left`, `_right`). -/
structure BoundsSt where
  totalTime : ℚ
  left : ℚ
  right : ℚ
  deriving Repr, DecidableEq

/-- `TraceBounds.prototype._minimumIntervalTime`. -/
def minimumIntervalTime : ℚ := 3

/-- The `_minimumIntervalWidth` getter. -/
def minimumIntervalWidth (b : BoundsSt) : ℚ := minimumIntervalTime / b.totalTime

/-- JS `x || d` for numbers: `x` when truthy, else `d` (`0` is falsy;
`NaN` cannot arise in the modelled states). -/
def jsOrDefault (x d : ℚ) : ℚ := if x = 0 then d else x

/-- The `intervalWidth` getter. -/
def intervalWidth (b : BoundsSt) : ℚ := b.right - b.left

/-- The `center` getter. -/
def center (b : BoundsSt) : ℚ := b.left + intervalWidth b / 2

/-- `Math.max(Math.min(v, 1.0), 0.0)`. -/
def clamp01 (x : ℚ) : ℚ := max (min x 1) 0

/-- `TraceBounds.prototype.setBounds(left, right)`: swap when reversed,
default falsy arguments (`left || 0`, `right || 1`), clamp into [0, 1].
The observer notification carries no state and is not modelled. -/
def setBounds (b : BoundsSt) (left right : ℚ) : BoundsSt :=
  let lr := if left > right then (right, left) else (left, right)
  { b with
    left := clamp01 (jsOrDefault lr.1 0),
    right := clamp01 (jsOrDefault lr.2 1) }

/-- `TraceBounds.prototype.setTrace(trace)`. -/
def setTrace (totalTime : ℚ) : BoundsSt :=
  { totalTime := totalTime, left := 0, right := 1 }

/-- The `center` setter: re-center at `percent`, clamping so the window
(of at least the minimum width) stays inside [0, 1]. -/
def setCenter (b : BoundsSt) (percent : ℚ) : BoundsSt :=
  let width := max (intervalWidth b) (minimumIntervalWidth b) / 2
  let percent1 := if percent < width then width
    else if percent > 1 - width then 1 - width else percent
  setBounds b (percent1 - width) (percent1 + width)

/-- `TraceBounds.prototype.zoom(value, centerPercent)`; an absent
`centerPercent` (JS `undefined`) is modelled as `none` and defaulted to
`0.5` exactly where the source does. -/
def zoom (b : BoundsSt) (value : ℚ) (centerPercent : Option ℚ) : BoundsSt :=
  let zoomAmt := intervalWidth b * value / 500
  let minWidth := minimumIntervalWidth b
  if intervalWidth b + 2 * zoomAmt < minWidth then
    setBounds b (center b - minWidth / 2) (center b + minWidth / 2)
  else
    let cp := centerPercent.getD (1 / 2)
    let lZoom := zoomAmt * cp
    let rZoom := zoomAmt * (1 - cp)
    setBounds b (b.left - lZoom) (b.right + rZoom)

/-- `TraceBounds.prototype.panByPercent(value)`. -/
def panByPercent (b : BoundsSt) (value : ℚ) : BoundsSt :=
  let pan := intervalWidth b * value
  let roomToPan := if value < 0 then -b.left else 1 - b.right
  let pan1 := if |pan| > |roomToPan| then roomToPan else pan
  setBounds b (b.left + pan1) (b.right + pan1)

/-- `TraceBounds.prototype.pan(value)`. -/
def pan (b : BoundsSt) (value : ℚ) : BoundsSt := panByPercent b (value / 1000)

/-! ### binarySearch (src/trace-graph.js)

`binarySearch(key, array, comparator)`, with the comparator returning a
number whose sign is inspected.  Indices `first`/`last` are JS numbers
(`last` starts at `array.length - 1`, which is `-1` on an empty array),
modelled as `Int`.  An out-of-range `array[mid]` would feed `undefined`
to the comparator, whose `NaN` result takes the `return mid` branch; that
is modelled by the `none` case (unreachable for in-range bounds). -/

def binarySearchGo (key : Int) (arr : List Int) (comparator : Int → Int → Int) :
    Nat → Int → Int → Int
  | 0, first, _ => -(first + 1)
  | fuel + 1, first, last =>
    if first ≤ last then
      let mid := (first + last) / 2
      match arr.get? mid.toNat with
      | none => mid
      | some e =>
        let c := comparator key e
        if c > 0 then binarySearchGo key arr comparator fuel (mid + 1) last
        else if c < 0 then binarySearchGo key arr comparator fuel first (mid - 1)
        else mid
    else -(first + 1)

/-- `binarySearch(key, array, comparator)`. -/
def binarySearch (key : Int) (arr : List Int) (comparator : Int → Int → Int) : Int :=
  binarySearchGo key arr comparator (arr.length + 1) 0 (arr.length - 1)

/-- The comparator used at the call site in `MainView._renderChildren`:
`function(time, child) { return time - child.endTime; }`, applied to the
children's (closed) end times. -/
def endTimeComparator (time endTime : Int) : Int := time - endTime

/-- The documented viewport invariant: `0 ≤ left ≤ right ≤ 1`. -/
def BoundsInv (b : BoundsSt) : Prop := 0 ≤ b.left ∧ b.left ≤ b.right ∧ b.right ≤ 1

/-- The uid/position invariant of the flat frame list: every stored frame
sits at the index equal to its own `uid`. -/
def uidList (l : List FrameSt) : Prop := ∀ i fr, l.get? i = some fr → fr.uid = i

/-- The timestamp field of an event's packet. -/
def Event.time : Event → Option Int
  | .enter p => p.time
  | .exitF p => p.time

/-- The timestamp of a well-formed event (0 for a malformed one). -/
def timeD (e : Event) : Int := (Event.time e).getD 0

/-- Every event of the list carries a `time` field. -/
def wfEvents (es : List Event) : Prop := ∀ e ∈ es, (Event.time e).isSome = true

/-- The event timestamps are non-decreasing along the list. -/
def monoEvents (es : List Event) : Prop := es.Chain' (fun a b => timeD a ≤ timeD b)

/-- The time of the first enter event of the list, if any (the time the
trace's `startTime` is set from). -/
def firstEnterTime : List Event → Option Int
  | [] => none
  | .enter p :: _ => p.time
  | .exitF _ :: rest => firstEnterTime rest

/-- The live-stack shape of a trace still collecting data: the client is
attached, the stack is the sentinel below a path of valid frame uids. -/
def StackShape (st : TraceSt) : Prop :=
  st.hasClient = true ∧
  ∃ sp : List Nat, st.stack = some (sp.map some ++ [none]) ∧
    ∀ u ∈ sp, u < st.frames.length

/-- The sum of a list of number-or-undefined values, `undefined` reading
as 0 (used for the monotone-time bounds, where all totals are ≥ 0). -/
def sumDef (l : List (Option Int)) : Int := (l.map (fun o => o.getD 0)).sum

/-- The bookkeeping of a closed frame: its `totalTime` is
`endTime - startTime`, all its children carry (defined) totals, and its
`selfTime` is its total minus the sum of the children's totals. -/
def closedOk (frames : List FrameSt) (fr : FrameSt) : Prop :=
  ∃ s eT ts, fr.startTime = some s ∧ fr.endTime = some eT ∧
    fr.totalTime = some (eT - s) ∧
    fr.childrenL.map (childTotal frames) = List.map some ts ∧
    fr.selfTime = some ((eT - s) - ts.sum)

/-- The open frames along the call stack, top first: each is stored,
still open (no `endTime`/`totalTime`), and all of its children are
closed — except the frame stacked directly on top of it (`exempt`). -/
def spineOk (frames : List FrameSt) : Option Nat → List Nat → Prop
  | _, [] => True
  | exempt, u :: rest =>
    (∃ fr, frames.get? u = some fr ∧ fr.startTime.isSome = true ∧
      fr.endTime = none ∧ fr.totalTime = none ∧
      ∀ c ∈ fr.childrenL, some c ≠ exempt →
        ∃ cf, frames.get? c = some cf ∧ cf.endTime.isSome = true) ∧
    spineOk frames (some u) rest

/-- The structural run invariant behind the selfTime bookkeeping: every
closed frame is fully booked, children uids are in range, and (while the
trace is live) the stack is a sentinel under a duplicate-free path of
valid open frames whose children are closed off the path. -/
def SInv (st : TraceSt) : Prop :=
  (∀ u fr, st.frames.get? u = some fr → fr.endTime.isSome = true →
    closedOk st.frames fr) ∧
  (∀ u fr, st.frames.get? u = some fr → ∀ c ∈ fr.childrenL, c < st.frames.length) ∧
  (st.stack = none ∨ ∃ sp : List Nat,
    st.stack = some (sp.map some ++ [none]) ∧ sp.Nodup ∧
    (∀ u ∈ sp, u < st.frames.length) ∧ spineOk st.frames none sp)

/-- One frame table extends another, preserving every timing field and
every children list — except that the frame `cu` (the stack top a new
frame was appended under) gains the new uid at the end of its children. -/
def tableExt (frames frames2 : List FrameSt) (cu : Option Nat) (newuid : Nat) : Prop :=
  ∀ c fr, frames.get? c = some fr →
    ∃ fr2, frames2.get? c = some fr2 ∧ fr2.startTime = fr.startTime ∧
      fr2.endTime = fr.endTime ∧ fr2.totalTime = fr.totalTime ∧
      fr2.selfTime = fr.selfTime ∧
      ((cu ≠ some c ∧ fr2.childrenL = fr.childrenL) ∨
        (cu = some c ∧ fr2.childrenL = fr.childrenL ++ [newuid]))

/-- The time-budget discipline along the live stack, used to bound
`selfTime` from below under monotone timestamps.  `bound` is the latest
timestamp seen (for the top frame) or the start time of the open child
(for the frames below it); `ex` is the open child itself, which must
occur at most once in the children list.  Each spine frame's start time
plus the defined children totals never exceeds its bound. -/
def spineBudget (frames : List FrameSt) : Option Nat → Int → List Nat → Prop
  | _, _, [] => True
  | ex, bound, u :: rest =>
    ∃ fr s, frames.get? u = some fr ∧ fr.startTime = some s ∧
      (∀ x, ex = some x → fr.childrenL.count x ≤ 1) ∧
      s + sumDef (fr.childrenL.map (childTotal frames)) ≤ bound ∧
      spineBudget frames (some u) s rest

/-- The timed run invariant with watermark `w` (the last timestamp
ingested): every recorded total and self time is nonnegative, and the
live stack satisfies the budget discipline against `w`. -/
def TInv (st : TraceSt) (w : Int) : Prop :=
  (∀ u fr, st.frames.get? u = some fr → ∀ tv, fr.totalTime = some tv → 0 ≤ tv) ∧
  (∀ u fr, st.frames.get? u = some fr → ∀ sv, fr.selfTime = some sv → 0 ≤ sv) ∧
  (st.stack = none ∨ ∃ sp : List Nat,
    st.stack = some (sp.map some ++ [none]) ∧ spineBudget st.frames none w sp)

/-! ### Round-trip specification (C1)

Pure companions of the replay: the size of a serialized (sub)forest, the
uids a replay will assign to its roots, the first-visit discipline the
stored `fid`s must follow for the rebuilt function table to coincide, and
the exact function-table effect of replaying a forest. -/

mutual

/-- Number of nodes of a serialized frame (itself plus descendants). -/
def sizeN : FrameJSON → Nat
  | .mk _ _ _ _ _ _ _ kids => 1 + sizeF kids

/-- Number of nodes of a serialized forest. -/
def sizeF : List FrameJSON → Nat
  | [] => 0
  | n :: rest => sizeN n + sizeF rest

end

/-- The `totalTime` a replayed copy of the node will be closed with. -/
def nodeTotal (n : FrameJSON) : Option Int := jsSub n.endTime n.startTime

/-- The aggregation key of function record `i` (name concatenated with
location, as `locationToString` computes it from the enter packet the
replay synthesizes out of record `i`). -/
def keyF (F : List FuncRec) (i : Nat) : String :=
  match F.get? i with
  | some r => locationToString r.location r.name
  | none => ""

/-- Distinct function records carry distinct aggregation keys (always
true of a table built by ingestion: a record is only pushed when its key
is absent from the map). -/
def keysInj (F : List FuncRec) : Prop :=
  ∀ i j, i < F.length → j < F.length → keyF F i = keyF F j → i = j

mutual

/-- First-visit discipline of the stored fids, node form: visiting a
node when `k` records have been rebuilt requires `fid < k` (seen before)
or `fid = k` (next fresh record); returns the records built after the
whole subtree. -/
def dfsN (n : FrameJSON) (k : Nat) : Option Nat :=
  match n with
  | .mk f _ _ _ _ _ _ kids =>
    if f < k then dfsL kids k
    else if f = k then dfsL kids (k + 1)
    else none

/-- First-visit discipline over a forest, threading the record count. -/
def dfsL : List FrameJSON → Nat → Option Nat
  | [], k => some k
  | n :: rest, k =>
    match dfsN n k with
    | none => none
    | some k2 => dfsL rest k2

end

mutual

/-- The net effect on the rebuilt function table of replaying one node:
create-or-find the record (statics taken from `F`, as the synthesized
enter packet does), bump its count, replay the children, then fold the
node's total and self time into the record exactly as `onExitedFrame`
does. -/
def aggN (F : List FuncRec) : FrameJSON → List FuncRec → List FuncRec
  | .mk f sT eT _ _ _ _ kids, acc =>
    let ag := (F.get? f).getD defaultFuncRec
    let acc1 :=
      if f < acc.length then acc
      else acc ++ [{ count := 0, name := ag.name, location := ag.location,
                     parameterNames := ag.parameterNames }]
    let acc2 := acc1.modify (fun r => { r with count := r.count + 1 }) f
    let acc3 := aggL F kids acc2
    let totalT := jsSub eT sT
    let selfT := kids.foldl (fun a c => jsSub a (nodeTotal c)) totalT
    acc3.modify (fun r =>
      let r1 := if r.totalTime.isNone
        then { r with totalTime := some 0, selfTime := some 0 } else r
      { r1 with totalTime := jsAdd r1.totalTime totalT,
                selfTime := jsAdd r1.selfTime selfT }) f

/-- The net function-table effect of replaying a forest in order. -/
def aggL (F : List FuncRec) : List FrameJSON → List FuncRec → List FuncRec
  | [], acc => acc
  | n :: rest, acc => aggL F rest (aggN F n acc)

end

/-- The uids the replay assigns to the roots of a forest appended onto a
table of `base` frames (each root's subtree occupies a contiguous block). -/
def rootsUids (base : Nat) : List FrameJSON → List Nat
  | [] => []
  | n :: rest => base :: rootsUids (base + sizeN n) rest

/-- A serialized snapshot that round-trips: the stored fids follow the
first-visit discipline and use up the whole table, keys are injective,
and the stored table equals the aggregation the replay will recompute. -/
def GoodSnapshot (s : Snapshot) : Prop :=
  dfsL s.children 0 = some s.functions.length ∧
  keysInj s.functions ∧
  aggL s.functions s.children [] = s.functions

/-- The serialization-relevant projection of a stored frame: exactly the
fields `_frameToJSONObj` copies, plus the children uids it recurses on. -/
def sItem (frames : List FrameSt) (c : Nat) :
    Option (Nat × Option Int × Option Int × Option Val × Option Val ×
      Option Val × Option Val × List Nat) :=
  (frames.get? c).map (fun fr =>
    (fr.fid, fr.startTime, fr.endTime, fr.args, fr.ret, fr.thr, fr.yld, fr.childrenL))

/-- How a replayed (sub)forest extends the frame table, as seen by later
serialization: every pre-existing frame keeps every serialized field and
its total time, and only the stack top `cuo` (when it is a frame) gains
the new root uids at the end of its children. -/
def replayExt (frames frames2 : List FrameSt) (cuo : Option Nat)
    (newUids : List Nat) : Prop :=
  ∀ c fr, frames.get? c = some fr → ∃ fr2, frames2.get? c = some fr2 ∧
    fr2.fid = fr.fid ∧ fr2.startTime = fr.startTime ∧ fr2.endTime = fr.endTime ∧
    fr2.totalTime = fr.totalTime ∧ fr2.args = fr.args ∧ fr2.ret = fr.ret ∧
    fr2.thr = fr.thr ∧ fr2.yld = fr.yld ∧
    ((cuo = some c ∧ fr2.childrenL = fr.childrenL ++ newUids) ∨
      (cuo ≠ some c ∧ fr2.childrenL = fr.childrenL))

/-- The full effect of replaying a forest of serialized frames onto a
live replay state whose stack top is `cuo`: the replay succeeds, the
function table advances by the aggregation spec with the first-visit
count reaching `k2`, the stack returns, the frame table grows by the
forest size with old frames preserved (the top gaining the root uids as
children), the roots carry their nodes' totals, and serializing the new
roots out of any table agreeing on the new block reproduces the forest. -/
def SimPost (F : List FuncRec) (forest : List FrameJSON) (st : TraceSt)
    (cuo : Option Nat) (k2 : Nat) : Prop :=
  ∃ st2, parseEnterKids F forest st = some st2 ∧
    st2.functions = aggL F forest st.functions ∧
    st2.functions.length = k2 ∧
    st2.stack = st.stack ∧
    st2.fmap = (List.range k2).map (fun i => (keyF F i, i)) ∧
    st2.frames.length = st.frames.length + sizeF forest ∧
    (cuo = none → st2.childrenT = st.childrenT ++ rootsUids st.frames.length forest) ∧
    (∀ x, cuo = some x → st2.childrenT = st.childrenT) ∧
    replayExt st.frames st2.frames cuo (rootsUids st.frames.length forest) ∧
    List.Forall₂ (fun uid n => ∃ fr, st2.frames.get? uid = some fr ∧
      fr.totalTime = nodeTotal n) (rootsUids st.frames.length forest) forest ∧
    (∀ (frames3 : List FrameSt) (fuel : Nat), sizeF forest ≤ fuel →
      (∀ c, st.frames.length ≤ c → c < st.frames.length + sizeF forest →
        sItem frames3 c = sItem st2.frames c) →
      mapO (frameToJSONObj frames3 fuel) (rootsUids st.frames.length forest) =
        some forest)

/-- The children list a new frame is appended to: the root list for the
sentinel, else the stored frame's children. -/
def ownerChildren (frames : List FrameSt) (childrenT : List Nat) :
    Option Nat → List Nat
  | none => childrenT
  | some u => ((frames.get? u).map FrameSt.childrenL).getD []

/-- The first-visit discipline step for a single (still open) node. -/
def openStep (f k : Nat) : Option Nat :=
  if f < k then some k else if f = k then some (k + 1) else none

/-- The function-table effect of entering one frame with fid `f`:
create-or-find the record (statics from `F`) and bump its count — the
enter half of `aggN`. -/
def openAggF (F : List FuncRec) (f : Nat) (acc : List FuncRec) : List FuncRec :=
  (if f < acc.length then acc
   else acc ++ [({ count := 0, name := ((F.get? f).getD defaultFuncRec).name,
                   location := ((F.get? f).getD defaultFuncRec).location,
                   parameterNames := ((F.get? f).getD defaultFuncRec).parameterNames } :
     FuncRec)]).modify (fun r => { r with count := r.count + 1 }) f

/-- The zipper invariant of a live ingestion state, level by level along
the open spine listed root-first.  Each level owner's children split
into a fully closed forest occupying a contiguous uid block — with its
serialization, first-visit and aggregation bookkeeping threaded — and,
except at the innermost level, the next open frame. -/
def levelOk (frames : List FrameSt) (functions : List FuncRec)
    (childrenT : List Nat) :
    Option Nat → List Nat → Nat → Nat → List FuncRec → Prop
  | owner, [], lo, k, acc =>
    ∃ J, ownerChildren frames childrenT owner = rootsUids lo J ∧
      lo + sizeF J = frames.length ∧
      dfsL J k = some functions.length ∧
      aggL functions J acc = functions ∧
      (∀ (frames3 : List FrameSt) (fuel : Nat), sizeF J ≤ fuel →
        (∀ c, lo ≤ c → c < lo + sizeF J → sItem frames3 c = sItem frames c) →
        mapO (frameToJSONObj frames3 fuel) (rootsUids lo J) = some J)
  | owner, v :: rs, lo, k, acc =>
    ∃ J kv kv2 fv,
      ownerChildren frames childrenT owner = rootsUids lo J ++ [v] ∧
      lo + sizeF J = v ∧
      dfsL J k = some kv ∧
      (frames.get? v).map FrameSt.fid = some fv ∧
      openStep fv kv = some kv2 ∧
      (∀ (frames3 : List FrameSt) (fuel : Nat), sizeF J ≤ fuel →
        (∀ c, lo ≤ c → c < lo + sizeF J → sItem frames3 c = sItem frames c) →
        mapO (frameToJSONObj frames3 fuel) (rootsUids lo J) = some J) ∧
      levelOk frames functions childrenT (some v) rs (v + 1) kv2
        (openAggF functions fv (aggL functions J acc))

/-- The serialization-side run invariant: the key map mirrors the
function table, keys are injective, and the forest built so far is
described by the zipper (under the live stack, or after `finish`, which
only nulls the stack). -/
def JInv (st : TraceSt) : Prop :=
  st.fmap = (List.range st.functions.length).map
    (fun i => (keyF st.functions i, i)) ∧
  keysInj st.functions ∧
  ((st.stack = none ∧ levelOk st.frames st.functions st.childrenT none [] 0 0 []) ∨
    ∃ sp : List Nat, st.stack = some (sp.map some ++ [none]) ∧
      levelOk st.frames st.functions st.childrenT none sp.reverse 0 0 [])

/-- The innermost (stack-top) owner described by a zipper walk. -/
def lastOwner (owner : Option Nat) : List Nat → Option Nat
  | [] => owner
  | v :: rs => lastOwner (some v) rs

/-- A small closed ingestion history: one traced call, then the
sentinel exit that finalizes the trace. -/
def c1events : List Event :=
  [Event.enter
     { name := "f", location := "a.js:1", parameterNames := [],
       callsite := none, args := none, time := some 1 },
   Event.exitF { time := some 3, ret := none, thr := none, yld := none },
   Event.exitF { time := some 5, ret := none, thr := none, yld := none }]

/-! ## Theorems -/

/-! ### Viewport invariants (C9) -/

theorem clamp01_nonneg (x : ℚ) : 0 ≤ clamp01 x := le_max_right _ _

theorem clamp01_le_one (x : ℚ) : clamp01 x ≤ 1 :=
  max_le (min_le_right _ _) (by norm_num)

theorem clamp01_mono {x y : ℚ} (h : x ≤ y) : clamp01 x ≤ clamp01 y :=
  max_le_max_right _ (min_le_min_right _ h)

theorem clamp01_pair {x y : ℚ} (h : x ≤ y) :
    clamp01 (jsOrDefault x 0) ≤ clamp01 (jsOrDefault y 1) := by
  have hone : clamp01 1 = 1 := by unfold clamp01; norm_num
  have hzero : clamp01 0 = 0 := by unfold clamp01; norm_num
  unfold jsOrDefault
  split_ifs with h1 h2 h2
  · exact clamp01_mono (by norm_num)
  · rw [hzero]
    exact clamp01_nonneg _
  · rw [hone]
    exact clamp01_le_one _
  · exact clamp01_mono h

theorem boundsInv_setBounds (b : BoundsSt) (l r : ℚ) : BoundsInv (setBounds b l r) := by
  unfold setBounds
  dsimp only
  refine ⟨clamp01_nonneg _, ?_, clamp01_le_one _⟩
  split
  · exact clamp01_pair (le_of_lt (by assumption))
  · exact clamp01_pair (not_lt.1 (by assumption))

/-- C9: every call to `setBounds`, on arbitrary rational arguments
(out-of-range, reversed or zero), leaves the stored bounds satisfying
`0 ≤ left ≤ right ≤ 1`; and every other viewport operation (`zoom`,
`pan`, `panByPercent`, the `center` setter) re-establishes the same
invariant from any state, since each commits its result through
`setBounds`. -/
theorem c9_viewport_bounds_invariant (b : BoundsSt) (l r v : ℚ) (cp : Option ℚ) :
    BoundsInv (setBounds b l r) ∧ BoundsInv (zoom b v cp) ∧
    BoundsInv (pan b v) ∧ BoundsInv (panByPercent b v) ∧
    BoundsInv (setCenter b l) := by
  refine ⟨boundsInv_setBounds _ _ _, ?_, ?_, ?_, ?_⟩
  · unfold zoom
    dsimp only
    split <;> apply boundsInv_setBounds
  · unfold pan panByPercent
    apply boundsInv_setBounds
  · unfold panByPercent
    apply boundsInv_setBounds
  · unfold setCenter
    apply boundsInv_setBounds

/-! ### The zoom floor (C8) -/

theorem jsOrDefault_zero (x : ℚ) : jsOrDefault x 0 = x := by
  unfold jsOrDefault
  split
  · exact (by assumption : x = 0).symm
  · rfl

theorem jsOrDefault_of_ne {x : ℚ} (d : ℚ) (h : x ≠ 0) : jsOrDefault x d = x := by
  unfold jsOrDefault
  exact if_neg h

theorem clamp01_of_mem {x : ℚ} (h0 : 0 ≤ x) (h1 : x ≤ 1) : clamp01 x = x := by
  unfold clamp01
  rw [min_eq_left h1, max_eq_left h0]

/-- `setBounds` is the identity on already-valid, nonreversed arguments
whose right end is nonzero. -/
theorem setBounds_eq_of_valid (b : BoundsSt) {l r : ℚ}
    (h0 : 0 ≤ l) (hlr : l ≤ r) (h1 : r ≤ 1) (hr : 0 < r) :
    setBounds b l r = { b with left := l, right := r } := by
  unfold setBounds
  dsimp only
  rw [if_neg (not_lt.2 hlr)]
  dsimp only
  rw [jsOrDefault_zero, jsOrDefault_of_ne 1 (ne_of_gt hr),
    clamp01_of_mem h0 (le_trans hlr h1), clamp01_of_mem (le_trans h0 hlr) h1]

/-- C8 (amended): for a zoom-in (`value ≤ 0`) with `centerPercent` in
[0, 1], on a valid bounds state over a positive total time whose center
is at least half the minimum width away from both edges, the resulting
interval width never falls below the minimum-interval floor, and whenever
the guard detects that the shrunk width would fall below the floor the
window becomes exactly the minimum width centered on the pre-call center. -/
theorem c8_zoom_respects_minimum_floor (b : BoundsSt) (value : ℚ) (cp : Option ℚ)
    (hinv : BoundsInv b) (htot : 0 < b.totalTime) (hval : value ≤ 0)
    (hcp : ∀ c ∈ cp, 0 ≤ c ∧ c ≤ 1)
    (hcl : minimumIntervalWidth b / 2 ≤ center b)
    (hcr : center b ≤ 1 - minimumIntervalWidth b / 2) :
    minimumIntervalWidth b ≤ intervalWidth (zoom b value cp) ∧
    (intervalWidth b + 2 * (intervalWidth b * value / 500) < minimumIntervalWidth b →
      zoom b value cp =
        { b with left := center b - minimumIntervalWidth b / 2,
                 right := center b + minimumIntervalWidth b / 2 }) := by
  obtain ⟨hl0, hlr, hr1⟩ := hinv
  have hm : 0 < minimumIntervalWidth b := by
    unfold minimumIntervalWidth minimumIntervalTime
    positivity
  have hw : 0 ≤ intervalWidth b := by
    unfold intervalWidth
    linarith
  have hsnap : setBounds b (center b - minimumIntervalWidth b / 2)
      (center b + minimumIntervalWidth b / 2) =
      { b with left := center b - minimumIntervalWidth b / 2,
               right := center b + minimumIntervalWidth b / 2 } := by
    apply setBounds_eq_of_valid b (by linarith) (by linarith) (by linarith) (by linarith)
  unfold zoom
  dsimp only
  split
  · constructor
    · rw [hsnap]
      unfold intervalWidth
      dsimp only
      linarith
    · intro _
      exact hsnap
  · rename_i hguard
    have hguard2 : minimumIntervalWidth b ≤
        intervalWidth b + 2 * (intervalWidth b * value / 500) := not_lt.1 hguard
    have hz : intervalWidth b * value / 500 ≤ 0 := by
      have h1 : intervalWidth b * value ≤ 0 := mul_nonpos_of_nonneg_of_nonpos hw hval
      exact div_nonpos_iff.2 (Or.inr ⟨h1, by norm_num⟩)
    have hcpv : 0 ≤ cp.getD (1 / 2) ∧ cp.getD (1 / 2) ≤ 1 := by
      cases cp with
      | none => exact ⟨by norm_num, by norm_num⟩
      | some c => exact hcp c rfl
    obtain ⟨hcpv0, hcpv1⟩ := hcpv
    have hlz : intervalWidth b * value / 500 * cp.getD (1 / 2) ≤ 0 :=
      mul_nonpos_of_nonpos_of_nonneg hz hcpv0
    have hrz : intervalWidth b * value / 500 * (1 - cp.getD (1 / 2)) ≤ 0 :=
      mul_nonpos_of_nonpos_of_nonneg hz (by linarith)
    have hwz : minimumIntervalWidth b ≤
        intervalWidth b + intervalWidth b * value / 500 := by linarith
    have hsum : (b.right + intervalWidth b * value / 500 * (1 - cp.getD (1 / 2))) -
        (b.left - intervalWidth b * value / 500 * cp.getD (1 / 2)) =
        intervalWidth b + intervalWidth b * value / 500 := by
      unfold intervalWidth
      ring
    have heq : setBounds b (b.left - intervalWidth b * value / 500 * cp.getD (1 / 2))
        (b.right + intervalWidth b * value / 500 * (1 - cp.getD (1 / 2))) =
        { b with left := b.left - intervalWidth b * value / 500 * cp.getD (1 / 2),
                 right := b.right + intervalWidth b * value / 500 * (1 - cp.getD (1 / 2)) } := by
      apply setBounds_eq_of_valid b (by linarith) (by linarith) (by linarith) (by linarith)
    constructor
    · rw [heq]
      unfold intervalWidth
      dsimp only
      unfold intervalWidth at hsum hwz
      linarith
    · intro hcontra
      exact absurd hcontra hguard

theorem c8_zoom_respects_minimum_floor_witness :
    minimumIntervalWidth { totalTime := 10, left := 0, right := 1 } ≤
      intervalWidth (zoom { totalTime := 10, left := 0, right := 1 } (-1000) (some (1 / 2))) ∧
    (intervalWidth { totalTime := (10 : ℚ), left := 0, right := 1 } +
        2 * (intervalWidth { totalTime := (10 : ℚ), left := 0, right := 1 } * (-1000) / 500) <
        minimumIntervalWidth { totalTime := 10, left := 0, right := 1 } →
      zoom { totalTime := 10, left := 0, right := 1 } (-1000) (some (1 / 2)) =
        { totalTime := 10,
          left := center { totalTime := 10, left := 0, right := 1 } -
            minimumIntervalWidth { totalTime := 10, left := 0, right := 1 } / 2,
          right := center { totalTime := 10, left := 0, right := 1 } +
            minimumIntervalWidth { totalTime := 10, left := 0, right := 1 } / 2 }) :=
  c8_zoom_respects_minimum_floor { totalTime := 10, left := 0, right := 1 } (-1000)
    (some (1 / 2))
    ⟨by norm_num, by norm_num, by norm_num⟩ (by norm_num) (by norm_num)
    (by
      intro c hc
      rw [Option.mem_def, Option.some_inj] at hc
      subst hc
      norm_num)
    (by norm_num [minimumIntervalWidth, minimumIntervalTime, center, intervalWidth])
    (by norm_num [minimumIntervalWidth, minimumIntervalTime, center, intervalWidth])

/-- C8 (counterexample to the claim as stated): on the bounds state with
total time 10 (minimum floor 3/10) and the degenerate window
[1/100, 1/100] (reachable via `setBounds(0.01, 0.01)`), any zoom takes
the snap branch, but the snapped window is clamped at the left edge: the
result is [0, 4/25], whose width 4/25 is below the floor 3/10, and it is
not the minimum width centered on the pre-call center. -/
theorem c8_counterexample :
    let b : BoundsSt := { totalTime := 10, left := 1 / 100, right := 1 / 100 }
    setBounds { totalTime := 10, left := 0, right := 1 } (1 / 100) (1 / 100) = b ∧
    intervalWidth (zoom b (-1000) (some (1 / 2))) < minimumIntervalWidth b := by
  constructor
  · norm_num [setBounds, jsOrDefault, clamp01, min_def, max_def]
  · norm_num [zoom, setBounds, intervalWidth, minimumIntervalWidth, minimumIntervalTime,
      center, jsOrDefault, clamp01, min_def, max_def]

/-! ### List helper lemmas shared by the trace proofs -/

theorem listGet?_modify (l : List α) (f : α → α) (i j : Nat) :
    (l.modify f i).get? j = if i = j then (l.get? j).map f else l.get? j := by
  rw [List.get?_eq_getElem?, List.get?_eq_getElem?, List.getElem?_modify]
  split <;> cases l[j]? <;> rfl

theorem listGet?_append_left (l l2 : List α) {j : Nat} (h : j < l.length) :
    (l ++ l2).get? j = l.get? j := by
  rw [List.get?_eq_getElem?, List.get?_eq_getElem?, List.getElem?_append_left h]

theorem listGet?_append_right (l l2 : List α) {j : Nat} (h : l.length ≤ j) :
    (l ++ l2).get? j = l2.get? (j - l.length) := by
  rw [List.get?_eq_getElem?, List.get?_eq_getElem?, List.getElem?_append_right h]

theorem listGet?_append_len (l : List α) (a : α) (l2 : List α) :
    (l ++ a :: l2).get? l.length = some a := by
  rw [listGet?_append_right _ _ (le_refl _), Nat.sub_self]
  rfl

/-! ### Sentinel-exit finalization (C3) -/

/-- C3: a frame-exited event arriving while the sentinel is on top of the
call stack finalizes the trace instead of performing a normal exit: the
client listeners are detached, the live stack is nulled, `finished`
becomes true, and every other component (frames, root list, aggregate
table, timing bounds) is left untouched; in particular a single bare exit
at t = 0 on a fresh trace yields a finished trace with zero frames. -/
theorem c3_sentinel_exit_finalizes (st : TraceSt) (p : ExitPacket)
    (rest : List (Option Nat)) (hstack : st.stack = some (none :: rest))
    (hclient : st.hasClient = true) :
    Trace.onExitedFrame st p =
      { st with listening := false, stack := none, finished := true } ∧
    (Trace.run (newTrace true) [.exitF ⟨some 0, none, none, none⟩]).finished = true ∧
    (Trace.run (newTrace true) [.exitF ⟨some 0, none, none, none⟩]).frames = [] := by
  refine ⟨?_, rfl, rfl⟩
  unfold Trace.onExitedFrame
  rw [hstack]
  unfold Trace.finish
  rw [hclient]
  rfl

theorem c3_sentinel_exit_finalizes_witness :
    (newTrace true).stack = some (none :: []) ∧ (newTrace true).hasClient = true ∧
    (Trace.onExitedFrame (newTrace true) ⟨some 0, none, none, none⟩ =
      { newTrace true with listening := false, stack := none, finished := true } ∧
    (Trace.run (newTrace true) [.exitF ⟨some 0, none, none, none⟩]).finished = true ∧
    (Trace.run (newTrace true) [.exitF ⟨some 0, none, none, none⟩]).frames = []) :=
  ⟨rfl, rfl,
    c3_sentinel_exit_finalizes (newTrace true) ⟨some 0, none, none, none⟩ [] rfl rfl⟩

/-! ### Sibling and parent links on enter (C7) -/

/-- C7 (counterexample to the claim as stated): the `if (current)` guard
is always satisfied — the sentinel is the trace object, which is truthy —
so a root-level frame does get its `older` back-reference set, namely to
the trace itself (`some none` in the embedding), rather than having no
`older` reference at all. -/
theorem c7_counterexample :
    ((Trace.run (newTrace true)
        [.enter ⟨"A", "locA", [], none, none, some 0⟩]).frames.get? 0).map
      FrameSt.older = some (some none) ∧
    ((Trace.run (newTrace true)
        [.enter ⟨"A", "locA", [], none, none, some 0⟩]).frames.get? 0).map
      FrameSt.older ≠ some none := by
  exact ⟨rfl, by decide⟩

/-- C7 (amended): the wiring on enter is unconditional with respect to
the sentinel: the new frame's `older` is always the current stack top
(root frames reference the trace object itself), its `previous` is the
last existing child of that top (the root list included), and an existing
previous sibling stored at a valid uid gets its `next` redirected to the
new frame. -/
theorem c7_enter_sets_links (st : TraceSt) (p : EnterPacket) (current : Option Nat)
    (rest : List (Option Nat)) (hstack : st.stack = some (current :: rest)) :
    ((Trace.onEnteredFrame st p).frames.get? st.frames.length).map FrameSt.older =
      some (some current) ∧
    ((Trace.onEnteredFrame st p).frames.get? st.frames.length).map FrameSt.previous =
      some (lastChildOf st current) ∧
    ∀ pu, lastChildOf st current = some pu → pu < st.frames.length →
      ((Trace.onEnteredFrame st p).frames.get? pu).map FrameSt.next =
        some (some st.frames.length) := by
  unfold Trace.onEnteredFrame
  rw [hstack]
  dsimp only
  cases hprev : lastChildOf st current with
  | none =>
    cases current with
    | none =>
      dsimp only
      refine ⟨?_, ?_, ?_⟩
      · rw [listGet?_append_len]
        rfl
      · rw [listGet?_append_len]
        rfl
      · intro pu hpu
        exact absurd hpu (by simp)
    | some cu =>
      dsimp only
      refine ⟨?_, ?_, ?_⟩
      · rw [listGet?_modify]
        split
        · rw [listGet?_append_len]
          rfl
        · rw [listGet?_append_len]
          rfl
      · rw [listGet?_modify]
        split
        · rw [listGet?_append_len]
          rfl
        · rw [listGet?_append_len]
          rfl
      · intro pu hpu
        exact absurd hpu (by simp)
  | some pu0 =>
    have hlen : (st.frames.modify (fun fr => { fr with next := some st.frames.length })
        pu0).length = st.frames.length := List.length_modify ..
    cases current with
    | none =>
      dsimp only
      refine ⟨?_, ?_, ?_⟩
      · rw [listGet?_append_right _ _ (le_of_eq hlen), hlen, Nat.sub_self]
        rfl
      · rw [listGet?_append_right _ _ (le_of_eq hlen), hlen, Nat.sub_self]
        rfl
      · intro pu hpu hlt
        obtain rfl := Option.some.inj hpu
        rw [listGet?_append_left _ _ (by rw [hlen]; exact hlt), listGet?_modify, if_pos rfl,
          List.get?_eq_get hlt]
        rfl
    | some cu =>
      dsimp only
      refine ⟨?_, ?_, ?_⟩
      · rw [listGet?_modify]
        split
        · rw [listGet?_append_right _ _ (le_of_eq hlen), hlen, Nat.sub_self]
          rfl
        · rw [listGet?_append_right _ _ (le_of_eq hlen), hlen, Nat.sub_self]
          rfl
      · rw [listGet?_modify]
        split
        · rw [listGet?_append_right _ _ (le_of_eq hlen), hlen, Nat.sub_self]
          rfl
        · rw [listGet?_append_right _ _ (le_of_eq hlen), hlen, Nat.sub_self]
          rfl
      · intro pu hpu hlt
        obtain rfl := Option.some.inj hpu
        rw [listGet?_modify]
        split
        · rw [listGet?_append_left _ _ (by rw [hlen]; exact hlt), listGet?_modify, if_pos rfl,
            List.get?_eq_get hlt]
          rfl
        · rw [listGet?_append_left _ _ (by rw [hlen]; exact hlt), listGet?_modify, if_pos rfl,
            List.get?_eq_get hlt]
          rfl

theorem c7_enter_sets_links_witness :
    (Trace.run (newTrace true) [.enter ⟨"A", "locA", [], none, none, some 0⟩]).stack =
      some (some 0 :: [none]) ∧
    (((Trace.onEnteredFrame
        (Trace.run (newTrace true) [.enter ⟨"A", "locA", [], none, none, some 0⟩])
        ⟨"B", "locB", [], none, none, some 1⟩).frames.get?
        (Trace.run (newTrace true)
          [.enter ⟨"A", "locA", [], none, none, some 0⟩]).frames.length).map
        FrameSt.older = some (some (some 0)) ∧
    ((Trace.onEnteredFrame
        (Trace.run (newTrace true) [.enter ⟨"A", "locA", [], none, none, some 0⟩])
        ⟨"B", "locB", [], none, none, some 1⟩).frames.get?
        (Trace.run (newTrace true)
          [.enter ⟨"A", "locA", [], none, none, some 0⟩]).frames.length).map
        FrameSt.previous = some (lastChildOf
          (Trace.run (newTrace true) [.enter ⟨"A", "locA", [], none, none, some 0⟩])
          (some 0)) ∧
    ∀ pu, lastChildOf
        (Trace.run (newTrace true) [.enter ⟨"A", "locA", [], none, none, some 0⟩])
        (some 0) = some pu →
      pu < (Trace.run (newTrace true)
        [.enter ⟨"A", "locA", [], none, none, some 0⟩]).frames.length →
      ((Trace.onEnteredFrame
          (Trace.run (newTrace true) [.enter ⟨"A", "locA", [], none, none, some 0⟩])
          ⟨"B", "locB", [], none, none, some 1⟩).frames.get? pu).map FrameSt.next =
        some (some (Trace.run (newTrace true)
          [.enter ⟨"A", "locA", [], none, none, some 0⟩]).frames.length)) :=
  ⟨rfl, c7_enter_sets_links _ ⟨"B", "locB", [], none, none, some 1⟩ (some 0) [none] rfl⟩

/-! ### Malformed events (C5) -/

theorem listGet?_set_self (l : List α) (a : α) {u : Nat} (h : u < l.length) :
    (l.set u a).get? u = some a := by
  rw [List.get?_eq_getElem?, List.getElem?_set_eq_of_lt a h]

/-- C5 (counterexample to the claim as stated): no validation happens
before mutation.  After a well-formed enter at t = 0, feeding an enter
packet with no `time` field commits its mutations: a second frame is
appended (with undefined `startTime`) and the trace's `endTime` is
clobbered from 0 to undefined — the state is not left unchanged. -/
theorem c5_counterexample :
    (Trace.run (newTrace true) [.enter ⟨"A", "locA", [], none, none, some 0⟩]).frames.length
      = 1 ∧
    (Trace.run (newTrace true) [.enter ⟨"A", "locA", [], none, none, some 0⟩]).endTime
      = some 0 ∧
    (Trace.onEnteredFrame
      (Trace.run (newTrace true) [.enter ⟨"A", "locA", [], none, none, some 0⟩])
      ⟨"B", "locB", [], none, none, none⟩).frames.length = 2 ∧
    (Trace.onEnteredFrame
      (Trace.run (newTrace true) [.enter ⟨"A", "locA", [], none, none, some 0⟩])
      ⟨"B", "locB", [], none, none, none⟩).endTime = none ∧
    (Trace.onEnteredFrame
        (Trace.run (newTrace true) [.enter ⟨"A", "locA", [], none, none, some 0⟩])
        ⟨"B", "locB", [], none, none, none⟩) ≠
      Trace.run (newTrace true) [.enter ⟨"A", "locA", [], none, none, some 0⟩] := by
  refine ⟨rfl, rfl, rfl, rfl, ?_⟩
  intro h
  have h1 := congrArg TraceSt.endTime h
  simp only at h1
  exact Option.noConfusion h1

/-- C5 (amended): events are not validated; a packet missing its `time`
field is processed exactly like a well-formed one, committing every
structural mutation.  A time-less enter appends a frame (with undefined
`startTime`), grows the stack, and sets the trace `endTime` to undefined;
a time-less exit on a frame top pops the stack and closes the frame with
an undefined `endTime`.  Processing never throws and the structural
bookkeeping stays consistent, but atomicity-on-error does not hold. -/
theorem c5_malformed_event_commits (st : TraceSt) (p : EnterPacket)
    (current : Option Nat) (rest : List (Option Nat))
    (hstack : st.stack = some (current :: rest)) (htime : p.time = none) :
    ((Trace.onEnteredFrame st p).frames.length = st.frames.length + 1 ∧
      (Trace.onEnteredFrame st p).endTime = none ∧
      (Trace.onEnteredFrame st p).stack = some (some st.frames.length :: current :: rest) ∧
      ((Trace.onEnteredFrame st p).frames.get? st.frames.length).map FrameSt.startTime =
        some none) ∧
    ∀ u rest2 (q : ExitPacket), st.stack = some (some u :: rest2) → q.time = none →
      u < st.frames.length →
      (Trace.onExitedFrame st q).stack = some rest2 ∧
      ((Trace.onExitedFrame st q).frames.get? u).map FrameSt.endTime = some none := by
  constructor
  · unfold Trace.onEnteredFrame
    rw [hstack]
    dsimp only
    cases hprev : lastChildOf st current with
    | none =>
      cases current with
      | none =>
        refine ⟨by simp, by rw [htime], rfl, ?_⟩
        rw [listGet?_append_len, htime]
        rfl
      | some cu =>
        refine ⟨by simp [List.length_modify], by rw [htime], rfl, ?_⟩
        rw [listGet?_modify]
        split
        · rw [listGet?_append_len, htime]
          rfl
        · rw [listGet?_append_len, htime]
          rfl
    | some pu0 =>
      have hlen : (st.frames.modify (fun fr => { fr with next := some st.frames.length })
          pu0).length = st.frames.length := List.length_modify ..
      cases current with
      | none =>
        refine ⟨by simp [hlen], by rw [htime], rfl, ?_⟩
        rw [listGet?_append_right _ _ (le_of_eq hlen), hlen, Nat.sub_self, htime]
        rfl
      | some cu =>
        refine ⟨by simp [List.length_modify, hlen], by rw [htime], rfl, ?_⟩
        rw [listGet?_modify]
        split
        · rw [listGet?_append_right _ _ (le_of_eq hlen), hlen, Nat.sub_self, htime]
          rfl
        · rw [listGet?_append_right _ _ (le_of_eq hlen), hlen, Nat.sub_self, htime]
          rfl
  · intro u rest2 q hstack2 hqtime hlt
    unfold Trace.onExitedFrame
    rw [hstack2]
    dsimp only
    rw [List.get?_eq_get hlt]
    dsimp only
    refine ⟨rfl, ?_⟩
    rw [listGet?_set_self _ _ hlt, hqtime]
    rfl

theorem c5_malformed_event_commits_witness :
    ((Trace.run (newTrace true) [.enter ⟨"A", "locA", [], none, none, some 0⟩]).stack =
      some (some 0 :: [none]) ∧
    (⟨"B", "locB", [], none, none, none⟩ : EnterPacket).time = none) ∧
    (((Trace.onEnteredFrame
        (Trace.run (newTrace true) [.enter ⟨"A", "locA", [], none, none, some 0⟩])
        ⟨"B", "locB", [], none, none, none⟩).frames.length =
        (Trace.run (newTrace true)
          [.enter ⟨"A", "locA", [], none, none, some 0⟩]).frames.length + 1 ∧
      (Trace.onEnteredFrame
        (Trace.run (newTrace true) [.enter ⟨"A", "locA", [], none, none, some 0⟩])
        ⟨"B", "locB", [], none, none, none⟩).endTime = none ∧
      (Trace.onEnteredFrame
        (Trace.run (newTrace true) [.enter ⟨"A", "locA", [], none, none, some 0⟩])
        ⟨"B", "locB", [], none, none, none⟩).stack =
        some (some (Trace.run (newTrace true)
          [.enter ⟨"A", "locA", [], none, none, some 0⟩]).frames.length ::
          some 0 :: [none]) ∧
      ((Trace.onEnteredFrame
          (Trace.run (newTrace true) [.enter ⟨"A", "locA", [], none, none, some 0⟩])
          ⟨"B", "locB", [], none, none, none⟩).frames.get?
          (Trace.run (newTrace true)
            [.enter ⟨"A", "locA", [], none, none, some 0⟩]).frames.length).map
        FrameSt.startTime = some none) ∧
    ∀ u rest2 (q : ExitPacket),
      (Trace.run (newTrace true)
        [.enter ⟨"A", "locA", [], none, none, some 0⟩]).stack = some (some u :: rest2) →
      q.time = none →
      u < (Trace.run (newTrace true)
        [.enter ⟨"A", "locA", [], none, none, some 0⟩]).frames.length →
      (Trace.onExitedFrame
        (Trace.run (newTrace true) [.enter ⟨"A", "locA", [], none, none, some 0⟩])
        q).stack = some rest2 ∧
      ((Trace.onExitedFrame
          (Trace.run (newTrace true) [.enter ⟨"A", "locA", [], none, none, some 0⟩])
          q).frames.get? u).map FrameSt.endTime = some none) :=
  ⟨⟨rfl, rfl⟩,
    c5_malformed_event_commits
      (Trace.run (newTrace true) [.enter ⟨"A", "locA", [], none, none, some 0⟩])
      ⟨"B", "locB", [], none, none, none⟩ (some 0) [none] rfl rfl⟩

/-! ### The uid/index invariant and frameByUid (C10) -/

theorem listGet?_set_gen (l : List α) (u : Nat) (a : α) (i : Nat) :
    (l.set u a).get? i = if u = i then ((l.get? i).map (fun _ => a)) else l.get? i := by
  rw [List.get?_eq_getElem?, List.get?_eq_getElem?]
  split
  · subst ‹u = i›
    rw [List.getElem?_set_self']
    rfl
  · rw [List.getElem?_set_ne ‹u ≠ i›]

theorem uidList_modify (l : List FrameSt) (g : FrameSt → FrameSt)
    (hg : ∀ fr, (g fr).uid = fr.uid) (j : Nat) (h : uidList l) :
    uidList (l.modify g j) := by
  intro i fr hi
  rw [listGet?_modify] at hi
  split at hi
  · obtain ⟨fr0, hfr0, hmap⟩ := Option.map_eq_some'.1 hi
    rw [← hmap, hg]
    exact h i fr0 hfr0
  · exact h i fr hi

theorem uidList_append_one (l : List FrameSt) (fnew : FrameSt)
    (hnew : fnew.uid = l.length) (h : uidList l) : uidList (l ++ [fnew]) := by
  intro i fr hi
  rcases lt_trichotomy i l.length with hlt | heq | hgt
  · rw [listGet?_append_left _ _ hlt] at hi
    exact h i fr hi
  · subst heq
    rw [listGet?_append_len] at hi
    cases hi
    exact hnew
  · rw [listGet?_append_right _ _ (le_of_lt hgt)] at hi
    have h2 : ([fnew]).length ≤ i - l.length := by
      simp only [List.length_singleton]
      omega
    rw [List.get?_eq_none.2 h2] at hi
    exact Option.noConfusion hi

theorem uidList_set (l : List FrameSt) (u : Nat) (a : FrameSt) (fr0 : FrameSt)
    (hget : l.get? u = some fr0) (ha : a.uid = fr0.uid) (h : uidList l) :
    uidList (l.set u a) := by
  intro i fr hi
  rw [listGet?_set_gen] at hi
  split at hi
  · subst ‹u = i›
    rw [hget] at hi
    cases hi
    rw [ha]
    exact h u fr0 hget
  · exact h i fr hi

theorem uidList_enter (st : TraceSt) (p : EnterPacket) (h : uidList st.frames) :
    uidList (Trace.onEnteredFrame st p).frames := by
  unfold Trace.onEnteredFrame
  rcases hst : st.stack with _ | stk
  · exact h
  · rcases stk with _ | ⟨current, rest⟩
    · exact h
    · dsimp only
      cases hprev : lastChildOf st current with
      | none =>
        cases current with
        | none =>
          dsimp only
          exact uidList_append_one _ _ rfl h
        | some cu =>
          dsimp only
          refine uidList_modify _ _ ?_ cu (uidList_append_one _ _ rfl h)
          intro fr
          rfl
      | some pu0 =>
        have hlen : (st.frames.modify
            (fun fr => { fr with next := some st.frames.length }) pu0).length =
            st.frames.length := List.length_modify ..
        cases current with
        | none =>
          dsimp only
          refine uidList_append_one _ _ hlen.symm ?_
          refine uidList_modify _ _ ?_ pu0 h
          intro fr
          rfl
        | some cu =>
          dsimp only
          refine uidList_modify _ _ ?_ cu ?_
          · intro fr
            rfl
          · refine uidList_append_one _ _ hlen.symm ?_
            refine uidList_modify _ _ ?_ pu0 h
            intro fr
            rfl

theorem uidList_exit (st : TraceSt) (p : ExitPacket) (h : uidList st.frames) :
    uidList (Trace.onExitedFrame st p).frames := by
  unfold Trace.onExitedFrame
  rcases hst : st.stack with _ | stk
  · exact h
  · rcases stk with _ | ⟨current, rest⟩
    · exact h
    · cases current with
      | none =>
        dsimp only
        unfold Trace.finish
        split <;> exact h
      | some u =>
        dsimp only
        rcases hget : st.frames.get? u with _ | fr
        · exact h
        · dsimp only
          exact uidList_set _ u _ fr hget rfl h

theorem uidList_run (st : TraceSt) (es : List Event) (h : uidList st.frames) :
    uidList (Trace.run st es).frames := by
  induction es generalizing st with
  | nil => exact h
  | cons e rest ih =>
    cases e with
    | enter p => exact ih _ (uidList_enter st p h)
    | exitF p => exact ih _ (uidList_exit st p h)

/-- C10: at every point of ingestion (after any event prefix, starting
from a fresh trace) every stored frame sits at the index equal to its own
uid, so `frameByUid u` returns exactly the unique frame whose uid is `u`,
and `frameByUid` on any uid at or beyond `frames.length` returns
`undefined` (`none`) rather than raising. -/
theorem c10_frames_indexed_by_uid (es : List Event) :
    (∀ i fr, (Trace.run (newTrace true) es).frames.get? i = some fr → fr.uid = i) ∧
    (∀ u fr, Trace.frameByUid (Trace.run (newTrace true) es) u = some fr → fr.uid = u) ∧
    (∀ u, (Trace.run (newTrace true) es).frames.length ≤ u →
      Trace.frameByUid (Trace.run (newTrace true) es) u = none) ∧
    (∀ u i fr, (Trace.run (newTrace true) es).frames.get? i = some fr → fr.uid = u →
      i = u) := by
  have huid : uidList (Trace.run (newTrace true) es).frames :=
    uidList_run _ es (fun i fr hi => by cases i <;> exact absurd hi (by simp [newTrace]))
  refine ⟨huid, fun u fr h => huid u fr h, ?_, ?_⟩
  · intro u hu
    unfold Trace.frameByUid
    exact List.get?_eq_none.2 hu
  · intro u i fr hget hu
    rw [← hu]
    exact (huid i fr hget).symm

theorem c10_frames_indexed_by_uid_witness :
    Trace.frameByUid
      (Trace.run (newTrace true) [.enter ⟨"A", "locA", [], none, none, some 0⟩]) 1 =
      none ∧
    ({ uid := 0, depth := 0, childrenL := [], older := some none, previous := none,
       next := none, fid := 0, name := "A", location := "locA", parameterNames := [],
       callsite := none, args := none, startTime := some 0, endTime := none,
       totalTime := none, selfTime := none, ret := none, thr := none,
       yld := none } : FrameSt).uid = 0 :=
  ⟨(c10_frames_indexed_by_uid [.enter ⟨"A", "locA", [], none, none, some 0⟩]).2.2.1 1
      (by decide),
    (c10_frames_indexed_by_uid [.enter ⟨"A", "locA", [], none, none, some 0⟩]).1 0
      { uid := 0, depth := 0, childrenL := [], older := some none, previous := none,
        next := none, fid := 0, name := "A", location := "locA", parameterNames := [],
        callsite := none, args := none, startTime := some 0, endTime := none,
        totalTime := none, selfTime := none, ret := none, thr := none, yld := none } rfl⟩

/-! ### Trace-wide timing bounds (C6) -/

theorem run_append (st : TraceSt) (es1 es2 : List Event) :
    Trace.run st (es1 ++ es2) = Trace.run (Trace.run st es1) es2 :=
  List.foldl_append ..

theorem run_single (st : TraceSt) (e : Event) : Trace.run st [e] = Trace.step st e := rfl

/-- The scalar effects of one enter event on a live stack. -/
theorem enter_scalars (st : TraceSt) (p : EnterPacket) (l : List (Option Nat))
    (hstack : st.stack = some l) (hne : l ≠ []) :
    (Trace.onEnteredFrame st p).frames.length = st.frames.length + 1 ∧
    (Trace.onEnteredFrame st p).endTime = p.time ∧
    (Trace.onEnteredFrame st p).startTime =
      (if st.startTime.isNone then p.time else st.startTime) ∧
    (Trace.onEnteredFrame st p).stack = some (some st.frames.length :: l) ∧
    (Trace.onEnteredFrame st p).finished = st.finished ∧
    (Trace.onEnteredFrame st p).hasClient = st.hasClient ∧
    (Trace.onEnteredFrame st p).functions.length =
      (if (st.fmap.lookup (locationToString p.location p.name)).isSome
        then st.functions.length else st.functions.length + 1) := by
  obtain ⟨c, rest, rfl⟩ := List.exists_cons_of_ne_nil hne
  unfold Trace.onEnteredFrame
  rw [hstack]
  dsimp only
  cases hkey : st.fmap.lookup (locationToString p.location p.name) with
  | none =>
    cases hprev : lastChildOf st c with
    | none =>
      cases c with
      | none => exact ⟨by simp, rfl, rfl, rfl, rfl, rfl, by simp [List.length_modify]⟩
      | some cu =>
        exact ⟨by simp [List.length_modify], rfl, rfl, rfl, rfl, rfl,
          by simp [List.length_modify]⟩
    | some pu0 =>
      cases c with
      | none =>
        exact ⟨by simp [List.length_modify], rfl, rfl, rfl, rfl, rfl,
          by simp [List.length_modify]⟩
      | some cu =>
        exact ⟨by simp [List.length_modify], rfl, rfl, rfl, rfl, rfl,
          by simp [List.length_modify]⟩
  | some fid0 =>
    cases hprev : lastChildOf st c with
    | none =>
      cases c with
      | none => exact ⟨by simp, rfl, rfl, rfl, rfl, rfl, by simp [List.length_modify]⟩
      | some cu =>
        exact ⟨by simp [List.length_modify], rfl, rfl, rfl, rfl, rfl,
          by simp [List.length_modify]⟩
    | some pu0 =>
      cases c with
      | none =>
        exact ⟨by simp [List.length_modify], rfl, rfl, rfl, rfl, rfl,
          by simp [List.length_modify]⟩
      | some cu =>
        exact ⟨by simp [List.length_modify], rfl, rfl, rfl, rfl, rfl,
          by simp [List.length_modify]⟩

/-- The scalar effects of one exit event popping a valid frame. -/
theorem exit_scalars (st : TraceSt) (p : ExitPacket) (u : Nat)
    (rest : List (Option Nat)) (hstack : st.stack = some (some u :: rest))
    (hu : u < st.frames.length) :
    (Trace.onExitedFrame st p).endTime =
      (if jsFalsy st.endTime || jsGt p.time st.endTime then p.time else st.endTime) ∧
    (Trace.onExitedFrame st p).startTime = st.startTime ∧
    (Trace.onExitedFrame st p).stack = some rest ∧
    (Trace.onExitedFrame st p).finished = st.finished ∧
    (Trace.onExitedFrame st p).hasClient = st.hasClient ∧
    (Trace.onExitedFrame st p).frames.length = st.frames.length ∧
    (Trace.onExitedFrame st p).functions.length = st.functions.length := by
  unfold Trace.onExitedFrame
  rw [hstack]
  dsimp only
  rw [List.get?_eq_get hu]
  dsimp only
  exact ⟨rfl, rfl, rfl, rfl, rfl, by simp, by simp [List.length_modify]⟩

theorem enter_finished (st : TraceSt) (p : EnterPacket) :
    (Trace.onEnteredFrame st p).finished = st.finished := by
  unfold Trace.onEnteredFrame
  rcases hst : st.stack with _ | (_ | ⟨c, rest⟩)
  · rfl
  · rfl
  · rfl

theorem exit_finished (st : TraceSt) (p : ExitPacket) :
    (Trace.onExitedFrame st p).finished = st.finished ∨
    (Trace.onExitedFrame st p).finished = true := by
  unfold Trace.onExitedFrame
  rcases hst : st.stack with _ | (_ | ⟨c, rest⟩)
  · exact Or.inl rfl
  · exact Or.inl rfl
  · cases c with
    | none =>
      dsimp only
      unfold Trace.finish
      split
      · exact Or.inr rfl
      · exact Or.inl rfl
    | some u =>
      dsimp only
      rcases hget : st.frames.get? u with _ | fr
      · exact Or.inl rfl
      · exact Or.inl rfl

/-- If a run ends unfinished, it was unfinished all along. -/
theorem run_finished_back (es : List Event) (st : TraceSt)
    (h : (Trace.run st es).finished = false) : st.finished = false := by
  induction es generalizing st with
  | nil => exact h
  | cons e rest ih =>
    have h1 : (Trace.step st e).finished = false := ih _ h
    cases e with
    | enter p => rw [← enter_finished st p]; exact h1
    | exitF p =>
      rcases exit_finished st p with h2 | h2
      · rw [← h2]; exact h1
      · rw [Trace.step] at h1; rw [h2] at h1; exact absurd h1 (by simp)

theorem getLast_append_one (l : List α) (a : α) (h : l ++ [a] ≠ []) :
    (l ++ [a]).getLast h = a := List.getLast_append_singleton l

theorem firstEnterTime_append (es1 es2 : List Event) (hwf : wfEvents es1) :
    firstEnterTime (es1 ++ es2) =
      match firstEnterTime es1 with
      | some t => some t
      | none => firstEnterTime es2 := by
  induction es1 with
  | nil => rfl
  | cons e rest ih =>
    cases e with
    | enter p =>
      rcases hpt : p.time with _ | t
      · exact absurd (hwf (.enter p) (List.mem_cons_self _ _)) (by simp [Event.time, hpt])
      · simp [firstEnterTime, hpt]
    | exitF p =>
      have hwf1 : wfEvents rest := fun x hx => hwf x (List.mem_cons_of_mem _ hx)
      simpa [firstEnterTime] using ih hwf1

/-- The combined run invariant behind C6: live shape, the startTime
formula, and the endTime watermark, for well-formed monotone event lists
that do not hit the sentinel-exit finalization. -/
theorem c6_run_invariant (es : List Event) (hwf : wfEvents es) (hmono : monoEvents es)
    (hfin : (Trace.run (newTrace true) es).finished = false) :
    StackShape (Trace.run (newTrace true) es) ∧
    (Trace.run (newTrace true) es).startTime = firstEnterTime es ∧
    (es = [] → (Trace.run (newTrace true) es).endTime = none) ∧
    (∀ h : es ≠ [], (Trace.run (newTrace true) es).endTime =
      some (timeD (es.getLast h))) := by
  induction es using List.reverseRecOn with
  | nil =>
    refine ⟨⟨rfl, [], rfl, by simp⟩, rfl, fun _ => rfl, fun h => absurd rfl h⟩
  | append_singleton es e ih =>
    have hwf1 : wfEvents es := fun x hx => hwf x (List.mem_append_left _ hx)
    have hwfe : (Event.time e).isSome = true :=
      hwf e (List.mem_append_right _ (List.mem_singleton_self e))
    have hmono1 : monoEvents es := (List.chain'_append.1 hmono).1
    have hlink : ∀ x ∈ es.getLast?, timeD x ≤ timeD e := by
      intro x hx
      exact (List.chain'_append.1 hmono).2.2 x hx e rfl
    rw [run_append] at hfin ⊢
    rw [run_single] at hfin ⊢
    have hfin1 : (Trace.run (newTrace true) es).finished = false :=
      run_finished_back [e] _ (by rw [run_single]; exact hfin)
    obtain ⟨⟨hcl, sp, hstk, hvalid⟩, hstart, hend0, hendL⟩ := ih hwf1 hmono1 hfin1
    obtain ⟨te, hte⟩ := Option.isSome_iff_exists.1 hwfe
    cases e with
    | enter p =>
      obtain ⟨hlen, hend, hstart2, hstk2, hfin2, hcl2, _⟩ :=
        enter_scalars (Trace.run (newTrace true) es) p _ hstk (by simp)
      refine ⟨⟨?_, ?_⟩, ?_, ?_, ?_⟩
      · rw [Trace.step, hcl2]; exact hcl
      · refine ⟨(Trace.run (newTrace true) es).frames.length :: sp, ?_, ?_⟩
        · rw [Trace.step, hstk2]; rfl
        · intro u hu
          rw [Trace.step, hlen]
          rcases List.mem_cons.1 hu with rfl | hu2
          · omega
          · exact lt_trans (hvalid u hu2) (by omega)
      · rw [Trace.step, hstart2, firstEnterTime_append _ _ hwf1]
        rcases hfe : firstEnterTime es with _ | s
        · rw [hstart] at hstart2 ⊢
          rw [hfe]
          simp [firstEnterTime]
        · rw [hstart, hfe]
          simp
      · intro habs
        exact absurd habs (by simp)
      · intro h
        rw [Trace.step, hend, getLast_append_one]
        have htep : p.time = some te := hte
        have h2 : timeD (Event.enter p) = te := by
          simp only [timeD, Event.time, htep, Option.getD_some]
        rw [htep, h2]
    | exitF p =>
      cases sp with
      | nil =>
        exfalso
        rw [Trace.step] at hfin
        rw [List.map_nil, List.nil_append] at hstk
        unfold Trace.onExitedFrame at hfin
        rw [hstk] at hfin
        dsimp only at hfin
        unfold Trace.finish at hfin
        rw [hcl] at hfin
        simp at hfin
      | cons u sp0 =>
        have hu : u < (Trace.run (newTrace true) es).frames.length :=
          hvalid u (List.mem_cons_self u sp0)
        obtain ⟨hend, hstart2, hstk2, hfin2, hcl2, hlen, _⟩ :=
          exit_scalars (Trace.run (newTrace true) es) p u _ (by rw [hstk]; rfl) hu
        refine ⟨⟨?_, ?_⟩, ?_, ?_, ?_⟩
        · rw [Trace.step, hcl2]; exact hcl
        · refine ⟨sp0, ?_, ?_⟩
          · rw [Trace.step, hstk2]
            exact rfl
          · intro v hv
            rw [Trace.step, hlen]
            exact hvalid v (List.mem_cons_of_mem _ hv)
        · rw [Trace.step, hstart2, hstart, firstEnterTime_append _ _ hwf1]
          rcases hfe : firstEnterTime es with _ | s
          · simp [firstEnterTime]
          · simp
        · intro habs
          exact absurd habs (by simp)
        · intro h
          rw [Trace.step, hend, getLast_append_one]
          have htep : p.time = some te := hte
          have hteq : p.time = some (timeD (Event.exitF p)) := by
            simp only [timeD, Event.time, htep, Option.getD_some]
          rcases Decidable.em (es = []) with rfl | hne
          · rw [hend0 rfl]
            rw [hteq]
            rfl
          · have hlast := hendL hne
            have hlink2 : timeD (es.getLast hne) ≤ timeD (Event.exitF p) := by
              apply hlink
              rw [List.getLast?_eq_getLast _ hne]
              rfl
            rw [hlast]
            rw [hteq]
            set tl := timeD (es.getLast hne) with htl
            set tn := timeD (Event.exitF p) with htn
            rcases Decidable.em (tl = 0) with h0 | h0
            · simp [jsFalsy, h0]
            · rcases Decidable.em (tl < tn) with hlt | hlt
              · simp [jsFalsy, jsGt, h0, hlt]
              · have : tl = tn := le_antisymm hlink2 (not_lt.1 hlt)
                simp [jsFalsy, jsGt, h0, hlt, this]

/-- C6 (amended): under well-formed packets, non-decreasing timestamps
and no sentinel-exit finalization: `startTime` equals the time of the
first enter event (undefined while no frame has been seen) and never
changes once set — any event prefix already containing an enter yields
the same `startTime` — and after any nonempty prefix `endTime` equals the
last event's timestamp, which is then the maximum timestamp observed so
far.  (As stated, without monotonicity, the claim fails: an enter event
overwrites `endTime` unconditionally, see the counterexample.) -/
theorem c6_timing_bounds (es : List Event) (hwf : wfEvents es) (hmono : monoEvents es)
    (hfin : (Trace.run (newTrace true) es).finished = false) :
    (Trace.run (newTrace true) es).startTime = firstEnterTime es ∧
    (∀ es1 es2, es = es1 ++ es2 → (firstEnterTime es1).isSome = true →
      (Trace.run (newTrace true) es).startTime =
        (Trace.run (newTrace true) es1).startTime) ∧
    ∀ h : es ≠ [], (Trace.run (newTrace true) es).endTime =
        some (timeD (es.getLast h)) ∧
      ∀ e ∈ es, timeD e ≤ timeD (es.getLast h) := by
  obtain ⟨_, hstart, _, hendL⟩ := c6_run_invariant es hwf hmono hfin
  refine ⟨hstart, ?_, ?_⟩
  · intro es1 es2 heq hsome
    subst heq
    have hwf1 : wfEvents es1 := fun x hx => hwf x (List.mem_append_left _ hx)
    have hmono1 : monoEvents es1 := (List.chain'_append.1 hmono).1
    have hfin1 : (Trace.run (newTrace true) es1).finished = false := by
      rw [run_append] at hfin
      exact run_finished_back es2 _ hfin
    obtain ⟨_, hstart1, _, _⟩ := c6_run_invariant es1 hwf1 hmono1 hfin1
    rw [hstart, hstart1, firstEnterTime_append _ _ hwf1]
    rcases hfe : firstEnterTime es1 with _ | s
    · rw [hfe] at hsome
      exact absurd hsome (by simp)
    · rfl
  · intro h
    refine ⟨hendL h, ?_⟩
    haveI : IsTrans Event (fun a b => timeD a ≤ timeD b) :=
      ⟨fun a b c hab hbc => le_trans hab hbc⟩
    intro e he
    have hdec : es.dropLast ++ [es.getLast h] = es := List.dropLast_append_getLast h
    have hpair : (es.dropLast ++ [es.getLast h]).Pairwise
        (fun a b => timeD a ≤ timeD b) := by
      rw [hdec]
      exact List.chain'_iff_pairwise.1 hmono
    have he2 : e ∈ es.dropLast ++ [es.getLast h] := by
      rw [hdec]
      exact he
    rcases List.mem_append.1 he2 with h1 | h1
    · exact (List.pairwise_append.1 hpair).2.2 e h1 _ (List.mem_singleton_self _)
    · rw [List.mem_singleton.1 h1]

theorem c6_timing_bounds_witness :
    (wfEvents [.enter ⟨"A", "la", [], none, none, some 0⟩,
        .enter ⟨"B", "lb", [], none, none, some 1⟩,
        .exitF ⟨some 3, none, none, none⟩, .exitF ⟨some 5, none, none, none⟩] ∧
      monoEvents [.enter ⟨"A", "la", [], none, none, some 0⟩,
        .enter ⟨"B", "lb", [], none, none, some 1⟩,
        .exitF ⟨some 3, none, none, none⟩, .exitF ⟨some 5, none, none, none⟩] ∧
      (Trace.run (newTrace true) [.enter ⟨"A", "la", [], none, none, some 0⟩,
        .enter ⟨"B", "lb", [], none, none, some 1⟩,
        .exitF ⟨some 3, none, none, none⟩,
        .exitF ⟨some 5, none, none, none⟩]).finished = false) ∧
    ((Trace.run (newTrace true) [.enter ⟨"A", "la", [], none, none, some 0⟩,
        .enter ⟨"B", "lb", [], none, none, some 1⟩,
        .exitF ⟨some 3, none, none, none⟩, .exitF ⟨some 5, none, none, none⟩]).startTime =
      firstEnterTime [.enter ⟨"A", "la", [], none, none, some 0⟩,
        .enter ⟨"B", "lb", [], none, none, some 1⟩,
        .exitF ⟨some 3, none, none, none⟩, .exitF ⟨some 5, none, none, none⟩] ∧
      (∀ es1 es2, [Event.enter ⟨"A", "la", [], none, none, some 0⟩,
          .enter ⟨"B", "lb", [], none, none, some 1⟩,
          .exitF ⟨some 3, none, none, none⟩, .exitF ⟨some 5, none, none, none⟩] =
          es1 ++ es2 → (firstEnterTime es1).isSome = true →
        (Trace.run (newTrace true) [.enter ⟨"A", "la", [], none, none, some 0⟩,
          .enter ⟨"B", "lb", [], none, none, some 1⟩,
          .exitF ⟨some 3, none, none, none⟩, .exitF ⟨some 5, none, none, none⟩]).startTime =
          (Trace.run (newTrace true) es1).startTime) ∧
      ∀ h : [Event.enter ⟨"A", "la", [], none, none, some 0⟩,
          .enter ⟨"B", "lb", [], none, none, some 1⟩,
          .exitF ⟨some 3, none, none, none⟩, .exitF ⟨some 5, none, none, none⟩] ≠ [],
        (Trace.run (newTrace true) [.enter ⟨"A", "la", [], none, none, some 0⟩,
          .enter ⟨"B", "lb", [], none, none, some 1⟩,
          .exitF ⟨some 3, none, none, none⟩, .exitF ⟨some 5, none, none, none⟩]).endTime =
          some (timeD ([Event.enter ⟨"A", "la", [], none, none, some 0⟩,
            .enter ⟨"B", "lb", [], none, none, some 1⟩,
            .exitF ⟨some 3, none, none, none⟩,
            .exitF ⟨some 5, none, none, none⟩].getLast h)) ∧
        ∀ e ∈ [Event.enter ⟨"A", "la", [], none, none, some 0⟩,
            .enter ⟨"B", "lb", [], none, none, some 1⟩,
            .exitF ⟨some 3, none, none, none⟩, .exitF ⟨some 5, none, none, none⟩],
          timeD e ≤ timeD ([Event.enter ⟨"A", "la", [], none, none, some 0⟩,
            .enter ⟨"B", "lb", [], none, none, some 1⟩,
            .exitF ⟨some 3, none, none, none⟩,
            .exitF ⟨some 5, none, none, none⟩].getLast h)) :=
  ⟨⟨by unfold wfEvents; decide,
    by
      unfold monoEvents
      simp only [List.chain'_cons, List.chain'_singleton, and_true]
      refine ⟨by decide, by decide, by decide⟩, rfl⟩,
    c6_timing_bounds _ (by unfold wfEvents; decide)
      (by
        unfold monoEvents
        simp only [List.chain'_cons, List.chain'_singleton, and_true]
        refine ⟨by decide, by decide, by decide⟩) rfl⟩

/-- C6 (counterexample to the claim as stated): with out-of-order
timestamps an enter event overwrites `endTime` unconditionally, so the
trace's `endTime` is not the maximum observed timestamp: after enter(t=5)
it is 5, and a following enter(t=3) lowers it to 3 although 5 was
observed earlier. -/
theorem c6_counterexample :
    (Trace.run (newTrace true)
      [.enter ⟨"A", "la", [], none, none, some 5⟩]).endTime = some 5 ∧
    (Trace.run (newTrace true) [.enter ⟨"A", "la", [], none, none, some 5⟩,
      .enter ⟨"B", "lb", [], none, none, some 3⟩]).endTime = some 3 ∧
    (3 : Int) < 5 ∧
    (Trace.run (newTrace true) [.enter ⟨"A", "la", [], none, none, some 5⟩,
      .enter ⟨"B", "lb", [], none, none, some 3⟩]).finished = false :=
  ⟨rfl, rfl, by decide, rfl⟩

/-! ### Binary range query (C4) -/

theorem sorted_get?_lt (arr : List Int) (hs : arr.Pairwise (· < ·)) {j k : Nat}
    (hjk : j < k) {a b : Int} (ha : arr.get? j = some a) (hb : arr.get? k = some b) :
    a < b := by
  have hk : k < arr.length := by
    by_contra hx
    rw [List.get?_eq_none.2 (by omega)] at hb
    exact Option.noConfusion hb
  have hj : j < arr.length := lt_trans hjk hk
  rw [List.get?_eq_get hj] at ha
  rw [List.get?_eq_get hk] at hb
  cases ha
  cases hb
  exact List.pairwise_iff_get.1 hs ⟨j, hj⟩ ⟨k, hk⟩ hjk

/-- The loop invariant of `binarySearch` with the time-minus-endTime
comparator, on a strictly ascending array: with enough fuel for the
remaining interval, the computed value encodes an index `i` such that
everything before `i` is below the key and everything from `i` on is at
or above it. -/
theorem binarySearchGo_spec (key : Int) (arr : List Int) (hs : arr.Pairwise (· < ·)) :
    ∀ (fuel : Nat) (first last : Int), 0 ≤ first → first ≤ last + 1 →
      last < (arr.length : Int) → (last + 1 - first).toNat < fuel →
      (∀ j : Nat, (j : Int) < first → ∀ e, arr.get? j = some e → e < key) →
      (∀ j : Nat, last < (j : Int) → ∀ e, arr.get? j = some e → key < e) →
      ∃ i : Nat, i ≤ arr.length ∧
        (binarySearchGo key arr endTimeComparator fuel first last = i ∨
          binarySearchGo key arr endTimeComparator fuel first last = -(i + 1)) ∧
        (∀ j : Nat, j < i → ∀ e, arr.get? j = some e → e < key) ∧
        (∀ j : Nat, i ≤ j → ∀ e, arr.get? j = some e → key ≤ e) := by
  intro fuel
  induction fuel with
  | zero =>
    intro first last _ _ _ hm _ _
    omega
  | succ fuel ih =>
    intro first last hf hfl hl hm hinvL hinvR
    by_cases hcase : first ≤ last
    · have hm1 : first ≤ (first + last) / 2 := by omega
      have hm2 : (first + last) / 2 ≤ last := by omega
      have hmn : ((first + last) / 2).toNat < arr.length := by omega
      have hget : arr.get? ((first + last) / 2).toNat =
          some (arr.get ⟨((first + last) / 2).toNat, hmn⟩) := List.get?_eq_get hmn
      have hres : binarySearchGo key arr endTimeComparator (fuel + 1) first last =
          (if endTimeComparator key (arr.get ⟨((first + last) / 2).toNat, hmn⟩) > 0 then
            binarySearchGo key arr endTimeComparator fuel ((first + last) / 2 + 1) last
          else if endTimeComparator key (arr.get ⟨((first + last) / 2).toNat, hmn⟩) < 0 then
            binarySearchGo key arr endTimeComparator fuel first ((first + last) / 2 - 1)
          else (first + last) / 2) := by
        rw [binarySearchGo]
        rw [if_pos hcase]
        dsimp only
        rw [hget]
      set e := arr.get ⟨((first + last) / 2).toNat, hmn⟩ with he
      by_cases hc1 : endTimeComparator key e > 0
      · rw [if_pos hc1] at hres
        have hkey : e < key := by
          unfold endTimeComparator at hc1
          omega
        have hinvL2 : ∀ j : Nat, (j : Int) < (first + last) / 2 + 1 →
            ∀ ej, arr.get? j = some ej → ej < key := by
          intro j hj ej hej
          rcases lt_or_ge (j : Int) ((first + last) / 2) with hjm | hjm
          · have hlt : ej < e :=
              sorted_get?_lt arr hs (by omega : j < ((first + last) / 2).toNat) hej hget
            omega
          · have hjeq : j = ((first + last) / 2).toNat := by omega
            subst hjeq
            rw [hget] at hej
            cases hej
            exact hkey
        obtain ⟨i, hi1, hi2, hi3, hi4⟩ :=
          ih ((first + last) / 2 + 1) last (by omega) (by omega) hl (by omega) hinvL2 hinvR
        exact ⟨i, hi1, by rw [hres]; exact hi2, hi3, hi4⟩
      · rw [if_neg hc1] at hres
        by_cases hc2 : endTimeComparator key e < 0
        · rw [if_pos hc2] at hres
          have hkey : key < e := by
            unfold endTimeComparator at hc2
            omega
          have hinvR2 : ∀ j : Nat, (first + last) / 2 - 1 < (j : Int) →
              ∀ ej, arr.get? j = some ej → key < ej := by
            intro j hj ej hej
            rcases lt_or_ge ((first + last) / 2) (j : Int) with hjm | hjm
            · have hlt : e < ej := sorted_get?_lt arr hs
                (by omega : ((first + last) / 2).toNat < j) hget hej
              omega
            · have hjeq : j = ((first + last) / 2).toNat := by omega
              subst hjeq
              rw [hget] at hej
              cases hej
              exact hkey
          obtain ⟨i, hi1, hi2, hi3, hi4⟩ :=
            ih first ((first + last) / 2 - 1) hf (by omega) (by omega) (by omega) hinvL hinvR2
          exact ⟨i, hi1, by rw [hres]; exact hi2, hi3, hi4⟩
        · rw [if_neg hc2] at hres
          have hkey : key = e := by
            unfold endTimeComparator at hc1 hc2
            omega
          refine ⟨((first + last) / 2).toNat, by omega, Or.inl (by rw [hres]; omega), ?_, ?_⟩
          · intro j hj ej hej
            have hlt : ej < e := sorted_get?_lt arr hs hj hej hget
            omega
          · intro j hij ej hej
            rcases Nat.eq_or_lt_of_le hij with hjeq | hjlt
            · rw [← hjeq, hget] at hej
              cases hej
              omega
            · have hlt : e < ej := sorted_get?_lt arr hs hjlt hget hej
              omega
    · have hres : binarySearchGo key arr endTimeComparator (fuel + 1) first last =
          -(first + 1) := by
        rw [binarySearchGo]
        rw [if_neg hcase]
      refine ⟨first.toNat, by omega, Or.inr (by rw [hres]; omega), ?_, ?_⟩
      · intro j hj ej hej
        exact hinvL j (by omega) ej hej
      · intro j hij ej hej
        have hjlen : j < arr.length := by
          by_contra hx
          rw [List.get?_eq_none.2 (by omega)] at hej
          exact Option.noConfusion hej
        exact le_of_lt (hinvR j (by omega) ej hej)

/-- C4 (amended): for a sibling end-time list strictly sorted ascending
and any query time `t`, `binarySearch` with the time-minus-endTime
comparator returns either a nonnegative index or the encoded miss form
`-(insertionPoint + 1)`, and the decoded index `i` is the leftmost
position whose end time is ≥ `t`: every position before `i` holds an end
time < `t` and every position from `i` on holds an end time ≥ `t`.  (With
duplicate end times — sorted but not strictly — the exact-match branch
can return a non-leftmost index, see the counterexample.) -/
theorem c4_binary_search_partitions (t : Int) (arr : List Int)
    (hs : arr.Pairwise (· < ·)) :
    ∃ i : Nat, i ≤ arr.length ∧
      (binarySearch t arr endTimeComparator = i ∨
        binarySearch t arr endTimeComparator = -(i + 1)) ∧
      (∀ j : Nat, j < i → ∀ e, arr.get? j = some e → e < t) ∧
      (∀ j : Nat, i ≤ j → ∀ e, arr.get? j = some e → t ≤ e) := by
  unfold binarySearch
  apply binarySearchGo_spec t arr hs (arr.length + 1) 0 (arr.length - 1)
    (by omega) (by omega) (by omega) (by omega)
  · intro j hj
    omega
  · intro j hj e hej
    exfalso
    have hjlen : j < arr.length := by
      by_contra hx
      rw [List.get?_eq_none.2 (by omega)] at hej
      exact Option.noConfusion hej
    omega

theorem c4_binary_search_partitions_witness :
    ([(1 : Int), 3, 5, 7].Pairwise (· < ·)) ∧
    ∃ i : Nat, i ≤ [(1 : Int), 3, 5, 7].length ∧
      (binarySearch 4 [(1 : Int), 3, 5, 7] endTimeComparator = i ∨
        binarySearch 4 [(1 : Int), 3, 5, 7] endTimeComparator = -(i + 1)) ∧
      (∀ j : Nat, j < i → ∀ e, [(1 : Int), 3, 5, 7].get? j = some e → e < 4) ∧
      (∀ j : Nat, i ≤ j → ∀ e, [(1 : Int), 3, 5, 7].get? j = some e → 4 ≤ e) :=
  ⟨by decide, c4_binary_search_partitions 4 [1, 3, 5, 7] (by decide)⟩

/-- C4 (counterexample to the claim as stated): on a sorted-but-not-
strictly sibling list with duplicate end times, the exact-match branch
returns a non-leftmost index: querying t = 5 on end times [5, 5, 5]
returns index 1, yet position 0 holds end time 5 ≥ t, violating the
claimed "every frame before the returned index has endTime < t". -/
theorem c4_counterexample :
    List.Pairwise (· ≤ ·) [(5 : Int), 5, 5] ∧
    binarySearch 5 [(5 : Int), 5, 5] endTimeComparator = 1 ∧
    [(5 : Int), 5, 5].get? 0 = some 5 ∧ ¬ (5 : Int) < 5 :=
  ⟨by decide, by decide, rfl, by decide⟩

/-! ### The selfTime bookkeeping (C2) -/

/-- Characterization of the frame-table effect of one enter event: one
new open frame is appended at index `frames.length`, every existing frame
keeps its timing fields, and only the stack top's children list grows. -/
theorem enter_get_char (st : TraceSt) (p : EnterPacket) (current : Option Nat)
    (rest : List (Option Nat)) (hstack : st.stack = some (current :: rest))
    (hcur : ∀ x, current = some x → x < st.frames.length) :
    (Trace.onEnteredFrame st p).frames.length = st.frames.length + 1 ∧
    (∃ nf, (Trace.onEnteredFrame st p).frames.get? st.frames.length = some nf ∧
      nf.childrenL = [] ∧ nf.startTime = p.time ∧ nf.endTime = none ∧
      nf.totalTime = none ∧ nf.selfTime = none) ∧
    tableExt st.frames (Trace.onEnteredFrame st p).frames current st.frames.length := by
  unfold Trace.onEnteredFrame
  rw [hstack]
  dsimp only
  cases hprev : lastChildOf st current with
  | none =>
    cases current with
    | none =>
      refine ⟨by simp, ?_, ?_⟩
      · rw [listGet?_append_len]
        exact ⟨_, rfl, rfl, rfl, rfl, rfl, rfl⟩
      intro c fr hc
      have hclen : c < st.frames.length := (List.get?_eq_some.1 hc).1
      refine ⟨fr, ?_, rfl, rfl, rfl, rfl, Or.inl ⟨by simp, rfl⟩⟩
      rw [listGet?_append_left _ _ hclen]
      exact hc
    | some cu =>
      have hculen := hcur cu rfl
      refine ⟨by simp [List.length_modify], ?_, ?_⟩
      · rw [listGet?_modify, if_neg (by omega : cu ≠ st.frames.length), listGet?_append_len]
        exact ⟨_, rfl, rfl, rfl, rfl, rfl, rfl⟩
      · intro c fr hc
        have hclen : c < st.frames.length := (List.get?_eq_some.1 hc).1
        rw [listGet?_modify]
        by_cases hcu : cu = c
        · subst hcu
          rw [if_pos rfl, listGet?_append_left _ _ hclen, hc]
          exact ⟨_, rfl, rfl, rfl, rfl, rfl, Or.inr ⟨rfl, rfl⟩⟩
        · rw [if_neg hcu, listGet?_append_left _ _ hclen, hc]
          exact ⟨_, rfl, rfl, rfl, rfl, rfl, Or.inl ⟨by simp [hcu], rfl⟩⟩
  | some pu0 =>
    have hlen : (st.frames.modify (fun fr => { fr with next := some st.frames.length })
        pu0).length = st.frames.length := List.length_modify ..
    cases current with
    | none =>
      dsimp only
      refine ⟨by simp [List.length_modify], ?_, ?_⟩
      · rw [listGet?_append_right _ _ (le_of_eq hlen), hlen, Nat.sub_self]
        exact ⟨_, rfl, rfl, rfl, rfl, rfl, rfl⟩
      · intro c fr hc
        have hclen : c < st.frames.length := (List.get?_eq_some.1 hc).1
        rw [listGet?_append_left _ _ (by rw [hlen]; omega)]
        · rw [listGet?_modify]
          by_cases hpu : pu0 = c
          · subst hpu
            rw [if_pos rfl, hc]
            exact ⟨_, rfl, rfl, rfl, rfl, rfl, Or.inl ⟨by simp, rfl⟩⟩
          · rw [if_neg hpu, hc]
            exact ⟨_, rfl, rfl, rfl, rfl, rfl, Or.inl ⟨by simp, rfl⟩⟩
    | some cu =>
      have hculen := hcur cu rfl
      dsimp only
      refine ⟨by simp [List.length_modify], ?_, ?_⟩
      · rw [listGet?_modify, if_neg (by omega : cu ≠ st.frames.length),
          listGet?_append_right _ _ (le_of_eq hlen), hlen, Nat.sub_self]
        exact ⟨_, rfl, rfl, rfl, rfl, rfl, rfl⟩
      · intro c fr hc
        have hclen : c < st.frames.length := (List.get?_eq_some.1 hc).1
        rw [listGet?_modify]
        by_cases hcu : cu = c
        · subst hcu
          rw [if_pos rfl, listGet?_append_left _ _ (by rw [hlen]; omega), listGet?_modify]
          by_cases hpu : pu0 = cu
          · subst hpu
            rw [if_pos rfl, hc]
            exact ⟨_, rfl, rfl, rfl, rfl, rfl, Or.inr ⟨rfl, rfl⟩⟩
          · rw [if_neg hpu, hc]
            exact ⟨_, rfl, rfl, rfl, rfl, rfl, Or.inr ⟨rfl, rfl⟩⟩
        · rw [if_neg hcu, listGet?_append_left _ _ (by rw [hlen]; omega), listGet?_modify]
          by_cases hpu : pu0 = c
          · subst hpu
            rw [if_pos rfl, hc]
            exact ⟨_, rfl, rfl, rfl, rfl, rfl, Or.inl ⟨by simp [hcu], rfl⟩⟩
          · rw [if_neg hpu, hc]
            exact ⟨_, rfl, rfl, rfl, rfl, rfl, Or.inl ⟨by simp [hcu], rfl⟩⟩

/-- Characterization of the frame-table effect of one exit event popping
the frame `u`: only index `u` changes, closing the frame with the
source's totals and self-time fold. -/
theorem exit_get_char (st : TraceSt) (p : ExitPacket) (u : Nat)
    (rest : List (Option Nat)) (hstack : st.stack = some (some u :: rest))
    (fr : FrameSt) (hfr : st.frames.get? u = some fr) :
    (Trace.onExitedFrame st p).frames.length = st.frames.length ∧
    (∃ nfr, (Trace.onExitedFrame st p).frames.get? u = some nfr ∧
      nfr.startTime = fr.startTime ∧ nfr.endTime = p.time ∧
      nfr.totalTime = jsSub p.time fr.startTime ∧
      nfr.selfTime = fr.childrenL.foldl (fun acc c => jsSub acc (childTotal st.frames c))
        (jsSub p.time fr.startTime) ∧
      nfr.childrenL = fr.childrenL) ∧
    (∀ c, c ≠ u → (Trace.onExitedFrame st p).frames.get? c = st.frames.get? c) := by
  have hu : u < st.frames.length := (List.get?_eq_some.1 hfr).1
  unfold Trace.onExitedFrame
  rw [hstack]
  dsimp only
  rw [hfr]
  dsimp only
  refine ⟨by simp, ?_, ?_⟩
  · rw [listGet?_set_self _ _ hu]
    exact ⟨_, rfl, rfl, rfl, rfl, rfl, rfl⟩
  · intro c hc
    rw [listGet?_set_gen, if_neg (fun hx => hc hx.symm)]

theorem exists_ts (frames : List FrameSt) (l : List Nat)
    (h : ∀ c ∈ l, ∃ t, childTotal frames c = some t) :
    ∃ ts : List Int, l.map (childTotal frames) = List.map some ts := by
  induction l with
  | nil => exact ⟨[], rfl⟩
  | cons c l2 ih =>
    obtain ⟨t, ht⟩ := h c (List.mem_cons_self _ _)
    obtain ⟨ts, hts⟩ := ih (fun x hx => h x (List.mem_cons_of_mem _ hx))
    exact ⟨t :: ts, by rw [List.map_cons, List.map_cons, ht, hts]⟩

theorem foldl_jsSub_all_some (frames : List FrameSt) (l : List Nat) :
    ∀ (ts : List Int) (t0 : Int), l.map (childTotal frames) = List.map some ts →
      l.foldl (fun acc c => jsSub acc (childTotal frames c)) (some t0) =
        some (t0 - ts.sum) := by
  induction l with
  | nil =>
    intro ts t0 h
    cases ts with
    | nil => simp
    | cons a b => exact absurd h (by simp)
  | cons c l2 ih =>
    intro ts t0 h
    cases ts with
    | nil => exact absurd h (by simp)
    | cons t ts2 =>
      rw [List.map_cons, List.map_cons] at h
      obtain ⟨h1, h2⟩ := List.cons_eq_cons.1 h
      rw [List.foldl_cons, h1]
      have hstep : jsSub (some t0) (some t) = some (t0 - t) := rfl
      rw [hstep, ih ts2 (t0 - t) h2]
      congr 1
      rw [List.sum_cons]
      ring

theorem childTotal_ext {frames frames2 : List FrameSt} {cu : Option Nat} {newuid : Nat}
    (hext : tableExt frames frames2 cu newuid) {c : Nat} {fr : FrameSt}
    (hc : frames.get? c = some fr) : childTotal frames2 c = childTotal frames c := by
  obtain ⟨fr2, hfr2, _, _, htot, _, _⟩ := hext c fr hc
  unfold childTotal
  rw [hc, hfr2]
  dsimp only
  exact htot

theorem map_childTotal_ext {frames frames2 : List FrameSt} {cu : Option Nat}
    {newuid : Nat} (hext : tableExt frames frames2 cu newuid) (l : List Nat)
    (ts : List Int) (h : l.map (childTotal frames) = List.map some ts) :
    l.map (childTotal frames2) = List.map some ts := by
  induction l generalizing ts with
  | nil =>
    cases ts with
    | nil => rfl
    | cons a b => exact absurd h (by simp)
  | cons c l2 ih =>
    cases ts with
    | nil => exact absurd h (by simp)
    | cons t ts2 =>
      rw [List.map_cons, List.map_cons] at h ⊢
      obtain ⟨h1, h2⟩ := List.cons_eq_cons.1 h
      have hc : ∃ fr, frames.get? c = some fr := by
        unfold childTotal at h1
        rcases hx : frames.get? c with _ | fr
        · rw [hx] at h1
          exact absurd h1 (by simp)
        · exact ⟨fr, rfl⟩
      obtain ⟨fr, hfr⟩ := hc
      rw [childTotal_ext hext hfr, h1, ih ts2 h2]

theorem closedOk_ext {frames frames2 : List FrameSt} {cu : Option Nat} {newuid : Nat}
    (hext : tableExt frames frames2 cu newuid) {fr fr2 : FrameSt}
    (h1 : fr2.startTime = fr.startTime) (h2 : fr2.endTime = fr.endTime)
    (h3 : fr2.totalTime = fr.totalTime) (h4 : fr2.selfTime = fr.selfTime)
    (h5 : fr2.childrenL = fr.childrenL) (h : closedOk frames fr) :
    closedOk frames2 fr2 := by
  obtain ⟨s, eT, ts, k1, k2, k3, k4, k5⟩ := h
  exact ⟨s, eT, ts, by rw [h1, k1], by rw [h2, k2], by rw [h3, k3],
    by rw [h5]; exact map_childTotal_ext hext _ _ k4, by rw [h4, k5]⟩

theorem childTotal_set_ne (frames : List FrameSt) (u : Nat) (nf : FrameSt) {c : Nat}
    (hne : c ≠ u) : childTotal (frames.set u nf) c = childTotal frames c := by
  unfold childTotal
  rw [listGet?_set_gen, if_neg (fun h => hne h.symm)]

theorem map_childTotal_set (frames : List FrameSt) (u : Nat) (nf : FrameSt)
    (hnone : childTotal frames u = none) (l : List Nat) (ts : List Int)
    (h : l.map (childTotal frames) = List.map some ts) :
    l.map (childTotal (frames.set u nf)) = List.map some ts := by
  induction l generalizing ts with
  | nil =>
    cases ts with
    | nil => rfl
    | cons a b => exact absurd h (by simp)
  | cons c l2 ih =>
    cases ts with
    | nil => exact absurd h (by simp)
    | cons t ts2 =>
      rw [List.map_cons, List.map_cons] at h ⊢
      obtain ⟨h1, h2⟩ := List.cons_eq_cons.1 h
      have hne : c ≠ u := by
        intro hx
        rw [hx, hnone] at h1
        exact Option.noConfusion h1
      rw [childTotal_set_ne frames u nf hne, h1, ih ts2 h2]

theorem closedOk_set (frames : List FrameSt) (u : Nat) (nf : FrameSt)
    (hnone : childTotal frames u = none) (fr : FrameSt) (h : closedOk frames fr) :
    closedOk (frames.set u nf) fr := by
  obtain ⟨s, eT, ts, k1, k2, k3, k4, k5⟩ := h
  exact ⟨s, eT, ts, k1, k2, k3, map_childTotal_set frames u nf hnone _ _ k4, k5⟩

theorem spineOk_ext_untouched {frames frames2 : List FrameSt} {cu : Option Nat}
    {newuid : Nat} (hext : tableExt frames frames2 cu newuid) :
    ∀ (sp : List Nat) (ex : Option Nat), spineOk frames ex sp →
      (∀ x, cu = some x → x ∉ sp) → spineOk frames2 ex sp := by
  intro sp
  induction sp with
  | nil => intro ex _ _; trivial
  | cons u rest ih =>
    intro ex hsp hcu
    obtain ⟨⟨fr, hfr, hst, hend, htot, hkids⟩, hrest⟩ := hsp
    obtain ⟨fr2, hfr2, e1, e2, e3, e4, e5⟩ := hext u fr hfr
    have hkids2 : fr2.childrenL = fr.childrenL := by
      rcases e5 with ⟨_, h⟩ | ⟨hcueq, _⟩
      · exact h
      · exact absurd (List.mem_cons_self u rest) (hcu u hcueq)
    refine ⟨⟨fr2, hfr2, by rw [e1]; exact hst, by rw [e2]; exact hend,
      by rw [e3]; exact htot, ?_⟩, ?_⟩
    · intro c hc hcex
      rw [hkids2] at hc
      obtain ⟨cf, hcf, hcfend⟩ := hkids c hc hcex
      obtain ⟨cf2, hcf2, _, f2, _, _, _⟩ := hext c cf hcf
      exact ⟨cf2, hcf2, by rw [f2]; exact hcfend⟩
    · exact ih (some u) hrest (fun x hx hmem => hcu x hx (List.mem_cons_of_mem _ hmem))

theorem spineOk_set_closed (frames : List FrameSt) (u : Nat) (nf : FrameSt)
    (hnf : nf.endTime.isSome = true) :
    ∀ (sp : List Nat) (ex : Option Nat), spineOk frames ex sp → (∀ w ∈ sp, w ≠ u) →
      spineOk (frames.set u nf) ex sp := by
  intro sp
  induction sp with
  | nil => intro ex _ _; trivial
  | cons v rest ih =>
    intro ex hsp hne
    obtain ⟨⟨fr, hfr, hst, hend, htot, hkids⟩, hrest⟩ := hsp
    have hvne : v ≠ u := hne v (List.mem_cons_self _ _)
    refine ⟨⟨fr, ?_, hst, hend, htot, ?_⟩, ?_⟩
    · rw [listGet?_set_gen, if_neg (fun h => hvne h.symm)]
      exact hfr
    · intro c hc hcex
      obtain ⟨cf, hcf, hcfend⟩ := hkids c hc hcex
      by_cases hcu : c = u
      · subst hcu
        refine ⟨nf, ?_, hnf⟩
        rw [listGet?_set_gen, if_pos rfl, hcf]
        rfl
      · refine ⟨cf, ?_, hcfend⟩
        rw [listGet?_set_gen, if_neg (fun h => hcu h.symm)]
        exact hcf
    · exact ih (some v) hrest (fun w hw => hne w (List.mem_cons_of_mem _ hw))

/-- One enter event (with a well-formed packet) preserves the structural
invariant. -/
theorem sinv_enter (st : TraceSt) (p : EnterPacket) (hts : p.time.isSome = true)
    (hsinv : SInv st) : SInv (Trace.onEnteredFrame st p) := by
  obtain ⟨hd, hf, hstk⟩ := hsinv
  rcases hstk with hnone | ⟨sp, hsp, hnd, hval, hspine⟩
  · unfold Trace.onEnteredFrame
    rw [hnone]
    exact ⟨hd, hf, Or.inl hnone⟩
  · cases sp with
    | nil =>
      obtain ⟨hlen, ⟨nf, hnf, hnfkids, hnfstart, hnfend, hnftot, hnfself⟩, hext⟩ :=
        enter_get_char st p none [] (by rw [hsp]; rfl) (by intro x hx; exact Option.noConfusion hx)
      obtain ⟨_, _, _, hstk2, _, _, _⟩ :=
        enter_scalars st p [none] (by rw [hsp]; rfl) (by simp)
      refine ⟨?_, ?_, Or.inr ⟨[st.frames.length], ?_, ?_, ?_, ?_⟩⟩
      · intro u fr2 hu2 hclosed2
        by_cases hu : u = st.frames.length
        · subst hu
          rw [hnf] at hu2
          cases hu2
          rw [hnfend] at hclosed2
          exact absurd hclosed2 (by simp)
        · have hult : u < st.frames.length := by
            have := (List.get?_eq_some.1 hu2).1
            omega
          obtain ⟨fr, hfr⟩ : ∃ fr, st.frames.get? u = some fr :=
            ⟨_, List.get?_eq_get hult⟩
          obtain ⟨fr2b, hfr2b, e1, e2, e3, e4, e5⟩ := hext u fr hfr
          rw [hfr2b] at hu2
          cases hu2
          have hfrclosed : fr.endTime.isSome = true := by
            rw [← e2]
            exact hclosed2
          rcases e5 with ⟨_, h5⟩ | ⟨habs, _⟩
          · exact closedOk_ext hext e1 e2 e3 e4 h5 (hd u fr hfr hfrclosed)
          · exact Option.noConfusion habs
      · intro u fr2 hu2 c hc
        by_cases hu : u = st.frames.length
        · subst hu
          rw [hnf] at hu2
          cases hu2
          rw [hnfkids] at hc
          exact absurd hc (by simp)
        · have hult : u < st.frames.length := by
            have := (List.get?_eq_some.1 hu2).1
            omega
          obtain ⟨fr, hfr⟩ : ∃ fr, st.frames.get? u = some fr :=
            ⟨_, List.get?_eq_get hult⟩
          obtain ⟨fr2b, hfr2b, _, _, _, _, e5⟩ := hext u fr hfr
          rw [hfr2b] at hu2
          cases hu2
          rcases e5 with ⟨_, h5⟩ | ⟨habs, _⟩
          · rw [h5] at hc
            have := hf u fr hfr c hc
            omega
          · exact Option.noConfusion habs
      · rw [hstk2]
        rfl
      · exact List.nodup_cons.2 ⟨by simp, List.nodup_nil⟩
      · intro u hu
        rw [hlen]
        rcases List.mem_singleton.1 hu with rfl
        omega
      · refine ⟨⟨nf, hnf, ?_, hnfend, hnftot, ?_⟩, trivial⟩
        · rw [hnfstart]
          exact hts
        · intro c hc
          rw [hnfkids] at hc
          exact absurd hc (by simp)
    | cons cu sp2 =>
      have hculen : cu < st.frames.length := hval cu (List.mem_cons_self _ _)
      obtain ⟨hlen, ⟨nf, hnf, hnfkids, hnfstart, hnfend, hnftot, hnfself⟩, hext⟩ :=
        enter_get_char st p (some cu) (sp2.map some ++ [none]) (by rw [hsp]; rfl)
          (by intro x hx; cases hx; exact hculen)
      obtain ⟨_, _, _, hstk2, _, _, _⟩ :=
        enter_scalars st p (some cu :: (sp2.map some ++ [none])) (by rw [hsp]; rfl) (by simp)
      obtain ⟨⟨frC, hfrC, hstC, hendC, htotC, hkidsC⟩, hrest⟩ := hspine
      refine ⟨?_, ?_, Or.inr ⟨st.frames.length :: cu :: sp2, ?_, ?_, ?_, ?_⟩⟩
      · intro u fr2 hu2 hclosed2
        by_cases hu : u = st.frames.length
        · subst hu
          rw [hnf] at hu2
          cases hu2
          rw [hnfend] at hclosed2
          exact absurd hclosed2 (by simp)
        · have hult : u < st.frames.length := by
            have := (List.get?_eq_some.1 hu2).1
            omega
          obtain ⟨fr, hfr⟩ : ∃ fr, st.frames.get? u = some fr :=
            ⟨_, List.get?_eq_get hult⟩
          obtain ⟨fr2b, hfr2b, e1, e2, e3, e4, e5⟩ := hext u fr hfr
          rw [hfr2b] at hu2
          cases hu2
          have hfrclosed : fr.endTime.isSome = true := by
            rw [← e2]
            exact hclosed2
          rcases e5 with ⟨_, h5⟩ | ⟨hcueq, _⟩
          · exact closedOk_ext hext e1 e2 e3 e4 h5 (hd u fr hfr hfrclosed)
          · exfalso
            cases hcueq
            rw [hfrC] at hfr
            cases hfr
            rw [hendC] at hfrclosed
            exact absurd hfrclosed (by simp)
      · intro u fr2 hu2 c hc
        by_cases hu : u = st.frames.length
        · subst hu
          rw [hnf] at hu2
          cases hu2
          rw [hnfkids] at hc
          exact absurd hc (by simp)
        · have hult : u < st.frames.length := by
            have := (List.get?_eq_some.1 hu2).1
            omega
          obtain ⟨fr, hfr⟩ : ∃ fr, st.frames.get? u = some fr :=
            ⟨_, List.get?_eq_get hult⟩
          obtain ⟨fr2b, hfr2b, _, _, _, _, e5⟩ := hext u fr hfr
          rw [hfr2b] at hu2
          cases hu2
          rcases e5 with ⟨_, h5⟩ | ⟨_, h5⟩ <;> rw [h5] at hc
          · have := hf u fr hfr c hc
            omega
          · rcases List.mem_append.1 hc with hc2 | hc2
            · have := hf u fr hfr c hc2
              omega
            · rcases List.mem_singleton.1 hc2 with rfl
              omega
      · rw [hstk2]
        rfl
      · refine List.nodup_cons.2 ⟨?_, hnd⟩
        intro hmem
        have := hval _ hmem
        omega
      · intro u hu
        rw [hlen]
        rcases List.mem_cons.1 hu with rfl | hu2
        · omega
        · have := hval u hu2
          omega
      · obtain ⟨fr2C, hfr2C, e1, e2, e3, e4, e5⟩ := hext cu frC hfrC
        have h5 : fr2C.childrenL = frC.childrenL ++ [st.frames.length] := by
          rcases e5 with ⟨habs, _⟩ | ⟨_, h⟩
          · exact absurd rfl habs
          · exact h
        refine ⟨⟨nf, hnf, by rw [hnfstart]; exact hts, hnfend, hnftot, ?_⟩,
          ⟨fr2C, hfr2C, by rw [e1]; exact hstC, by rw [e2]; exact hendC,
            by rw [e3]; exact htotC, ?_⟩, ?_⟩
        · intro c hc
          rw [hnfkids] at hc
          exact absurd hc (by simp)
        · intro c hc hcex
          rw [h5] at hc
          rcases List.mem_append.1 hc with hc2 | hc2
          · obtain ⟨cf, hcf, hcfend⟩ := hkidsC c hc2 (by simp)
            obtain ⟨cf2, hcf2, _, f2, _, _, _⟩ := hext c cf hcf
            exact ⟨cf2, hcf2, by rw [f2]; exact hcfend⟩
          · rcases List.mem_singleton.1 hc2 with rfl
            exact absurd rfl hcex
        · refine spineOk_ext_untouched hext sp2 (some cu) hrest ?_
          intro x hx
          cases hx
          exact (List.nodup_cons.1 hnd).1

/-- A frame exit (matched top) rewrites the frame table by a single `set`
at the popped uid, with the fields exactly as the source computes them. -/
theorem exit_frames_set (st : TraceSt) (p : ExitPacket) (u : Nat)
    (rest : List (Option Nat)) (hstack : st.stack = some (some u :: rest))
    (fr : FrameSt) (hfr : st.frames.get? u = some fr) :
    ∃ nfr, (Trace.onExitedFrame st p).frames = st.frames.set u nfr ∧
      nfr.startTime = fr.startTime ∧ nfr.endTime = p.time ∧
      nfr.totalTime = jsSub p.time fr.startTime ∧
      nfr.selfTime = fr.childrenL.foldl (fun acc c => jsSub acc (childTotal st.frames c))
        (jsSub p.time fr.startTime) ∧
      nfr.childrenL = fr.childrenL := by
  unfold Trace.onExitedFrame
  rw [hstack]
  dsimp only
  rw [hfr]
  dsimp only
  exact ⟨_, rfl, rfl, rfl, rfl, rfl, rfl⟩

/-- `finish` preserves the structural invariant (it only nulls the
stack, matching the null disjunct). -/
theorem sinv_finish (st : TraceSt) (h : SInv st) : SInv (Trace.finish st) := by
  obtain ⟨hd, hf, hstk⟩ := h
  unfold Trace.finish
  split
  · exact ⟨hd, hf, Or.inl rfl⟩
  · exact ⟨hd, hf, hstk⟩

/-- Once the frame exempted from the closedness requirement at the top
spine level is itself closed, the exemption can be dropped. -/
theorem spineOk_exempt_weaken (frames : List FrameSt) (u : Nat)
    (hu : ∃ nf, frames.get? u = some nf ∧ nf.endTime.isSome = true) :
    ∀ sp, spineOk frames (some u) sp → spineOk frames none sp := by
  intro sp hsp
  cases sp with
  | nil => trivial
  | cons v rest =>
    obtain ⟨⟨fr, hfr, hst, hend, htot, hkids⟩, hrest⟩ := hsp
    refine ⟨⟨fr, hfr, hst, hend, htot, ?_⟩, hrest⟩
    intro c hc _
    by_cases hcu : c = u
    · subst hcu
      exact hu
    · exact hkids c hc (fun h => hcu (Option.some.inj h))

/-- One exit event (with a well-formed packet) preserves the structural
invariant. -/
theorem sinv_exit (st : TraceSt) (p : ExitPacket) (hts : p.time.isSome = true)
    (hsinv : SInv st) : SInv (Trace.onExitedFrame st p) := by
  obtain ⟨hd, hf, hstk⟩ := hsinv
  rcases hstk with hnone | ⟨sp, hsp, hnd, hval, hspine⟩
  · unfold Trace.onExitedFrame
    rw [hnone]
    exact ⟨hd, hf, Or.inl hnone⟩
  · cases sp with
    | nil =>
      have hfin : Trace.onExitedFrame st p = Trace.finish st := by
        unfold Trace.onExitedFrame
        rw [hsp]
        rfl
      rw [hfin]
      exact sinv_finish st ⟨hd, hf, Or.inr ⟨[], hsp, hnd, hval, hspine⟩⟩
    | cons u sp2 =>
      have hstack2 : st.stack = some (some u :: (sp2.map some ++ [none])) := by
        rw [hsp]
        rfl
      have hu : u < st.frames.length := hval u (List.mem_cons_self _ _)
      obtain ⟨⟨fr, hfr, hst, hend, htot, hkids⟩, hrest⟩ := hspine
      obtain ⟨tE, htE⟩ := Option.isSome_iff_exists.1 hts
      obtain ⟨s, hs⟩ := Option.isSome_iff_exists.1 hst
      have hkidsAll : ∀ c ∈ fr.childrenL,
          ∃ cf, st.frames.get? c = some cf ∧ cf.endTime.isSome = true :=
        fun c hc => hkids c hc (by simp)
      have hkidsTot : ∀ c ∈ fr.childrenL, ∃ t, childTotal st.frames c = some t := by
        intro c hc
        obtain ⟨cf, hcf, hcfend⟩ := hkidsAll c hc
        obtain ⟨s2, eT2, ts2, k1, k2, k3, k4, k5⟩ := hd c cf hcf hcfend
        refine ⟨eT2 - s2, ?_⟩
        unfold childTotal
        rw [hcf]
        exact k3
      obtain ⟨ts, htsmap⟩ := exists_ts st.frames fr.childrenL hkidsTot
      have hfold := foldl_jsSub_all_some st.frames fr.childrenL ts (tE - s) htsmap
      have hjs : jsSub p.time fr.startTime = some (tE - s) := by
        rw [htE, hs]
        rfl
      have hctu : childTotal st.frames u = none := by
        unfold childTotal
        rw [hfr]
        exact htot
      obtain ⟨nfr, hframes2, n1, n2, n3, n4, n5⟩ := exit_frames_set st p u _ hstack2 fr hfr
      obtain ⟨_, _, hstk2, _, _, _, _⟩ := exit_scalars st p u _ hstack2 hu
      have hn2 : nfr.endTime = some tE := by rw [n2, htE]
      have hn3 : nfr.totalTime = some (tE - s) := by rw [n3, hjs]
      have hn4 : nfr.selfTime = some ((tE - s) - ts.sum) := by rw [n4, hjs, hfold]
      have hclosedNfr : closedOk (st.frames.set u nfr) nfr := by
        refine ⟨s, tE, ts, by rw [n1, hs], hn2, hn3, ?_, hn4⟩
        rw [n5]
        exact map_childTotal_set st.frames u nfr hctu _ _ htsmap
      have hunotsp2 : u ∉ sp2 := (List.nodup_cons.1 hnd).1
      refine ⟨?_, ?_, Or.inr ⟨sp2, hstk2, (List.nodup_cons.1 hnd).2, ?_, ?_⟩⟩
      · rw [hframes2]
        intro w frw hw hwclosed
        by_cases hwu : w = u
        · subst hwu
          rw [listGet?_set_self _ _ hu] at hw
          cases hw
          exact hclosedNfr
        · rw [listGet?_set_gen, if_neg (fun h => hwu h.symm)] at hw
          have hwcold : frw.endTime.isSome = true := hwclosed
          exact closedOk_set st.frames u nfr hctu frw (hd w frw hw hwcold)
      · rw [hframes2]
        intro w frw hw c hc
        rw [List.length_set]
        by_cases hwu : w = u
        · subst hwu
          rw [listGet?_set_self _ _ hu] at hw
          cases hw
          rw [n5] at hc
          exact hf _ fr hfr c hc
        · rw [listGet?_set_gen, if_neg (fun h => hwu h.symm)] at hw
          exact hf w frw hw c hc
      · intro w hw
        rw [hframes2, List.length_set]
        exact hval w (List.mem_cons_of_mem _ hw)
      · rw [hframes2]
        refine spineOk_exempt_weaken _ u ⟨nfr, ?_, by rw [hn2]; rfl⟩ sp2 ?_
        · rw [listGet?_set_self _ _ hu]
        · exact spineOk_set_closed st.frames u nfr (by rw [hn2]; rfl) sp2 (some u) hrest
            (fun w hw hwu => hunotsp2 (hwu ▸ hw))

theorem sumDef_nil : sumDef [] = 0 := rfl

theorem sumDef_cons (x : Option Int) (l : List (Option Int)) :
    sumDef (x :: l) = x.getD 0 + sumDef l := rfl

theorem sumDef_append (a b : List (Option Int)) :
    sumDef (a ++ b) = sumDef a + sumDef b := by
  unfold sumDef
  rw [List.map_append, List.sum_append]

theorem sumDef_map_some (ts : List Int) : sumDef (List.map some ts) = ts.sum := by
  induction ts with
  | nil => rfl
  | cons a l ih =>
    rw [List.map_cons, sumDef_cons, ih, List.sum_cons]
    rfl

theorem sumDef_nonneg (l : List (Option Int))
    (h : ∀ x ∈ l, ∀ v, x = some v → 0 ≤ v) : 0 ≤ sumDef l := by
  induction l with
  | nil => exact le_refl 0
  | cons x l2 ih =>
    rw [sumDef_cons]
    have h1 : 0 ≤ x.getD 0 := by
      cases x with
      | none => exact le_refl 0
      | some v => exact h (some v) (List.mem_cons_self _ _) v rfl
    have h2 : 0 ≤ sumDef l2 := ih (fun x hx v hv => h x (List.mem_cons_of_mem _ hx) v hv)
    linarith

theorem sumDef_map_update (f g : Nat → Option Int) (u : Nat)
    (hfg : ∀ c, c ≠ u → f c = g c) (l : List Nat) :
    sumDef (l.map f) =
      sumDef (l.map g) + (l.count u : Int) * ((f u).getD 0 - (g u).getD 0) := by
  induction l with
  | nil => simp [sumDef_nil]
  | cons c l2 ih =>
    rw [List.map_cons, List.map_cons, sumDef_cons, sumDef_cons, ih]
    by_cases hcu : c = u
    · subst hcu
      rw [List.count_cons_self]
      push_cast
      ring
    · rw [hfg c hcu, List.count_cons_of_ne (fun h => hcu h.symm)]
      ring

theorem mapCongrOn {α β : Type} (l : List α) (f g : α → β)
    (h : ∀ a ∈ l, f a = g a) : l.map f = l.map g := by
  induction l with
  | nil => rfl
  | cons a l2 ih =>
    rw [List.map_cons, List.map_cons, h a (List.mem_cons_self _ _),
      ih (fun x hx => h x (List.mem_cons_of_mem _ hx))]

theorem childTotal_ext_eq {frames frames2 : List FrameSt} {cu : Option Nat}
    {newuid : Nat} (hext : tableExt frames frames2 cu newuid) (c : Nat)
    (fr : FrameSt) (hfr : frames.get? c = some fr) :
    childTotal frames2 c = childTotal frames c := by
  obtain ⟨fr2, hfr2, _, _, e3, _, _⟩ := hext c fr hfr
  unfold childTotal
  rw [hfr, hfr2]
  dsimp only
  exact e3

theorem spine_repr_inj : ∀ (sp sp2 : List Nat),
    sp.map some ++ [(none : Option Nat)] = sp2.map some ++ [none] → sp = sp2
  | [], [], _ => rfl
  | [], y :: t, h => by
    rw [List.map_nil, List.nil_append, List.map_cons, List.cons_append] at h
    injection h with h1 _
    exact Option.noConfusion h1
  | x :: t, [], h => by
    rw [List.map_nil, List.nil_append, List.map_cons, List.cons_append] at h
    injection h with h1 _
    exact Option.noConfusion h1
  | x :: tx, y :: ty, h => by
    rw [List.map_cons, List.map_cons, List.cons_append, List.cons_append] at h
    injection h with h1 h2
    rw [Option.some.inj h1, spine_repr_inj tx ty h2]

theorem spineBudget_ext_untouched {frames frames2 : List FrameSt} {cu : Option Nat}
    {newuid : Nat} (hext : tableExt frames frames2 cu newuid)
    (hf2 : ∀ u fr, frames.get? u = some fr → ∀ c ∈ fr.childrenL, c < frames.length) :
    ∀ (sp : List Nat) (ex : Option Nat) (b : Int), spineBudget frames ex b sp →
      (∀ x, cu = some x → x ∉ sp) → spineBudget frames2 ex b sp := by
  intro sp
  induction sp with
  | nil => intro ex b _ _; trivial
  | cons v rest ih =>
    intro ex b hsp hcu
    obtain ⟨fr, s, hfr, hs, hcount, hsum, hrest⟩ := hsp
    obtain ⟨fr2, hfr2, e1, _, _, _, e5⟩ := hext v fr hfr
    have h5 : fr2.childrenL = fr.childrenL := by
      rcases e5 with ⟨_, h⟩ | ⟨hcv, _⟩
      · exact h
      · exact absurd (List.mem_cons_self v rest) (hcu v hcv)
    refine ⟨fr2, s, hfr2, by rw [e1]; exact hs, ?_, ?_, ?_⟩
    · intro x hx
      rw [h5]
      exact hcount x hx
    · rw [h5]
      have hmapeq : fr.childrenL.map (childTotal frames2) =
          fr.childrenL.map (childTotal frames) := by
        refine mapCongrOn _ _ _ ?_
        intro c hc
        have hcl : c < frames.length := hf2 v fr hfr c hc
        obtain ⟨cf, hcf⟩ : ∃ cf, frames.get? c = some cf := ⟨_, List.get?_eq_get hcl⟩
        exact childTotal_ext_eq hext c cf hcf
      rw [hmapeq]
      exact hsum
    · exact ih (some v) s hrest (fun x hx hmem => hcu x hx (List.mem_cons_of_mem _ hmem))

theorem spineBudget_set_untouched (frames : List FrameSt) (u : Nat) (nfr : FrameSt) :
    ∀ (sp : List Nat) (ex : Option Nat) (b : Int), spineBudget frames ex b sp →
      u ∉ sp →
      (∀ w2 ∈ sp, ∀ fr, frames.get? w2 = some fr → u ∉ fr.childrenL) →
      spineBudget (frames.set u nfr) ex b sp := by
  intro sp
  induction sp with
  | nil => intro ex b _ _ _; trivial
  | cons v rest ih =>
    intro ex b hsp hu hnoc
    obtain ⟨fr, s, hfr, hs, hcount, hsum, hrest⟩ := hsp
    have hvu : v ≠ u := fun h => hu (h ▸ List.mem_cons_self v rest)
    refine ⟨fr, s, ?_, hs, hcount, ?_, ?_⟩
    · rw [listGet?_set_gen, if_neg (fun h => hvu h.symm)]
      exact hfr
    · have hmapeq : fr.childrenL.map (childTotal (frames.set u nfr)) =
          fr.childrenL.map (childTotal frames) := by
        refine mapCongrOn _ _ _ ?_
        intro c hc
        have hcne : c ≠ u := fun h =>
          hnoc v (List.mem_cons_self _ _) fr hfr (h ▸ hc)
        exact childTotal_set_ne frames u nfr hcne
      rw [hmapeq]
      exact hsum
    · exact ih (some v) s hrest (fun h => hu (List.mem_cons_of_mem _ h))
        (fun w2 hw2 fr0 hfr0 => hnoc w2 (List.mem_cons_of_mem _ hw2) fr0 hfr0)

theorem spineOk_no_open_child (frames : List FrameSt) (u : Nat)
    (hopen : ∀ fr, frames.get? u = some fr → fr.endTime = none) :
    ∀ (sp : List Nat) (ex : Option Nat), spineOk frames ex sp →
      (∀ x, ex = some x → x ≠ u) → u ∉ sp →
      ∀ w2 ∈ sp, ∀ fr, frames.get? w2 = some fr → u ∉ fr.childrenL := by
  intro sp
  induction sp with
  | nil =>
    intro ex _ _ _ w2 hw2
    exact absurd hw2 (List.not_mem_nil w2)
  | cons v rest ih =>
    intro ex hsp hex hu w2 hw2 fr hfr hmem
    obtain ⟨⟨frv, hfrv, _, _, _, hkids⟩, hrest⟩ := hsp
    rcases List.mem_cons.1 hw2 with rfl | hw2r
    · rw [hfrv] at hfr
      cases hfr
      obtain ⟨cf, hcf, hcfend⟩ := hkids u hmem (fun h => hex u h.symm rfl)
      rw [hopen cf hcf] at hcfend
      exact absurd hcfend (by simp)
    · refine ih (some v) hrest ?_ (fun h => hu (List.mem_cons_of_mem _ h)) w2 hw2r fr hfr hmem
      intro x hx
      cases hx
      exact fun h => hu (by rw [← h]; exact List.mem_cons_self v rest)

/-- The freshly constructed trace satisfies the structural invariant. -/
theorem sinv_newTrace : SInv (newTrace true) := by
  refine ⟨?_, ?_, Or.inr ⟨[], rfl, List.nodup_nil, ?_, trivial⟩⟩
  · intro u fr h
    exact absurd h (by cases u <;> simp [newTrace])
  · intro u fr h
    exact absurd h (by cases u <;> simp [newTrace])
  · intro u hu
    exact absurd hu (List.not_mem_nil u)

/-- Running any well-formed event list preserves the structural
invariant. -/
theorem sinv_run_from (es : List Event) : ∀ st : TraceSt, SInv st → wfEvents es →
    SInv (Trace.run st es) := by
  induction es with
  | nil => intro st hs _; exact hs
  | cons e rest ih =>
    intro st hs hwf
    have hte : (Event.time e).isSome = true := hwf e (List.mem_cons_self _ _)
    have hstep : SInv (Trace.step st e) := by
      cases e with
      | enter p => exact sinv_enter st p hte hs
      | exitF p => exact sinv_exit st p hte hs
    exact ih (Trace.step st e) hstep (fun x hx => hwf x (List.mem_cons_of_mem _ hx))

theorem tnonneg_ext {frames frames2 : List FrameSt} {cu : Option Nat} {newuid : Nat}
    (hext : tableExt frames frames2 cu newuid)
    (hlen : frames2.length = frames.length + 1)
    (hnew : ∃ nf, frames2.get? frames.length = some nf ∧
      nf.totalTime = none ∧ nf.selfTime = none)
    (t1 : ∀ u fr, frames.get? u = some fr → ∀ tv, fr.totalTime = some tv → 0 ≤ tv)
    (t2 : ∀ u fr, frames.get? u = some fr → ∀ sv, fr.selfTime = some sv → 0 ≤ sv) :
    (∀ u fr, frames2.get? u = some fr → ∀ tv, fr.totalTime = some tv → 0 ≤ tv) ∧
    (∀ u fr, frames2.get? u = some fr → ∀ sv, fr.selfTime = some sv → 0 ≤ sv) := by
  obtain ⟨nf, hnf, hnft, hnfs⟩ := hnew
  constructor
  · intro u fr2 hu tv htv
    by_cases hul : u = frames.length
    · subst hul
      rw [hnf] at hu
      cases hu
      rw [hnft] at htv
      exact Option.noConfusion htv
    · have hlt : u < frames.length := by
        have := (List.get?_eq_some.1 hu).1
        omega
      obtain ⟨fr, hfr⟩ : ∃ fr, frames.get? u = some fr := ⟨_, List.get?_eq_get hlt⟩
      obtain ⟨fr2b, hfr2b, _, _, e3, _, _⟩ := hext u fr hfr
      rw [hfr2b] at hu
      cases hu
      rw [e3] at htv
      exact t1 u fr hfr tv htv
  · intro u fr2 hu sv hsv
    by_cases hul : u = frames.length
    · subst hul
      rw [hnf] at hu
      cases hu
      rw [hnfs] at hsv
      exact Option.noConfusion hsv
    · have hlt : u < frames.length := by
        have := (List.get?_eq_some.1 hu).1
        omega
      obtain ⟨fr, hfr⟩ : ∃ fr, frames.get? u = some fr := ⟨_, List.get?_eq_get hlt⟩
      obtain ⟨fr2b, hfr2b, _, _, _, e4, _⟩ := hext u fr hfr
      rw [hfr2b] at hu
      cases hu
      rw [e4] at hsv
      exact t2 u fr hfr sv hsv

/-- One enter event at time `t ≥ w` carries the timed invariant from
watermark `w` to watermark `t`. -/
theorem tinv_enter (st : TraceSt) (p : EnterPacket) (t w : Int) (htp : p.time = some t)
    (hwt : w ≤ t) (hs : SInv st) (ht : TInv st w) :
    TInv (Trace.onEnteredFrame st p) t := by
  obtain ⟨hd, hf, hstk⟩ := hs
  obtain ⟨t1, t2, tstk⟩ := ht
  rcases hstk with hnone | ⟨sp, hsp, hnd, hval, hspine⟩
  · unfold Trace.onEnteredFrame
    rw [hnone]
    exact ⟨t1, t2, Or.inl hnone⟩
  · have hbud : spineBudget st.frames none w sp := by
      rcases tstk with hnone2 | ⟨sp2, hsp2, hb⟩
      · rw [hnone2] at hsp
        exact absurd hsp (by simp)
      · rw [hsp] at hsp2
        rw [spine_repr_inj sp sp2 (Option.some.inj hsp2)]
        exact hb
    cases sp with
    | nil =>
      have hstack0 : st.stack = some ((none : Option Nat) :: []) := by
        rw [hsp]
        rfl
      obtain ⟨hlen, ⟨nf, hnf, hnfkids, hnfstart, hnfend, hnftot, hnfself⟩, hext⟩ :=
        enter_get_char st p none [] hstack0 (fun x hx => Option.noConfusion hx)
      obtain ⟨_, _, _, hstk2, _, _, _⟩ := enter_scalars st p [none] hstack0 (by simp)
      obtain ⟨c1, c2⟩ := tnonneg_ext hext hlen ⟨nf, hnf, hnftot, hnfself⟩ t1 t2
      refine ⟨c1, c2, Or.inr ⟨[st.frames.length], by rw [hstk2]; rfl, ?_⟩⟩
      refine ⟨nf, t, hnf, by rw [hnfstart, htp], fun x hx => Option.noConfusion hx, ?_, trivial⟩
      rw [hnfkids, List.map_nil, sumDef_nil]
      linarith
    | cons cu sp2 =>
      have hculen : cu < st.frames.length := hval cu (List.mem_cons_self _ _)
      have hstack0 : st.stack = some (some cu :: (sp2.map some ++ [none])) := by
        rw [hsp]
        rfl
      obtain ⟨hlen, ⟨nf, hnf, hnfkids, hnfstart, hnfend, hnftot, hnfself⟩, hext⟩ :=
        enter_get_char st p (some cu) (sp2.map some ++ [none]) hstack0
          (fun x hx => by cases hx; exact hculen)
      obtain ⟨_, _, _, hstk2, _, _, _⟩ := enter_scalars st p _ hstack0 (by simp)
      obtain ⟨c1, c2⟩ := tnonneg_ext hext hlen ⟨nf, hnf, hnftot, hnfself⟩ t1 t2
      obtain ⟨frc, sc, hfrc, hsc, _, hsumc, hrestb⟩ := hbud
      obtain ⟨fr2c, hfr2c, e1, _, _, _, e5⟩ := hext cu frc hfrc
      have h5 : fr2c.childrenL = frc.childrenL ++ [st.frames.length] := by
        rcases e5 with ⟨habs, _⟩ | ⟨_, h⟩
        · exact absurd rfl habs
        · exact h
      refine ⟨c1, c2, Or.inr ⟨st.frames.length :: cu :: sp2, by rw [hstk2]; rfl, ?_⟩⟩
      refine ⟨nf, t, hnf, by rw [hnfstart, htp], fun x hx => Option.noConfusion hx, ?_, ?_⟩
      · rw [hnfkids, List.map_nil, sumDef_nil]
        linarith
      · refine ⟨fr2c, sc, hfr2c, by rw [e1]; exact hsc, ?_, ?_, ?_⟩
        · intro x hx
          cases hx
          rw [h5, List.count_append]
          have hz : frc.childrenL.count st.frames.length = 0 := by
            rw [List.count_eq_zero]
            intro hmem
            have := hf cu frc hfrc _ hmem
            omega
          have hone : List.count st.frames.length [st.frames.length] = 1 := by simp
          omega
        · rw [h5, List.map_append, sumDef_append]
          have hnewnone :
              childTotal (Trace.onEnteredFrame st p).frames st.frames.length = none := by
            unfold childTotal
            rw [hnf]
            exact hnftot
          have h2 : sumDef (List.map (childTotal (Trace.onEnteredFrame st p).frames)
              [st.frames.length]) = 0 := by
            rw [List.map_cons, List.map_nil, hnewnone]
            rfl
          have hmapeq : frc.childrenL.map (childTotal (Trace.onEnteredFrame st p).frames) =
              frc.childrenL.map (childTotal st.frames) := by
            refine mapCongrOn _ _ _ ?_
            intro c hc
            obtain ⟨cf, hcf⟩ : ∃ cf, st.frames.get? c = some cf :=
              ⟨_, List.get?_eq_get (hf cu frc hfrc c hc)⟩
            exact childTotal_ext_eq hext c cf hcf
          rw [h2, hmapeq]
          linarith
        · exact spineBudget_ext_untouched hext hf sp2 (some cu) sc hrestb
            (fun x hx hmem => by cases hx; exact (List.nodup_cons.1 hnd).1 hmem)

/-- One exit event at time `t ≥ w` carries the timed invariant from
watermark `w` to watermark `t`. -/
theorem tinv_exit (st : TraceSt) (p : ExitPacket) (t w : Int) (htp : p.time = some t)
    (hwt : w ≤ t) (hs : SInv st) (ht : TInv st w) :
    TInv (Trace.onExitedFrame st p) t := by
  obtain ⟨hd, hf, hstk⟩ := hs
  obtain ⟨t1, t2, tstk⟩ := ht
  rcases hstk with hnone | ⟨sp, hsp, hnd, hval, hspine⟩
  · unfold Trace.onExitedFrame
    rw [hnone]
    exact ⟨t1, t2, Or.inl hnone⟩
  · have hbud : spineBudget st.frames none w sp := by
      rcases tstk with hnone2 | ⟨sp2, hsp2, hb⟩
      · rw [hnone2] at hsp
        exact absurd hsp (by simp)
      · rw [hsp] at hsp2
        rw [spine_repr_inj sp sp2 (Option.some.inj hsp2)]
        exact hb
    cases sp with
    | nil =>
      have hfin : Trace.onExitedFrame st p = Trace.finish st := by
        unfold Trace.onExitedFrame
        rw [hsp]
        rfl
      rw [hfin]
      unfold Trace.finish
      split
      · exact ⟨t1, t2, Or.inl rfl⟩
      · exact ⟨t1, t2, Or.inr ⟨[], hsp, trivial⟩⟩
    | cons u sp2 =>
      have hstack2 : st.stack = some (some u :: (sp2.map some ++ [none])) := by
        rw [hsp]
        rfl
      have hu : u < st.frames.length := hval u (List.mem_cons_self _ _)
      obtain ⟨⟨fr, hfr, hst, hend, htot, hkids⟩, hrest⟩ := hspine
      obtain ⟨fru, su, hfru, hsu, _, hsumu, hrestb⟩ := hbud
      rw [hfr] at hfru
      obtain rfl := Option.some.inj hfru
      have hkidsAll : ∀ c ∈ fr.childrenL,
          ∃ cf, st.frames.get? c = some cf ∧ cf.endTime.isSome = true :=
        fun c hc => hkids c hc (by simp)
      have hkidsTot : ∀ c ∈ fr.childrenL, ∃ tv, childTotal st.frames c = some tv := by
        intro c hc
        obtain ⟨cf, hcf, hcfend⟩ := hkidsAll c hc
        obtain ⟨s2, eT2, ts2, k1, k2, k3, k4, k5⟩ := hd c cf hcf hcfend
        refine ⟨eT2 - s2, ?_⟩
        unfold childTotal
        rw [hcf]
        exact k3
      obtain ⟨ts, htsmap⟩ := exists_ts st.frames fr.childrenL hkidsTot
      have hfold := foldl_jsSub_all_some st.frames fr.childrenL ts (t - su) htsmap
      have hjs : jsSub p.time fr.startTime = some (t - su) := by
        rw [htp, hsu]
        rfl
      have hsum_eq : sumDef (fr.childrenL.map (childTotal st.frames)) = ts.sum := by
        rw [htsmap, sumDef_map_some]
      have hts_nonneg : 0 ≤ ts.sum := by
        rw [← hsum_eq]
        refine sumDef_nonneg _ ?_
        intro x hx v hv
        obtain ⟨c, hc, rfl⟩ := List.mem_map.1 hx
        unfold childTotal at hv
        cases hgc : st.frames.get? c with
        | none =>
          rw [hgc] at hv
          exact Option.noConfusion hv
        | some cf =>
          rw [hgc] at hv
          exact t1 c cf hgc v hv
      have hsumu2 : su + ts.sum ≤ w := by
        rw [hsum_eq] at hsumu
        exact hsumu
      obtain ⟨nfr, hframes2, n1, n2, n3, n4, n5⟩ := exit_frames_set st p u _ hstack2 fr hfr
      obtain ⟨_, _, hstk2, _, _, _, _⟩ := exit_scalars st p u _ hstack2 hu
      have hn3 : nfr.totalTime = some (t - su) := by rw [n3, hjs]
      have hn4 : nfr.selfTime = some ((t - su) - ts.sum) := by rw [n4, hjs, hfold]
      have htotnn : 0 ≤ t - su := by linarith
      have hselfnn : 0 ≤ (t - su) - ts.sum := by linarith
      refine ⟨?_, ?_, Or.inr ⟨sp2, hstk2, ?_⟩⟩
      · rw [hframes2]
        intro u2 fr2 hu2 tv htv
        by_cases hwu : u2 = u
        · subst hwu
          rw [listGet?_set_self _ _ hu] at hu2
          cases hu2
          rw [hn3] at htv
          obtain rfl := Option.some.inj htv
          exact htotnn
        · rw [listGet?_set_gen, if_neg (fun h => hwu h.symm)] at hu2
          exact t1 u2 fr2 hu2 tv htv
      · rw [hframes2]
        intro u2 fr2 hu2 sv hsv
        by_cases hwu : u2 = u
        · subst hwu
          rw [listGet?_set_self _ _ hu] at hu2
          cases hu2
          rw [hn4] at hsv
          obtain rfl := Option.some.inj hsv
          exact hselfnn
        · rw [listGet?_set_gen, if_neg (fun h => hwu h.symm)] at hu2
          exact t2 u2 fr2 hu2 sv hsv
      · rw [hframes2]
        cases sp2 with
        | nil => trivial
        | cons v sp3 =>
          obtain ⟨frv, sv, hfrv, hsv, hcountv, hsumv, hrestb2⟩ := hrestb
          obtain ⟨_, hrest3⟩ := hrest
          have hvu : v ≠ u := by
            intro h
            exact (List.nodup_cons.1 hnd).1 (h ▸ List.mem_cons_self v sp3)
          have hcount1 : frv.childrenL.count u ≤ 1 := hcountv u rfl
          have hctu_old : childTotal st.frames u = none := by
            unfold childTotal
            rw [hfr]
            exact htot
          have hctu_new : childTotal (st.frames.set u nfr) u = some (t - su) := by
            unfold childTotal
            rw [listGet?_set_self _ _ hu]
            exact hn3
          refine ⟨frv, sv, ?_, hsv, fun x hx => Option.noConfusion hx, ?_, ?_⟩
          · rw [listGet?_set_gen, if_neg (fun h => hvu h.symm)]
            exact hfrv
          · have hupd := sumDef_map_update (childTotal (st.frames.set u nfr))
              (childTotal st.frames) u
              (fun c hc => childTotal_set_ne st.frames u nfr hc) frv.childrenL
            rw [hupd, hctu_new, hctu_old]
            simp only [Option.getD_some, Option.getD_none]
            rcases Nat.le_one_iff_eq_zero_or_eq_one.1 hcount1 with h0 | h1
            · rw [h0]
              push_cast
              linarith
            · rw [h1]
              push_cast
              linarith
          · refine spineBudget_set_untouched st.frames u nfr sp3 (some v) sv hrestb2 ?_ ?_
            · intro hmem
              exact (List.nodup_cons.1 hnd).1 (List.mem_cons_of_mem _ hmem)
            · refine spineOk_no_open_child st.frames u ?_ sp3 (some v) hrest3 ?_ ?_
              · intro fr0 h0
                rw [hfr] at h0
                obtain rfl := Option.some.inj h0
                exact hend
              · intro x hx
                cases hx
                exact hvu
              · intro hmem
                exact (List.nodup_cons.1 hnd).1 (List.mem_cons_of_mem _ hmem)

theorem tinv_newTrace (w : Int) : TInv (newTrace true) w := by
  refine ⟨?_, ?_, Or.inr ⟨[], rfl, trivial⟩⟩
  · intro u fr h
    exact absurd h (by cases u <;> simp [newTrace])
  · intro u fr h
    exact absurd h (by cases u <;> simp [newTrace])

theorem chainTimeD (e : Event) (l : List Event)
    (h : List.Chain (fun a b => timeD a ≤ timeD b) e l) :
    List.Chain (fun a b : Int => a ≤ b) (timeD e) (l.map timeD) := by
  induction l generalizing e with
  | nil => exact List.Chain.nil
  | cons x rest ih =>
    obtain ⟨h1, h2⟩ := List.chain_cons.1 h
    rw [List.map_cons]
    exact List.chain_cons.2 ⟨h1, ih x h2⟩

theorem chain_of_mono (es : List Event) (hm : monoEvents es) :
    ∃ w, List.Chain (fun a b : Int => a ≤ b) w (es.map timeD) := by
  cases es with
  | nil => exact ⟨0, List.Chain.nil⟩
  | cons e rest =>
    refine ⟨timeD e, ?_⟩
    rw [List.map_cons]
    exact List.chain_cons.2 ⟨le_refl _, chainTimeD e rest hm⟩

/-- Running a well-formed event list whose timestamps chain upward from
the watermark keeps the timed invariant at some final watermark. -/
theorem tinv_run_from (es : List Event) : ∀ (st : TraceSt) (w : Int),
    SInv st → TInv st w → wfEvents es →
    List.Chain (fun a b : Int => a ≤ b) w (es.map timeD) →
    ∃ w2, TInv (Trace.run st es) w2 := by
  induction es with
  | nil =>
    intro st w _ ht _ _
    exact ⟨w, ht⟩
  | cons e rest ih =>
    intro st w hs ht hwf hch
    rw [List.map_cons] at hch
    obtain ⟨h1, h2⟩ := List.chain_cons.1 hch
    have hte : (Event.time e).isSome = true := hwf e (List.mem_cons_self _ _)
    obtain ⟨te, hte2⟩ := Option.isSome_iff_exists.1 hte
    have htd : timeD e = te := by
      unfold timeD
      rw [hte2]
      rfl
    have h1b : w ≤ te := by
      rw [htd] at h1
      exact h1
    have hs2 : SInv (Trace.step st e) := by
      cases e with
      | enter p => exact sinv_enter st p hte hs
      | exitF p => exact sinv_exit st p hte hs
    have ht2 : TInv (Trace.step st e) te := by
      cases e with
      | enter p => exact tinv_enter st p te w hte2 h1b hs ht
      | exitF p => exact tinv_exit st p te w hte2 h1b hs ht
    rw [htd] at h2
    exact ih (Trace.step st e) te hs2 ht2
      (fun x hx => hwf x (List.mem_cons_of_mem _ hx)) h2

/-- C2 (counterexample to the claim as stated): the well-nested,
well-formed sequence enter A at 0, enter B at 0, exit at 6, enter C at 0,
exit at 6, exit at 10 closes the root frame with totalTime 10 and two
children of totalTime 6 each — both at most the parent's total, the
claim's side condition — yet its selfTime is 10 − 6 − 6 = −2 < 0. -/
theorem c2_counterexample :
    wfEvents [.enter ⟨"A", "la", [], none, none, some 0⟩,
      .enter ⟨"B", "lb", [], none, none, some 0⟩,
      .exitF ⟨some 6, none, none, none⟩,
      .enter ⟨"C", "lc", [], none, none, some 0⟩,
      .exitF ⟨some 6, none, none, none⟩,
      .exitF ⟨some 10, none, none, none⟩] ∧
    ∃ fr, (Trace.run (newTrace true)
        [.enter ⟨"A", "la", [], none, none, some 0⟩,
          .enter ⟨"B", "lb", [], none, none, some 0⟩,
          .exitF ⟨some 6, none, none, none⟩,
          .enter ⟨"C", "lc", [], none, none, some 0⟩,
          .exitF ⟨some 6, none, none, none⟩,
          .exitF ⟨some 10, none, none, none⟩]).frames.get? 0 = some fr ∧
      fr.totalTime = some 10 ∧
      fr.childrenL.map (childTotal (Trace.run (newTrace true)
        [.enter ⟨"A", "la", [], none, none, some 0⟩,
          .enter ⟨"B", "lb", [], none, none, some 0⟩,
          .exitF ⟨some 6, none, none, none⟩,
          .enter ⟨"C", "lc", [], none, none, some 0⟩,
          .exitF ⟨some 6, none, none, none⟩,
          .exitF ⟨some 10, none, none, none⟩]).frames) = [some 6, some 6] ∧
      (6 : Int) ≤ 10 ∧ fr.selfTime = some (-2) ∧ (-2 : Int) < 0 := by
  refine ⟨by unfold wfEvents; decide, _, rfl, rfl, rfl, by decide, rfl, by decide⟩

/-- C2 (amended): for every well-formed event sequence, every closed
frame of the resulting trace satisfies the exit-time bookkeeping exactly:
`totalTime = endTime − startTime`, all of its children carry defined
totals, and `selfTime = totalTime − Σ children.totalTime`; moreover
`selfTime ≥ 0` whenever the event timestamps are non-decreasing (the
claim's own side condition — each child total at most the parent's — is
not sufficient, see the counterexample). -/
theorem c2_selftime_accounting (es : List Event) (hwf : wfEvents es)
    (u : Nat) (fr : FrameSt)
    (hfr : (Trace.run (newTrace true) es).frames.get? u = some fr)
    (hclosed : fr.endTime.isSome = true) :
    (∃ s eT ts, fr.startTime = some s ∧ fr.endTime = some eT ∧
      fr.totalTime = some (eT - s) ∧
      fr.childrenL.map (childTotal (Trace.run (newTrace true) es).frames) =
        List.map some ts ∧
      fr.selfTime = some ((eT - s) - ts.sum)) ∧
    (monoEvents es → ∀ sv, fr.selfTime = some sv → 0 ≤ sv) := by
  constructor
  · obtain ⟨hd, _, _⟩ := sinv_run_from es (newTrace true) sinv_newTrace hwf
    exact hd u fr hfr hclosed
  · intro hm sv hsv
    obtain ⟨w0, hch⟩ := chain_of_mono es hm
    obtain ⟨w2, ⟨_, t2, _⟩⟩ :=
      tinv_run_from es (newTrace true) w0 sinv_newTrace (tinv_newTrace w0) hwf hch
    exact t2 u fr hfr sv hsv

theorem c2_selftime_accounting_witness :
    wfEvents [.enter ⟨"A", "la", [], none, none, some 1⟩,
      .enter ⟨"B", "lb", [], none, none, some 2⟩,
      .exitF ⟨some 3, none, none, none⟩,
      .exitF ⟨some 5, none, none, none⟩] ∧
    monoEvents [.enter ⟨"A", "la", [], none, none, some 1⟩,
      .enter ⟨"B", "lb", [], none, none, some 2⟩,
      .exitF ⟨some 3, none, none, none⟩,
      .exitF ⟨some 5, none, none, none⟩] ∧
    ∃ fr, (Trace.run (newTrace true)
        [.enter ⟨"A", "la", [], none, none, some 1⟩,
          .enter ⟨"B", "lb", [], none, none, some 2⟩,
          .exitF ⟨some 3, none, none, none⟩,
          .exitF ⟨some 5, none, none, none⟩]).frames.get? 0 = some fr ∧
      fr.endTime.isSome = true ∧
      ((∃ s eT ts, fr.startTime = some s ∧ fr.endTime = some eT ∧
        fr.totalTime = some (eT - s) ∧
        fr.childrenL.map (childTotal (Trace.run (newTrace true)
          [.enter ⟨"A", "la", [], none, none, some 1⟩,
            .enter ⟨"B", "lb", [], none, none, some 2⟩,
            .exitF ⟨some 3, none, none, none⟩,
            .exitF ⟨some 5, none, none, none⟩]).frames) = List.map some ts ∧
        fr.selfTime = some ((eT - s) - ts.sum)) ∧
      (monoEvents [.enter ⟨"A", "la", [], none, none, some 1⟩,
        .enter ⟨"B", "lb", [], none, none, some 2⟩,
        .exitF ⟨some 3, none, none, none⟩,
        .exitF ⟨some 5, none, none, none⟩] →
          ∀ sv, fr.selfTime = some sv → 0 ≤ sv)) := by
  refine ⟨by unfold wfEvents; decide, ?_, _, rfl, rfl,
    c2_selftime_accounting _ (by unfold wfEvents; decide) 0 _ rfl rfl⟩
  unfold monoEvents
  simp only [List.chain'_cons, List.chain'_singleton, and_true]
  refine ⟨by decide, by decide, by decide⟩

/-- Full characterization of one enter event whose aggregation key is
already in the map: the record `i` gets its count bumped, the map is
unchanged, the new frame lands at the end of the table carrying the
packet's serialized fields and fid `i`, and every old frame keeps its
serialized fields (only the stack top gaining the new uid as a child). -/
theorem enter_char_found (st : TraceSt) (p : EnterPacket) (cuo : Option Nat)
    (srest : List (Option Nat)) (hstack : st.stack = some (cuo :: srest))
    (hcur : ∀ x, cuo = some x → x < st.frames.length) (i : Nat)
    (hlook : List.lookup (locationToString p.location p.name) st.fmap = some i) :
    (Trace.onEnteredFrame st p).functions =
      st.functions.modify (fun r => { r with count := r.count + 1 }) i ∧
    (Trace.onEnteredFrame st p).fmap = st.fmap ∧
    (Trace.onEnteredFrame st p).stack =
      some (some st.frames.length :: cuo :: srest) ∧
    (Trace.onEnteredFrame st p).frames.length = st.frames.length + 1 ∧
    (cuo = none → (Trace.onEnteredFrame st p).childrenT =
      st.childrenT ++ [st.frames.length]) ∧
    (∀ x, cuo = some x → (Trace.onEnteredFrame st p).childrenT = st.childrenT) ∧
    (∃ nf, (Trace.onEnteredFrame st p).frames.get? st.frames.length = some nf ∧
      nf.fid = i ∧ nf.startTime = p.time ∧ nf.endTime = none ∧
      nf.totalTime = none ∧ nf.selfTime = none ∧ nf.args = p.args ∧
      nf.ret = none ∧ nf.thr = none ∧ nf.yld = none ∧ nf.childrenL = []) ∧
    replayExt st.frames (Trace.onEnteredFrame st p).frames cuo [st.frames.length] := by
  unfold Trace.onEnteredFrame
  rw [hstack]
  dsimp only
  rw [hlook]
  dsimp only
  cases hprev : lastChildOf st cuo with
  | none =>
    cases cuo with
    | none =>
      refine ⟨rfl, rfl, rfl, by simp, fun _ => rfl, fun x hx => Option.noConfusion hx,
        ?_, ?_⟩
      · rw [listGet?_append_len]
        exact ⟨_, rfl, rfl, rfl, rfl, rfl, rfl, rfl, rfl, rfl, rfl, rfl⟩
      · intro c fr hc
        have hclen : c < st.frames.length := (List.get?_eq_some.1 hc).1
        refine ⟨fr, ?_, rfl, rfl, rfl, rfl, rfl, rfl, rfl, rfl, Or.inr ⟨by simp, rfl⟩⟩
        rw [listGet?_append_left _ _ hclen]
        exact hc
    | some cu =>
      have hculen := hcur cu rfl
      refine ⟨rfl, rfl, rfl, by simp [List.length_modify], fun h => Option.noConfusion h,
        fun x hx => rfl, ?_, ?_⟩
      · rw [listGet?_modify, if_neg (by omega : cu ≠ st.frames.length), listGet?_append_len]
        exact ⟨_, rfl, rfl, rfl, rfl, rfl, rfl, rfl, rfl, rfl, rfl, rfl⟩
      · intro c fr hc
        have hclen : c < st.frames.length := (List.get?_eq_some.1 hc).1
        rw [listGet?_modify]
        by_cases hcu : cu = c
        · subst hcu
          rw [if_pos rfl, listGet?_append_left _ _ hclen, hc]
          exact ⟨_, rfl, rfl, rfl, rfl, rfl, rfl, rfl, rfl, rfl, Or.inl ⟨rfl, rfl⟩⟩
        · rw [if_neg hcu, listGet?_append_left _ _ hclen, hc]
          exact ⟨_, rfl, rfl, rfl, rfl, rfl, rfl, rfl, rfl, rfl,
            Or.inr ⟨by simp [hcu], rfl⟩⟩
  | some pu0 =>
    have hlen : (st.frames.modify (fun fr => { fr with next := some st.frames.length })
        pu0).length = st.frames.length := List.length_modify ..
    cases cuo with
    | none =>
      dsimp only
      refine ⟨rfl, rfl, rfl, by simp [List.length_modify], fun _ => rfl,
        fun x hx => Option.noConfusion hx, ?_, ?_⟩
      · rw [listGet?_append_right _ _ (le_of_eq hlen), hlen, Nat.sub_self]
        exact ⟨_, rfl, rfl, rfl, rfl, rfl, rfl, rfl, rfl, rfl, rfl, rfl⟩
      · intro c fr hc
        have hclen : c < st.frames.length := (List.get?_eq_some.1 hc).1
        rw [listGet?_append_left _ _ (by rw [hlen]; omega), listGet?_modify]
        by_cases hpu : pu0 = c
        · subst hpu
          rw [if_pos rfl, hc]
          exact ⟨_, rfl, rfl, rfl, rfl, rfl, rfl, rfl, rfl, rfl, Or.inr ⟨by simp, rfl⟩⟩
        · rw [if_neg hpu, hc]
          exact ⟨_, rfl, rfl, rfl, rfl, rfl, rfl, rfl, rfl, rfl, Or.inr ⟨by simp, rfl⟩⟩
    | some cu =>
      have hculen := hcur cu rfl
      dsimp only
      refine ⟨rfl, rfl, rfl, by simp [List.length_modify], fun h => Option.noConfusion h,
        fun x hx => rfl, ?_, ?_⟩
      · rw [listGet?_modify, if_neg (by omega : cu ≠ st.frames.length),
          listGet?_append_right _ _ (le_of_eq hlen), hlen, Nat.sub_self]
        exact ⟨_, rfl, rfl, rfl, rfl, rfl, rfl, rfl, rfl, rfl, rfl, rfl⟩
      · intro c fr hc
        have hclen : c < st.frames.length := (List.get?_eq_some.1 hc).1
        rw [listGet?_modify]
        by_cases hcu : cu = c
        · subst hcu
          rw [if_pos rfl, listGet?_append_left _ _ (by rw [hlen]; omega), listGet?_modify]
          by_cases hpu : pu0 = cu
          · subst hpu
            rw [if_pos rfl, hc]
            exact ⟨_, rfl, rfl, rfl, rfl, rfl, rfl, rfl, rfl, rfl, Or.inl ⟨rfl, rfl⟩⟩
          · rw [if_neg hpu, hc]
            exact ⟨_, rfl, rfl, rfl, rfl, rfl, rfl, rfl, rfl, rfl, Or.inl ⟨rfl, rfl⟩⟩
        · rw [if_neg hcu, listGet?_append_left _ _ (by rw [hlen]; omega), listGet?_modify]
          by_cases hpu : pu0 = c
          · subst hpu
            rw [if_pos rfl, hc]
            exact ⟨_, rfl, rfl, rfl, rfl, rfl, rfl, rfl, rfl, rfl,
              Or.inr ⟨by simp [hcu], rfl⟩⟩
          · rw [if_neg hpu, hc]
            exact ⟨_, rfl, rfl, rfl, rfl, rfl, rfl, rfl, rfl, rfl,
              Or.inr ⟨by simp [hcu], rfl⟩⟩

/-- Full characterization of one enter event whose aggregation key is
absent from the map: a fresh record is appended (statics from the
packet) and count-bumped, the key is appended to the map with the fresh
fid, and the frame table changes exactly as in the found case but with
the fresh fid. -/
theorem enter_char_new (st : TraceSt) (p : EnterPacket) (cuo : Option Nat)
    (srest : List (Option Nat)) (hstack : st.stack = some (cuo :: srest))
    (hcur : ∀ x, cuo = some x → x < st.frames.length) 
    (hlook : List.lookup (locationToString p.location p.name) st.fmap = none) :
    (Trace.onEnteredFrame st p).functions =
      (st.functions ++ [({ count := 0, name := p.name, location := p.location,
                           parameterNames := p.parameterNames } : FuncRec)]).modify
          (fun r => { r with count := r.count + 1 }) st.functions.length ∧
    (Trace.onEnteredFrame st p).fmap =
      st.fmap ++ [(locationToString p.location p.name, st.functions.length)] ∧
    (Trace.onEnteredFrame st p).stack =
      some (some st.frames.length :: cuo :: srest) ∧
    (Trace.onEnteredFrame st p).frames.length = st.frames.length + 1 ∧
    (cuo = none → (Trace.onEnteredFrame st p).childrenT =
      st.childrenT ++ [st.frames.length]) ∧
    (∀ x, cuo = some x → (Trace.onEnteredFrame st p).childrenT = st.childrenT) ∧
    (∃ nf, (Trace.onEnteredFrame st p).frames.get? st.frames.length = some nf ∧
      nf.fid = st.functions.length ∧ nf.startTime = p.time ∧ nf.endTime = none ∧
      nf.totalTime = none ∧ nf.selfTime = none ∧ nf.args = p.args ∧
      nf.ret = none ∧ nf.thr = none ∧ nf.yld = none ∧ nf.childrenL = []) ∧
    replayExt st.frames (Trace.onEnteredFrame st p).frames cuo [st.frames.length] := by
  unfold Trace.onEnteredFrame
  rw [hstack]
  dsimp only
  rw [hlook]
  dsimp only
  cases hprev : lastChildOf st cuo with
  | none =>
    cases cuo with
    | none =>
      refine ⟨rfl, rfl, rfl, by simp, fun _ => rfl, fun x hx => Option.noConfusion hx,
        ?_, ?_⟩
      · rw [listGet?_append_len]
        exact ⟨_, rfl, rfl, rfl, rfl, rfl, rfl, rfl, rfl, rfl, rfl, rfl⟩
      · intro c fr hc
        have hclen : c < st.frames.length := (List.get?_eq_some.1 hc).1
        refine ⟨fr, ?_, rfl, rfl, rfl, rfl, rfl, rfl, rfl, rfl, Or.inr ⟨by simp, rfl⟩⟩
        rw [listGet?_append_left _ _ hclen]
        exact hc
    | some cu =>
      have hculen := hcur cu rfl
      refine ⟨rfl, rfl, rfl, by simp [List.length_modify], fun h => Option.noConfusion h,
        fun x hx => rfl, ?_, ?_⟩
      · rw [listGet?_modify, if_neg (by omega : cu ≠ st.frames.length), listGet?_append_len]
        exact ⟨_, rfl, rfl, rfl, rfl, rfl, rfl, rfl, rfl, rfl, rfl, rfl⟩
      · intro c fr hc
        have hclen : c < st.frames.length := (List.get?_eq_some.1 hc).1
        rw [listGet?_modify]
        by_cases hcu : cu = c
        · subst hcu
          rw [if_pos rfl, listGet?_append_left _ _ hclen, hc]
          exact ⟨_, rfl, rfl, rfl, rfl, rfl, rfl, rfl, rfl, rfl, Or.inl ⟨rfl, rfl⟩⟩
        · rw [if_neg hcu, listGet?_append_left _ _ hclen, hc]
          exact ⟨_, rfl, rfl, rfl, rfl, rfl, rfl, rfl, rfl, rfl,
            Or.inr ⟨by simp [hcu], rfl⟩⟩
  | some pu0 =>
    have hlen : (st.frames.modify (fun fr => { fr with next := some st.frames.length })
        pu0).length = st.frames.length := List.length_modify ..
    cases cuo with
    | none =>
      dsimp only
      refine ⟨rfl, rfl, rfl, by simp [List.length_modify], fun _ => rfl,
        fun x hx => Option.noConfusion hx, ?_, ?_⟩
      · rw [listGet?_append_right _ _ (le_of_eq hlen), hlen, Nat.sub_self]
        exact ⟨_, rfl, rfl, rfl, rfl, rfl, rfl, rfl, rfl, rfl, rfl, rfl⟩
      · intro c fr hc
        have hclen : c < st.frames.length := (List.get?_eq_some.1 hc).1
        rw [listGet?_append_left _ _ (by rw [hlen]; omega), listGet?_modify]
        by_cases hpu : pu0 = c
        · subst hpu
          rw [if_pos rfl, hc]
          exact ⟨_, rfl, rfl, rfl, rfl, rfl, rfl, rfl, rfl, rfl, Or.inr ⟨by simp, rfl⟩⟩
        · rw [if_neg hpu, hc]
          exact ⟨_, rfl, rfl, rfl, rfl, rfl, rfl, rfl, rfl, rfl, Or.inr ⟨by simp, rfl⟩⟩
    | some cu =>
      have hculen := hcur cu rfl
      dsimp only
      refine ⟨rfl, rfl, rfl, by simp [List.length_modify], fun h => Option.noConfusion h,
        fun x hx => rfl, ?_, ?_⟩
      · rw [listGet?_modify, if_neg (by omega : cu ≠ st.frames.length),
          listGet?_append_right _ _ (le_of_eq hlen), hlen, Nat.sub_self]
        exact ⟨_, rfl, rfl, rfl, rfl, rfl, rfl, rfl, rfl, rfl, rfl, rfl⟩
      · intro c fr hc
        have hclen : c < st.frames.length := (List.get?_eq_some.1 hc).1
        rw [listGet?_modify]
        by_cases hcu : cu = c
        · subst hcu
          rw [if_pos rfl, listGet?_append_left _ _ (by rw [hlen]; omega), listGet?_modify]
          by_cases hpu : pu0 = cu
          · subst hpu
            rw [if_pos rfl, hc]
            exact ⟨_, rfl, rfl, rfl, rfl, rfl, rfl, rfl, rfl, rfl, Or.inl ⟨rfl, rfl⟩⟩
          · rw [if_neg hpu, hc]
            exact ⟨_, rfl, rfl, rfl, rfl, rfl, rfl, rfl, rfl, rfl, Or.inl ⟨rfl, rfl⟩⟩
        · rw [if_neg hcu, listGet?_append_left _ _ (by rw [hlen]; omega), listGet?_modify]
          by_cases hpu : pu0 = c
          · subst hpu
            rw [if_pos rfl, hc]
            exact ⟨_, rfl, rfl, rfl, rfl, rfl, rfl, rfl, rfl, rfl,
              Or.inr ⟨by simp [hcu], rfl⟩⟩
          · rw [if_neg hpu, hc]
            exact ⟨_, rfl, rfl, rfl, rfl, rfl, rfl, rfl, rfl, rfl,
              Or.inr ⟨by simp [hcu], rfl⟩⟩

/-- Full characterization of one exit event popping frame `u`: the
aggregate record of the frame's fid gets the lazy-init-and-add update,
the map and root list are untouched, the stack is popped, and the table
changes by a single `set` at `u` closing the frame. -/
theorem exit_full_char (st : TraceSt) (p : ExitPacket) (u : Nat)
    (srest : List (Option Nat)) (hstack : st.stack = some (some u :: srest))
    (fr : FrameSt) (hfr : st.frames.get? u = some fr) :
    (Trace.onExitedFrame st p).functions =
      st.functions.modify (fun r =>
        let r1 := if r.totalTime.isNone
          then { r with totalTime := some 0, selfTime := some 0 } else r
        { r1 with totalTime := jsAdd r1.totalTime (jsSub p.time fr.startTime),
                  selfTime := jsAdd r1.selfTime
                    (fr.childrenL.foldl (fun acc c => jsSub acc (childTotal st.frames c))
                      (jsSub p.time fr.startTime)) }) fr.fid ∧
    (Trace.onExitedFrame st p).fmap = st.fmap ∧
    (Trace.onExitedFrame st p).stack = some srest ∧
    (Trace.onExitedFrame st p).childrenT = st.childrenT ∧
    ∃ nfr, (Trace.onExitedFrame st p).frames = st.frames.set u nfr ∧
      nfr.fid = fr.fid ∧ nfr.startTime = fr.startTime ∧ nfr.endTime = p.time ∧
      nfr.totalTime = jsSub p.time fr.startTime ∧
      nfr.selfTime = fr.childrenL.foldl (fun acc c => jsSub acc (childTotal st.frames c))
        (jsSub p.time fr.startTime) ∧
      nfr.args = fr.args ∧
      nfr.ret = (if p.ret.isSome then p.ret else fr.ret) ∧
      nfr.thr = (if p.thr.isSome then p.thr else fr.thr) ∧
      nfr.yld = (if p.yld.isSome then p.yld else fr.yld) ∧
      nfr.childrenL = fr.childrenL := by
  unfold Trace.onExitedFrame
  rw [hstack]
  dsimp only
  rw [hfr]
  dsimp only
  exact ⟨rfl, rfl, rfl, rfl, _, rfl, rfl, rfl, rfl, rfl, rfl, rfl, rfl, rfl, rfl, rfl⟩

theorem sizeF_cons (n : FrameJSON) (rest : List FrameJSON) :
    sizeF (n :: rest) = sizeN n + sizeF rest := rfl

theorem sizeN_mk (f : Nat) (sT eT : Option Int) (a r t y : Option Val)
    (kids : List FrameJSON) :
    sizeN (.mk f sT eT a r t y kids) = 1 + sizeF kids := rfl

theorem sizeN_pos (n : FrameJSON) : 1 ≤ sizeN n := by
  cases n
  rw [sizeN_mk]
  omega

/-- The first-visit discipline never decreases the record count. -/
theorem dfs_mono : ∀ (m : Nat) (l : List FrameJSON) (k k2 : Nat), sizeF l ≤ m →
    dfsL l k = some k2 → k ≤ k2 := by
  intro m
  induction m with
  | zero =>
    intro l k k2 hs h
    cases l with
    | nil => exact le_of_eq (Option.some.inj h)
    | cons n rest =>
      rw [sizeF_cons] at hs
      have := sizeN_pos n
      omega
  | succ m ih =>
    intro l k k2 hs h
    cases l with
    | nil => exact le_of_eq (Option.some.inj h)
    | cons n rest =>
      rw [sizeF_cons] at hs
      have hs1 := sizeN_pos n
      unfold dfsL at h
      cases hn : dfsN n k with
      | none =>
        rw [hn] at h
        exact Option.noConfusion h
      | some k3 =>
        rw [hn] at h
        have hk3 : k ≤ k3 := by
          cases n with
          | mk f sT eT a r t y kids =>
            rw [sizeN_mk] at hs hs1
            unfold dfsN at hn
            by_cases h1 : f < k
            · rw [if_pos h1] at hn
              exact ih kids k k3 (by omega) hn
            · rw [if_neg h1] at hn
              by_cases h2 : f = k
              · rw [if_pos h2] at hn
                have := ih kids (k + 1) k3 (by omega) hn
                omega
              · rw [if_neg h2] at hn
                exact Option.noConfusion hn
        have hk2 := ih rest k3 k2 (by omega) h
        omega

theorem lookup_keymap (g : Nat → String) (f : Nat) :
    ∀ l : List Nat, (∀ i ∈ l, g i = g f → i = f) →
    List.lookup (g f) (l.map (fun i => (g i, i))) =
      if f ∈ l then some f else none := by
  intro l
  induction l with
  | nil =>
    intro _
    simp
  | cons i rest ih =>
    intro h
    rw [List.map_cons]
    by_cases hgi : g f = g i
    · have hif : i = f := h i (List.mem_cons_self _ _) hgi.symm
      subst hif
      simp [List.lookup]
    · have hne : f ≠ i := fun hx => hgi (hx ▸ rfl)
      have hlk : List.lookup (g f) ((g i, i) :: rest.map (fun j => (g j, j))) =
          List.lookup (g f) (rest.map (fun j => (g j, j))) := by
        simp [List.lookup, beq_eq_false_iff_ne.2 hgi]
      rw [hlk, ih (fun j hj => h j (List.mem_cons_of_mem _ hj))]
      by_cases hmem : f ∈ rest
      · rw [if_pos hmem, if_pos (List.mem_cons_of_mem _ hmem)]
      · rw [if_neg hmem, if_neg (by
          intro hx
          rcases List.mem_cons.1 hx with hx1 | hx2
          · exact hne hx1
          · exact hmem hx2)]

theorem lookup_range_found (F : List FuncRec) (hinj : keysInj F) (k f : Nat)
    (hf : f < k) (hk : k ≤ F.length) :
    List.lookup (keyF F f) ((List.range k).map (fun i => (keyF F i, i))) = some f := by
  rw [lookup_keymap (keyF F) f (List.range k) (fun i hi hgi =>
    hinj i f (lt_of_lt_of_le (List.mem_range.1 hi) hk) (lt_of_lt_of_le hf hk) hgi)]
  rw [if_pos (List.mem_range.2 hf)]

theorem lookup_range_fresh (F : List FuncRec) (hinj : keysInj F) (k f : Nat)
    (hf : k ≤ f) (hfF : f < F.length) (hk : k ≤ F.length) :
    List.lookup (keyF F f) ((List.range k).map (fun i => (keyF F i, i))) = none := by
  rw [lookup_keymap (keyF F) f (List.range k) (fun i hi hgi =>
    hinj i f (lt_of_lt_of_le (List.mem_range.1 hi) hk) hfF hgi)]
  rw [if_neg (fun hmem => by have := List.mem_range.1 hmem; omega)]

theorem rangemap_succ (g : Nat → String) (k : Nat) :
    (List.range (k + 1)).map (fun i => (g i, i)) =
      (List.range k).map (fun i => (g i, i)) ++ [(g k, k)] := by
  rw [List.range_succ, List.map_append]
  rfl

theorem if_isSome_none {α : Type} (x y : Option α) (h : y = none) :
    (if x.isSome = true then x else y) = x := by
  cases x <;> simp [h]

theorem sItem_set_ne (frames : List FrameSt) (u : Nat) (nfr : FrameSt) {c : Nat}
    (h : c ≠ u) : sItem (frames.set u nfr) c = sItem frames c := by
  unfold sItem
  rw [listGet?_set_gen, if_neg (fun hx => h hx.symm)]

theorem sItem_replayExt {frames frames2 : List FrameSt} {cuo : Option Nat}
    {uids : List Nat} (hext : replayExt frames frames2 cuo uids) (c : Nat)
    (hne : cuo ≠ some c) (fr : FrameSt) (hfr : frames.get? c = some fr) :
    sItem frames2 c = sItem frames c := by
  obtain ⟨fr2, hfr2, e1, e2, e3, _, e5, e6, e7, e8, e9⟩ := hext c fr hfr
  have h9 : fr2.childrenL = fr.childrenL := by
    rcases e9 with ⟨hc, _⟩ | ⟨_, h⟩
    · exact absurd hc hne
    · exact h
  unfold sItem
  rw [hfr, hfr2]
  simp only [Option.map_some']
  rw [e1, e2, e3, e5, e6, e7, e8, h9]

theorem foldl_childTotal_forall2 (frames : List FrameSt) {uids : List Nat}
    {ns : List FrameJSON}
    (h : List.Forall₂ (fun uid n => ∃ fr, frames.get? uid = some fr ∧
      fr.totalTime = nodeTotal n) uids ns) :
    ∀ init : Option Int, uids.foldl (fun a c => jsSub a (childTotal frames c)) init =
      ns.foldl (fun a n => jsSub a (nodeTotal n)) init := by
  induction h with
  | nil => intro init; rfl
  | cons huid hrest ih =>
    rename_i a b l1 l2
    intro init
    rw [List.foldl_cons, List.foldl_cons]
    obtain ⟨fr, hfr, htot⟩ := huid
    have hct : childTotal frames a = nodeTotal b := by
      unfold childTotal
      rw [hfr]
      exact htot
    rw [hct]
    exact ih _

theorem forall2_tot_ext {frames frames2 : List FrameSt} {cuo : Option Nat}
    {uids2 : List Nat} (hext : replayExt frames frames2 cuo uids2)
    {us : List Nat} {ns : List FrameJSON}
    (h : List.Forall₂ (fun uid n => ∃ fr, frames.get? uid = some fr ∧
      fr.totalTime = nodeTotal n) us ns) :
    List.Forall₂ (fun uid n => ∃ fr, frames2.get? uid = some fr ∧
      fr.totalTime = nodeTotal n) us ns := by
  induction h with
  | nil => exact List.Forall₂.nil
  | cons huid hrest ih =>
    obtain ⟨fr, hfr, htot⟩ := huid
    obtain ⟨fr2, hfr2, _, _, _, e4, _, _, _, _, _⟩ := hext _ fr hfr
    exact List.Forall₂.cons ⟨fr2, hfr2, by rw [e4]; exact htot⟩ ih

theorem forall2_tot_set {frames : List FrameSt} (u : Nat) (nfr : FrameSt)
    {us : List Nat} {ns : List FrameJSON}
    (h : List.Forall₂ (fun uid n => ∃ fr, frames.get? uid = some fr ∧
      fr.totalTime = nodeTotal n) us ns) (hne : ∀ c ∈ us, c ≠ u) :
    List.Forall₂ (fun uid n => ∃ fr, (frames.set u nfr).get? uid = some fr ∧
      fr.totalTime = nodeTotal n) us ns := by
  induction h with
  | nil => exact List.Forall₂.nil
  | cons huid hrest ih =>
    rename_i a b l1 l2
    obtain ⟨fr, hfr, htot⟩ := huid
    refine List.Forall₂.cons ⟨fr, ?_, htot⟩ (ih (fun c hc => hne c (List.mem_cons_of_mem _ hc)))
    rw [listGet?_set_gen, if_neg (fun hx => hne a (List.mem_cons_self _ _) hx.symm)]
    exact hfr

theorem rootsUids_nil (base : Nat) : rootsUids base [] = [] := rfl

theorem rootsUids_ge (l : List FrameJSON) : ∀ (base : Nat) (c : Nat),
    c ∈ rootsUids base l → base ≤ c := by
  induction l with
  | nil =>
    intro base c hc
    exact absurd hc (List.not_mem_nil c)
  | cons n rest ih =>
    intro base c hc
    unfold rootsUids at hc
    rcases List.mem_cons.1 hc with rfl | hc2
    · exact le_refl _
    · have := ih (base + sizeN n) c hc2
      omega

theorem rootsUids_lt (l : List FrameJSON) : ∀ (base : Nat) (c : Nat),
    c ∈ rootsUids base l → c < base + sizeF l := by
  induction l with
  | nil =>
    intro base c hc
    exact absurd hc (List.not_mem_nil c)
  | cons n rest ih =>
    intro base c hc
    unfold rootsUids at hc
    have h1 := sizeN_pos n
    rw [sizeF_cons]
    rcases List.mem_cons.1 hc with rfl | hc2
    · omega
    · have := ih (base + sizeN n) c hc2
      omega

theorem mapO_cons_some (f : α → Option β) (a : α) (l : List α) (b : β)
    (bs : List β) (h1 : f a = some b) (h2 : mapO f l = some bs) :
    mapO f (a :: l) = some (b :: bs) := by
  unfold mapO
  rw [h1, h2]

theorem frameToJSONObj_succ (frames : List FrameSt) (fuel u : Nat) (fr : FrameSt)
    (hfr : frames.get? u = some fr) (kids : List FrameJSON)
    (hk : mapO (frameToJSONObj frames fuel) fr.childrenL = some kids) :
    frameToJSONObj frames (fuel + 1) u =
      some (.mk fr.fid fr.startTime fr.endTime fr.args fr.ret fr.thr fr.yld kids) := by
  unfold frameToJSONObj
  rw [hfr]
  dsimp only
  rw [hk]

/-- Replaying an empty forest is a no-op. -/
theorem replay_sim_nil (F : List FuncRec) (st : TraceSt) (cuo : Option Nat)
    (srest : List (Option Nat)) (hstk : st.stack = some (cuo :: srest)) :
    parseEnterKids F [] st = some st ∧
    aggL F [] st.functions = st.functions ∧
    (cuo = none → st.childrenT = st.childrenT ++ rootsUids st.frames.length []) ∧
    replayExt st.frames st.frames cuo (rootsUids st.frames.length []) ∧
    (∀ (frames3 : List FrameSt) (fuel : Nat),
      mapO (frameToJSONObj frames3 fuel) (rootsUids st.frames.length []) =
        some ([] : List FrameJSON)) := by
  refine ⟨rfl, rfl, fun _ => by rw [rootsUids_nil, List.append_nil], ?_,
    fun frames3 fuel => rfl⟩
  intro c fr hfr
  by_cases hc : cuo = some c
  · exact ⟨fr, hfr, rfl, rfl, rfl, rfl, rfl, rfl, rfl, rfl,
      Or.inl ⟨hc, by rw [rootsUids_nil, List.append_nil]⟩⟩
  · exact ⟨fr, hfr, rfl, rfl, rfl, rfl, rfl, rfl, rfl, rfl, Or.inr ⟨hc, rfl⟩⟩

theorem sizeF_nil : sizeF [] = 0 := rfl

theorem rootsUids_cons (base : Nat) (n : FrameJSON) (rest : List FrameJSON) :
    rootsUids base (n :: rest) = base :: rootsUids (base + sizeN n) rest := rfl

theorem nodeTotal_mk (f : Nat) (sT eT : Option Int) (a r t y : Option Val)
    (kids : List FrameJSON) :
    nodeTotal (.mk f sT eT a r t y kids) = jsSub eT sT := rfl

theorem aggL_nil (F : List FuncRec) (acc : List FuncRec) : aggL F [] acc = acc := by
  simp only [aggL]

theorem aggL_cons (F : List FuncRec) (n : FrameJSON) (rest : List FrameJSON)
    (acc : List FuncRec) : aggL F (n :: rest) acc = aggL F rest (aggN F n acc) := by
  simp only [aggL]

theorem dfsL_nil (k : Nat) : dfsL [] k = some k := by
  simp only [dfsL]

theorem dfsL_cons (n : FrameJSON) (rest : List FrameJSON) (k : Nat) :
    dfsL (n :: rest) k = (match dfsN n k with
      | none => none
      | some k3 => dfsL rest k3) := by
  simp only [dfsL]

theorem dfsN_mk (f : Nat) (sT eT : Option Int) (a r t y : Option Val)
    (kids : List FrameJSON) (k : Nat) :
    dfsN (.mk f sT eT a r t y kids) k =
      (if f < k then dfsL kids k else if f = k then dfsL kids (k + 1) else none) := by
  simp only [dfsN]

theorem parseEnterKids_nil (F : List FuncRec) (st : TraceSt) :
    parseEnterKids F [] st = some st := by
  simp only [parseEnterKids]

theorem parseEnterKids_cons (F : List FuncRec) (n : FrameJSON)
    (rest : List FrameJSON) (st : TraceSt) :
    parseEnterKids F (n :: rest) st = (match parseEnterFrame F n st with
      | none => none
      | some st1 => parseEnterKids F rest st1) := by
  simp only [parseEnterKids]

/-- One node of the replay, given the characterized effect of its enter
event and the induction hypothesis for smaller forests: replaying the
node and then the remaining forest satisfies the simulation contract. -/
theorem replay_sim_core (F : List FuncRec) (m : Nat)
    (IH : ∀ (forest : List FrameJSON), sizeF forest ≤ m →
      ∀ (st : TraceSt) (cuo : Option Nat) (srest : List (Option Nat)) (k k2 : Nat),
      st.stack = some (cuo :: srest) →
      (∀ x, cuo = some x → x < st.frames.length) →
      st.functions.length = k →
      st.fmap = (List.range k).map (fun i => (keyF F i, i)) →
      dfsL forest k = some k2 → k2 ≤ F.length → SimPost F forest st cuo k2)
    (f : Nat) (sT eT : Option Int) (ar rv tv yv : Option Val)
    (kids rest : List FrameJSON) (st : TraceSt) (cuo : Option Nat)
    (srest : List (Option Nat)) (k kE k3 k2 : Nat)
    (hstk : st.stack = some (cuo :: srest))
    (hcu : ∀ x, cuo = some x → x < st.frames.length)
    (hk : st.functions.length = k)
    (hsize : sizeF (FrameJSON.mk f sT eT ar rv tv yv kids :: rest) ≤ m + 1)
    (hdfskids : dfsL kids kE = some k3)
    (hdfsrest : dfsL rest k3 = some k2)
    (hk2F : k2 ≤ F.length)
    (stE : TraceSt)
    (hparse : parseEnterFrame F (FrameJSON.mk f sT eT ar rv tv yv kids) st =
      (match parseEnterKids F kids stE with
       | none => none
       | some st1 => parseExitFrame st1 (FrameJSON.mk f sT eT ar rv tv yv kids)))
    (hEfun : stE.functions = (if f < st.functions.length then st.functions
      else st.functions ++
        [({ count := 0, name := ((F.get? f).getD defaultFuncRec).name,
            location := ((F.get? f).getD defaultFuncRec).location,
            parameterNames := ((F.get? f).getD defaultFuncRec).parameterNames } :
          FuncRec)]).modify (fun r => { r with count := r.count + 1 }) f)
    (hEklen : stE.functions.length = kE)
    (hEfmap : stE.fmap = (List.range kE).map (fun i => (keyF F i, i)))
    (hEstack : stE.stack = some (some st.frames.length :: cuo :: srest))
    (hElen : stE.frames.length = st.frames.length + 1)
    (hEct1 : cuo = none → stE.childrenT = st.childrenT ++ [st.frames.length])
    (hEct2 : ∀ x, cuo = some x → stE.childrenT = st.childrenT)
    (hEnf : ∃ nf, stE.frames.get? st.frames.length = some nf ∧
      nf.fid = f ∧ nf.startTime = sT ∧ nf.endTime = none ∧ nf.totalTime = none ∧
      nf.selfTime = none ∧ nf.args = ar ∧ nf.ret = none ∧ nf.thr = none ∧
      nf.yld = none ∧ nf.childrenL = [])
    (hEext : replayExt st.frames stE.frames cuo [st.frames.length]) :
    SimPost F (FrameJSON.mk f sT eT ar rv tv yv kids :: rest) st cuo k2 := by
  obtain ⟨nf, hnf, hnfid, hnfst, hnfend, hnftot, hnfself, hnfargs, hnfret, hnfthr,
    hnfyld, hnfch⟩ := hEnf
  have hszkids : sizeF kids ≤ m := by
    rw [sizeF_cons, sizeN_mk] at hsize
    omega
  have hszrest : sizeF rest ≤ m := by
    rw [sizeF_cons, sizeN_mk] at hsize
    omega
  have hk3k2 : k3 ≤ k2 := dfs_mono m rest k3 k2 hszrest hdfsrest
  have hk3F : k3 ≤ F.length := le_trans hk3k2 hk2F
  obtain ⟨stK, hKparse, hKfun, hKflen, hKstack, hKfmap, hKlen, hKct1, hKct2, hKext,
    hKfa2, hKser⟩ :=
    IH kids hszkids stE (some st.frames.length) (cuo :: srest) kE k3 hEstack
      (fun x hx => by cases hx; omega) hEklen hEfmap hdfskids hk3F
  rw [hElen] at hKlen hKext hKfa2 hKser
  have hKct : stK.childrenT = stE.childrenT := hKct2 st.frames.length rfl
  obtain ⟨frB, hfrB, b1, b2, b3, b4, b5, b6, b7, b8, b9⟩ :=
    hKext st.frames.length nf hnf
  have hfrBch : frB.childrenL = rootsUids (st.frames.length + 1) kids := by
    rcases b9 with ⟨_, h⟩ | ⟨hne, _⟩
    · rw [h, hnfch, List.nil_append]
    · exact absurd rfl hne
  have hKstack2 : stK.stack = some (some st.frames.length :: cuo :: srest) := by
    rw [hKstack, hEstack]
  obtain ⟨hXfun, hXfmap, hXstack, hXct, nfr, hXframes, x1, x2, x3, x4, x5, x6, x7,
    x8, x9, x10⟩ :=
    exit_full_char stK ⟨eT, rv, tv, yv⟩ st.frames.length (cuo :: srest) hKstack2 frB hfrB
  have hpexit : parseExitFrame stK (FrameJSON.mk f sT eT ar rv tv yv kids) =
      some (Trace.onExitedFrame stK ⟨eT, rv, tv, yv⟩) := by
    unfold parseExitFrame
    rw [hKstack2]
    rfl
  have hnodeparse : parseEnterFrame F (FrameJSON.mk f sT eT ar rv tv yv kids) st =
      some (Trace.onExitedFrame stK ⟨eT, rv, tv, yv⟩) := by
    rw [hparse, hKparse]
    exact hpexit
  have hXlen : (Trace.onExitedFrame stK ⟨eT, rv, tv, yv⟩).frames.length =
      st.frames.length + sizeN (FrameJSON.mk f sT eT ar rv tv yv kids) := by
    rw [hXframes, List.length_set, hKlen, sizeN_mk]
    omega
  have hXcu : ∀ x, cuo = some x →
      x < (Trace.onExitedFrame stK ⟨eT, rv, tv, yv⟩).frames.length := by
    intro x hx
    have h1 := hcu x hx
    have h2 := sizeN_pos (FrameJSON.mk f sT eT ar rv tv yv kids)
    rw [hXlen]
    omega
  have hXk : (Trace.onExitedFrame stK ⟨eT, rv, tv, yv⟩).functions.length = k3 := by
    rw [hXfun, List.length_modify]
    exact hKflen
  have hXfmap2 : (Trace.onExitedFrame stK ⟨eT, rv, tv, yv⟩).fmap =
      (List.range k3).map (fun i => (keyF F i, i)) := by
    rw [hXfmap, hKfmap]
  obtain ⟨st2, h2parse, h2fun, h2flen, h2stack, h2fmap, h2len, h2ct1, h2ct2, h2ext,
    h2fa2, h2ser⟩ :=
    IH rest hszrest (Trace.onExitedFrame stK ⟨eT, rv, tv, yv⟩) cuo srest k3 k2
      hXstack hXcu hXk hXfmap2 hdfsrest hk2F
  rw [hXlen] at h2len h2ct1 h2ext h2fa2 h2ser
  have hfoldR : (rootsUids (st.frames.length + 1) kids).foldl
      (fun acc c => jsSub acc (childTotal stK.frames c)) (jsSub eT sT) =
      kids.foldl (fun a c => jsSub a (nodeTotal c)) (jsSub eT sT) :=
    foldl_childTotal_forall2 stK.frames hKfa2 (jsSub eT sT)
  have hfrBfid : frB.fid = f := by rw [b1, hnfid]
  have hXfun2 : (Trace.onExitedFrame stK ⟨eT, rv, tv, yv⟩).functions =
      aggN F (FrameJSON.mk f sT eT ar rv tv yv kids) st.functions := by
    rw [hXfun, hKfun, hEfun, hfrBfid]
    dsimp only
    simp only [b2, hnfst, hfrBch, hfoldR]
    simp only [aggN]
  have hcne : cuo ≠ some st.frames.length := by
    intro h
    have := hcu st.frames.length h
    omega
  have hnfrX : (Trace.onExitedFrame stK ⟨eT, rv, tv, yv⟩).frames.get?
      st.frames.length = some nfr := by
    rw [hXframes]
    exact listGet?_set_self _ _ (by rw [hKlen]; omega)
  obtain ⟨fr2B, hfr2B, q1, q2, q3, q4, q5, q6, q7, q8, q9⟩ :=
    h2ext st.frames.length nfr hnfrX
  have hq9 : fr2B.childrenL = nfr.childrenL := by
    rcases q9 with ⟨hx, _⟩ | ⟨_, h⟩
    · exact absurd hx hcne
    · exact h
  have hsB : sItem st2.frames st.frames.length = some (f, sT, eT, ar, rv, tv, yv,
      rootsUids (st.frames.length + 1) kids) := by
    unfold sItem
    rw [hfr2B]
    simp only [Option.map_some']
    rw [q1, x1, hfrBfid, q2, x2, b2, hnfst, q3, x3, q5, x6, b5, hnfargs,
      q6, x7, b6, hnfret, if_isSome_none rv none rfl,
      q7, x8, b7, hnfthr, if_isSome_none tv none rfl,
      q8, x9, b8, hnfyld, if_isSome_none yv none rfl,
      hq9, x10, hfrBch]
  refine ⟨st2, ?_, ?_, h2flen, ?_, h2fmap, ?_, ?_, ?_, ?_, ?_, ?_⟩
  · rw [parseEnterKids_cons, hnodeparse]
    exact h2parse
  · rw [h2fun, hXfun2, aggL_cons]
  · rw [h2stack, hXstack, hstk]
  · rw [h2len, sizeF_cons]
    omega
  · intro hcn
    rw [h2ct1 hcn, hXct, hKct, hEct1 hcn, rootsUids_cons, List.append_assoc]
    rfl
  · intro x hx
    rw [h2ct2 x hx, hXct, hKct, hEct2 x hx]
  · intro c fr hfr
    have hclen : c < st.frames.length := (List.get?_eq_some.1 hfr).1
    obtain ⟨frE, hfrE, e1, e2, e3, e4, e5, e6, e7, e8, e9⟩ := hEext c fr hfr
    obtain ⟨frK, hfrK, g1, g2, g3, g4, g5, g6, g7, g8, g9⟩ := hKext c frE hfrE
    have hgch : frK.childrenL = frE.childrenL := by
      rcases g9 with ⟨hx, _⟩ | ⟨_, h⟩
      · exact absurd (Option.some.inj hx) (by omega)
      · exact h
    have hfrX : (Trace.onExitedFrame stK ⟨eT, rv, tv, yv⟩).frames.get? c = some frK := by
      rw [hXframes, listGet?_set_gen, if_neg (by omega : ¬ st.frames.length = c)]
      exact hfrK
    obtain ⟨fr2, hfr2, j1, j2, j3, j4, j5, j6, j7, j8, j9⟩ := h2ext c frK hfrX
    refine ⟨fr2, hfr2, by rw [j1, g1, e1], by rw [j2, g2, e2], by rw [j3, g3, e3],
      by rw [j4, g4, e4], by rw [j5, g5, e5], by rw [j6, g6, e6],
      by rw [j7, g7, e7], by rw [j8, g8, e8], ?_⟩
    rcases j9 with ⟨hx, h⟩ | ⟨hx, h⟩
    · rcases e9 with ⟨_, he⟩ | ⟨hne, _⟩
      · refine Or.inl ⟨hx, ?_⟩
        rw [h, hgch, he, rootsUids_cons, List.append_assoc]
        rfl
      · exact absurd hx hne
    · rcases e9 with ⟨hxx, _⟩ | ⟨_, he⟩
      · exact absurd hxx hx
      · exact Or.inr ⟨hx, by rw [h, hgch, he]⟩
  · rw [rootsUids_cons]
    refine List.Forall₂.cons ⟨fr2B, hfr2B, ?_⟩ h2fa2
    rw [q4, x4, b2, hnfst, nodeTotal_mk]
  · intro frames3 fuel hfuel hagree
    rw [rootsUids_cons]
    have hsz : 1 + sizeF kids + sizeF rest ≤ fuel := by
      rw [sizeF_cons, sizeN_mk] at hfuel
      omega
    have hserRest : mapO (frameToJSONObj frames3 fuel)
        (rootsUids (st.frames.length +
          sizeN (FrameJSON.mk f sT eT ar rv tv yv kids)) rest) = some rest := by
      refine h2ser frames3 fuel (by omega) ?_
      intro c hc1 hc2
      refine hagree c ?_ ?_
      · rw [sizeN_mk] at hc1
        omega
      · rw [sizeF_cons]
        rw [sizeN_mk] at hc2 ⊢
        omega
    cases fuel with
    | zero => exact absurd hsz (by omega)
    | succ fl =>
      have hsB3 : sItem frames3 st.frames.length = some (f, sT, eT, ar, rv, tv, yv,
          rootsUids (st.frames.length + 1) kids) := by
        rw [hagree st.frames.length (le_refl _)
          (by rw [sizeF_cons, sizeN_mk]; omega)]
        exact hsB
      unfold sItem at hsB3
      obtain ⟨fr3, hfr3, htup⟩ := Option.map_eq_some'.1 hsB3
      simp only [Prod.mk.injEq] at htup
      obtain ⟨t1, t2, t3, t4, t5, t6, t7, t8⟩ := htup
      have hserKids : mapO (frameToJSONObj frames3 fl) fr3.childrenL = some kids := by
        rw [t8]
        refine hKser frames3 fl (by omega) ?_
        intro c hc1 hc2
        have ha : sItem frames3 c = sItem st2.frames c :=
          hagree c (by omega) (by rw [sizeF_cons, sizeN_mk]; omega)
        have hcltX : c < (Trace.onExitedFrame stK ⟨eT, rv, tv, yv⟩).frames.length := by
          rw [hXlen, sizeN_mk]
          omega
        obtain ⟨frc, hfrc⟩ :
            ∃ frc, (Trace.onExitedFrame stK ⟨eT, rv, tv, yv⟩).frames.get? c = some frc :=
          ⟨_, List.get?_eq_get hcltX⟩
        have hb : sItem st2.frames c =
            sItem (Trace.onExitedFrame stK ⟨eT, rv, tv, yv⟩).frames c :=
          sItem_replayExt h2ext c
            (by intro hx; have := hcu c hx; omega) frc hfrc
        have hcc : sItem (Trace.onExitedFrame stK ⟨eT, rv, tv, yv⟩).frames c =
            sItem stK.frames c := by
          rw [hXframes]
          exact sItem_set_ne stK.frames st.frames.length nfr (by omega)
        rw [ha, hb, hcc]
      have hnode := frameToJSONObj_succ frames3 fl st.frames.length fr3 hfr3 kids hserKids
      rw [t1, t2, t3, t4, t5, t6, t7] at hnode
      exact mapO_cons_some _ _ _ _ _ hnode hserRest

/-- The simulation contract for the empty forest. -/
theorem simpost_nil (F : List FuncRec) (st : TraceSt) (cuo : Option Nat)
    (srest : List (Option Nat)) (hstk : st.stack = some (cuo :: srest))
    (k : Nat) (hk : st.functions.length = k)
    (hfmap : st.fmap = (List.range k).map (fun i => (keyF F i, i))) :
    SimPost F [] st cuo k := by
  obtain ⟨hp, hagg, hct1, hext, hser⟩ := replay_sim_nil F st cuo srest hstk
  refine ⟨st, hp, hagg.symm, hk, rfl, hfmap, by rw [sizeF_nil, Nat.add_zero], hct1,
    fun x hx => rfl, hext, ?_, ?_⟩
  · rw [rootsUids_nil]
    exact List.Forall₂.nil
  · intro frames3 fuel _ _
    exact hser frames3 fuel

/-- The replay simulation: replaying any forest whose fids follow the
first-visit discipline onto a consistent replay state satisfies the
simulation contract. -/
theorem replay_sim (F : List FuncRec) (hinj : keysInj F) :
    ∀ (m : Nat) (forest : List FrameJSON), sizeF forest ≤ m →
    ∀ (st : TraceSt) (cuo : Option Nat) (srest : List (Option Nat)) (k k2 : Nat),
    st.stack = some (cuo :: srest) →
    (∀ x, cuo = some x → x < st.frames.length) →
    st.functions.length = k →
    st.fmap = (List.range k).map (fun i => (keyF F i, i)) →
    dfsL forest k = some k2 → k2 ≤ F.length →
    SimPost F forest st cuo k2 := by
  intro m
  induction m with
  | zero =>
    intro forest hsz st cuo srest k k2 hstk hcu hk hfmap hdfs hk2F
    cases forest with
    | nil =>
      rw [dfsL_nil] at hdfs
      obtain rfl := Option.some.inj hdfs
      exact simpost_nil F st cuo srest hstk k hk hfmap
    | cons n rest =>
      rw [sizeF_cons] at hsz
      have := sizeN_pos n
      omega
  | succ m ih =>
    intro forest hsz st cuo srest k k2 hstk hcu hk hfmap hdfs hk2F
    cases forest with
    | nil =>
      rw [dfsL_nil] at hdfs
      obtain rfl := Option.some.inj hdfs
      exact simpost_nil F st cuo srest hstk k hk hfmap
    | cons n rest =>
      cases n with
      | mk f sT eT ar rv tv yv kids =>
        rw [dfsL_cons] at hdfs
        cases hdn : dfsN (FrameJSON.mk f sT eT ar rv tv yv kids) k with
        | none =>
          rw [hdn] at hdfs
          exact absurd hdfs (by simp)
        | some k3 =>
          rw [hdn] at hdfs
          dsimp only at hdfs
          rw [dfsN_mk] at hdn
          have hszkids : sizeF kids ≤ m := by
            rw [sizeF_cons, sizeN_mk] at hsz
            omega
          have hszrest : sizeF rest ≤ m := by
            rw [sizeF_cons, sizeN_mk] at hsz
            omega
          have hk3k2 : k3 ≤ k2 := dfs_mono m rest k3 k2 hszrest hdfs
          by_cases hflt : f < k
          · rw [if_pos hflt] at hdn
            have hkk3 : k ≤ k3 := dfs_mono m kids k k3 hszkids hdn
            have hfF : f < F.length := by omega
            have hkF : k ≤ F.length := by omega
            obtain ⟨agg, hagg⟩ : ∃ agg, F.get? f = some agg :=
              ⟨_, List.get?_eq_get hfF⟩
            have hkeyf : keyF F f = locationToString agg.location agg.name := by
              unfold keyF
              rw [hagg]
            have hlook : List.lookup (locationToString agg.location agg.name)
                st.fmap = some f := by
              rw [hfmap, ← hkeyf]
              exact lookup_range_found F hinj k f hflt hkF
            obtain ⟨hef, hefm, hest, helen, hect1, hect2, henf, heext⟩ :=
              enter_char_found st
                { name := agg.name, location := agg.location,
                  parameterNames := agg.parameterNames, callsite := none,
                  args := ar, time := sT } cuo srest hstk hcu f hlook
            refine replay_sim_core F m ih f sT eT ar rv tv yv kids rest st cuo srest
              k k k3 k2 hstk hcu hk hsz hdn hdfs hk2F _ ?_ ?_ ?_ ?_ hest helen
              hect1 hect2 henf heext
            · simp only [parseEnterFrame]
              rw [hagg]
            · rw [if_pos (by rw [hk]; exact hflt)]
              exact hef
            · rw [hef, List.length_modify]
              exact hk
            · rw [hefm]
              exact hfmap
          · rw [if_neg hflt] at hdn
            by_cases hfeq : f = k
            · rw [if_pos hfeq] at hdn
              have hk1k3 : k + 1 ≤ k3 := dfs_mono m kids (k + 1) k3 hszkids hdn
              have hfF : f < F.length := by omega
              obtain ⟨agg, hagg⟩ : ∃ agg, F.get? f = some agg :=
                ⟨_, List.get?_eq_get hfF⟩
              have hkeyf : keyF F f = locationToString agg.location agg.name := by
                unfold keyF
                rw [hagg]
              have hlook : List.lookup (locationToString agg.location agg.name)
                  st.fmap = none := by
                rw [hfmap, ← hkeyf]
                exact lookup_range_fresh F hinj k f (le_of_eq hfeq.symm) hfF (by omega)
              obtain ⟨hef, hefm, hest, helen, hect1, hect2, henf, heext⟩ :=
                enter_char_new st
                  { name := agg.name, location := agg.location,
                    parameterNames := agg.parameterNames, callsite := none,
                    args := ar, time := sT } cuo srest hstk hcu hlook
              rw [show st.functions.length = f from by omega] at henf
              refine replay_sim_core F m ih f sT eT ar rv tv yv kids rest st cuo srest
                k (k + 1) k3 k2 hstk hcu hk hsz hdn hdfs hk2F _ ?_ ?_ ?_ ?_ hest helen
                hect1 hect2 henf heext
              · simp only [parseEnterFrame]
                rw [hagg]
              · rw [hef, if_neg (by rw [hk]; omega)]
                rw [hagg]
                simp only [Option.getD_some]
                rw [show f = st.functions.length from by omega]
              · rw [hef, List.length_modify, List.length_append, hk]
                rfl
              · rw [hefm, hfmap, rangemap_succ (fun i => keyF F i) k]
                rw [hk, ← hfeq, hkeyf]
            · rw [if_neg hfeq] at hdn
              exact absurd hdn (by simp)

/-- Replaying a good snapshot succeeds and serializing the rebuilt trace
reproduces the snapshot exactly. -/
theorem roundtrip_snapshot (s : Snapshot) (hG : GoodSnapshot s) :
    ∃ T2, parseTrace s = some T2 ∧ Trace.toJSON T2 = some s := by
  obtain ⟨Fs, Cs⟩ := s
  obtain ⟨hdfs, hinj, hagg⟩ := hG
  obtain ⟨st2, hparse, hfun, hflen, hstack, hfmap, hlen, hct1, hct2, hext, hfa2,
    hser⟩ :=
    replay_sim Fs hinj (sizeF Cs) Cs (le_refl _) (newTrace false) none [] 0 Fs.length
      rfl (fun x hx => Option.noConfusion hx) rfl rfl hdfs (le_refl _)
  refine ⟨{ st2 with finished := true }, ?_, ?_⟩
  · unfold parseTrace
    rw [hparse]
  · have hct : st2.childrenT = rootsUids 0 Cs := by
      rw [hct1 rfl]
      rfl
    have hfuel : sizeF Cs ≤ st2.frames.length := by
      rw [hlen]
      omega
    have hs : mapO (frameToJSONObj st2.frames st2.frames.length) (rootsUids 0 Cs) =
        some Cs := by
      refine hser st2.frames st2.frames.length hfuel ?_
      intro c _ _
      rfl
    show (match mapO (frameToJSONObj st2.frames st2.frames.length) st2.childrenT with
      | none => none
      | some kids => some (⟨st2.functions, kids⟩ : Snapshot)) = some ⟨Fs, Cs⟩
    rw [hct, hs]
    have hF : st2.functions = Fs := by
      rw [hfun]
      exact hagg
    rw [hF]

theorem sizeF_append (a b : List FrameJSON) :
    sizeF (a ++ b) = sizeF a + sizeF b := by
  induction a with
  | nil =>
    rw [List.nil_append, sizeF_nil]
    omega
  | cons n rest ih =>
    rw [List.cons_append, sizeF_cons, sizeF_cons, ih]
    omega

theorem rootsUids_append (a b : List FrameJSON) : ∀ lo : Nat,
    rootsUids lo (a ++ b) = rootsUids lo a ++ rootsUids (lo + sizeF a) b := by
  induction a with
  | nil =>
    intro lo
    rw [List.nil_append, rootsUids_nil, List.nil_append, sizeF_nil, Nat.add_zero]
  | cons n rest ih =>
    intro lo
    rw [List.cons_append, rootsUids_cons, rootsUids_cons, ih, sizeF_cons,
      List.cons_append]
    have : lo + sizeN n + sizeF rest = lo + (sizeN n + sizeF rest) := by omega
    rw [this]

theorem dfsL_append (a b : List FrameJSON) : ∀ (k k1 : Nat),
    dfsL a k = some k1 → dfsL (a ++ b) k = dfsL b k1 := by
  induction a with
  | nil =>
    intro k k1 h
    rw [dfsL_nil] at h
    obtain rfl := Option.some.inj h
    rw [List.nil_append]
  | cons n rest ih =>
    intro k k1 h
    rw [dfsL_cons] at h
    rw [List.cons_append, dfsL_cons]
    cases hn : dfsN n k with
    | none =>
      rw [hn] at h
      exact Option.noConfusion h
    | some k3 =>
      rw [hn] at h
      exact ih k3 k1 h

theorem aggL_append (F : List FuncRec) (a b : List FrameJSON) : ∀ acc : List FuncRec,
    aggL F (a ++ b) acc = aggL F b (aggL F a acc) := by
  induction a with
  | nil =>
    intro acc
    rw [List.nil_append, aggL_nil]
  | cons n rest ih =>
    intro acc
    rw [List.cons_append, aggL_cons, aggL_cons, ih]

theorem mapO_append (f : α → Option β) (a b : List α) (ja jb : List β)
    (ha : mapO f a = some ja) (hb : mapO f b = some jb) :
    mapO f (a ++ b) = some (ja ++ jb) := by
  induction a generalizing ja with
  | nil =>
    obtain rfl := Option.some.inj ha
    rw [List.nil_append, List.nil_append]
    exact hb
  | cons x rest ih =>
    unfold mapO at ha
    cases hx : f x with
    | none =>
      rw [hx] at ha
      exact Option.noConfusion ha
    | some y =>
      rw [hx] at ha
      cases hr : mapO f rest with
      | none =>
        rw [hr] at ha
        exact Option.noConfusion ha
      | some ys =>
        rw [hr] at ha
        obtain rfl := Option.some.inj ha
        rw [List.cons_append, List.cons_append]
        exact mapO_cons_some f x (rest ++ b) y (ys ++ jb) hx (ih ys hr)

theorem mapO_forall2 (f : α → Option β) : ∀ (l : List α) (j : List β),
    mapO f l = some j → List.Forall₂ (fun a b => f a = some b) l j := by
  intro l
  induction l with
  | nil =>
    intro j h
    obtain rfl := Option.some.inj h
    exact List.Forall₂.nil
  | cons x rest ih =>
    intro j h
    unfold mapO at h
    cases hx : f x with
    | none =>
      rw [hx] at h
      exact Option.noConfusion h
    | some y =>
      rw [hx] at h
      cases hr : mapO f rest with
      | none =>
        rw [hr] at h
        exact Option.noConfusion h
      | some ys =>
        rw [hr] at h
        obtain rfl := Option.some.inj h
        exact List.Forall₂.cons hx (ih ys hr)

theorem keyF_getD (F : List FuncRec) (i : Nat) :
    keyF F i = locationToString ((F.get? i).getD defaultFuncRec).location
      ((F.get? i).getD defaultFuncRec).name := by
  unfold keyF
  cases F.get? i with
  | none => rfl
  | some r => rfl

theorem openStep_found (f k : Nat) (h : f < k) : openStep f k = some k := by
  unfold openStep
  rw [if_pos h]

theorem openStep_fresh (k : Nat) : openStep k k = some (k + 1) := by
  unfold openStep
  rw [if_neg (by omega), if_pos rfl]

theorem openStep_le (f k k2 : Nat) (h : openStep f k = some k2) : k ≤ k2 ∧ f ≤ k := by
  unfold openStep at h
  by_cases h1 : f < k
  · rw [if_pos h1] at h
    obtain rfl := Option.some.inj h
    omega
  · rw [if_neg h1] at h
    by_cases h2 : f = k
    · rw [if_pos h2] at h
      obtain rfl := Option.some.inj h
      omega
    · rw [if_neg h2] at h
      exact Option.noConfusion h

theorem lastOwner_cons (owner : Option Nat) (v : Nat) (rs : List Nat) :
    lastOwner owner (v :: rs) = lastOwner (some v) rs := rfl

theorem lastOwner_nil (owner : Option Nat) : lastOwner owner [] = owner := rfl

theorem levelOk_lo_le (frames : List FrameSt) (functions : List FuncRec)
    (childrenT : List Nat) : ∀ (rs : List Nat) (owner : Option Nat)
    (lo k : Nat) (acc : List FuncRec),
    levelOk frames functions childrenT owner rs lo k acc → lo ≤ frames.length := by
  intro rs
  induction rs with
  | nil =>
    intro owner lo k acc h
    simp only [levelOk] at h
    obtain ⟨J, _, hcov, _⟩ := h
    omega
  | cons v rs2 ih =>
    intro owner lo k acc h
    simp only [levelOk] at h
    obtain ⟨J, kv, kv2, fv, _, hv, _, _, _, _, hrec⟩ := h
    have := ih (some v) (v + 1) kv2 _ hrec
    omega

theorem levelOk_k_le (frames : List FrameSt) (functions : List FuncRec)
    (childrenT : List Nat) : ∀ (rs : List Nat) (owner : Option Nat)
    (lo k : Nat) (acc : List FuncRec),
    levelOk frames functions childrenT owner rs lo k acc →
    k ≤ functions.length := by
  intro rs
  induction rs with
  | nil =>
    intro owner lo k acc h
    simp only [levelOk] at h
    obtain ⟨J, _, _, hdfs, _⟩ := h
    exact dfs_mono (sizeF J) J k functions.length (le_refl _) hdfs
  | cons v rs2 ih =>
    intro owner lo k acc h
    simp only [levelOk] at h
    obtain ⟨J, kv, kv2, fv, _, _, hdfs, _, hstep, _, hrec⟩ := h
    have h1 : k ≤ kv := dfs_mono (sizeF J) J k kv (le_refl _) hdfs
    have h2 := openStep_le fv kv kv2 hstep
    have h3 := ih (some v) (v + 1) kv2 _ hrec
    omega

theorem levelOk_last_lo (frames : List FrameSt) (functions : List FuncRec)
    (childrenT : List Nat) : ∀ (rs : List Nat) (owner : Option Nat)
    (lo k : Nat) (acc : List FuncRec),
    levelOk frames functions childrenT owner rs lo k acc → rs ≠ [] →
    ∀ x, lastOwner owner rs = some x → lo ≤ x := by
  intro rs
  induction rs with
  | nil =>
    intro owner lo k acc _ hne
    exact absurd rfl hne
  | cons v rs2 ih =>
    intro owner lo k acc h _ x hx
    simp only [levelOk] at h
    obtain ⟨J, kv, kv2, fv, _, hv, _, _, _, _, hrec⟩ := h
    rw [lastOwner_cons] at hx
    cases rs2 with
    | nil =>
      rw [lastOwner_nil] at hx
      obtain rfl := Option.some.inj hx
      omega
    | cons w rs3 =>
      have := ih (some v) (v + 1) kv2 _ hrec (by simp) x hx
      omega

theorem agg_length : ∀ (m : Nat) (l : List FrameJSON) (k k2 : Nat), sizeF l ≤ m →
    dfsL l k = some k2 → ∀ (F acc : List FuncRec), acc.length = k →
    (aggL F l acc).length = k2 := by
  intro m
  induction m with
  | zero =>
    intro l k k2 hs h F acc hacc
    cases l with
    | nil =>
      rw [dfsL_nil] at h
      obtain rfl := Option.some.inj h
      rw [aggL_nil]
      exact hacc
    | cons n rest =>
      rw [sizeF_cons] at hs
      have := sizeN_pos n
      omega
  | succ m ih =>
    intro l k k2 hs h F acc hacc
    cases l with
    | nil =>
      rw [dfsL_nil] at h
      obtain rfl := Option.some.inj h
      rw [aggL_nil]
      exact hacc
    | cons n rest =>
      cases n with
      | mk f sT eT a r t y kids =>
        rw [sizeF_cons, sizeN_mk] at hs
        rw [dfsL_cons] at h
        cases hn : dfsN (FrameJSON.mk f sT eT a r t y kids) k with
        | none =>
          rw [hn] at h
          exact Option.noConfusion h
        | some k3 =>
          rw [hn] at h
          dsimp only at h
          rw [dfsN_mk] at hn
          rw [aggL_cons]
          refine ih rest k3 k2 (by omega) h F _ ?_
          by_cases h1 : f < k
          · rw [if_pos h1] at hn
            simp only [aggN]
            rw [if_pos (by omega : f < acc.length), List.length_modify]
            exact ih kids k k3 (by omega) hn F _ (by rw [List.length_modify]; exact hacc)
          · rw [if_neg h1] at hn
            by_cases h2 : f = k
            · rw [if_pos h2] at hn
              simp only [aggN]
              rw [if_neg (by omega : ¬ f < acc.length), List.length_modify]
              refine ih kids (k + 1) k3 (by omega) hn F _ ?_
              rw [List.length_modify, List.length_append, hacc]
              rfl
            · rw [if_neg h2] at hn
              exact Option.noConfusion hn

theorem agg_stable : ∀ (m : Nat) (l : List FrameJSON) (k k2 : Nat), sizeF l ≤ m →
    dfsL l k = some k2 → ∀ (F F2 : List FuncRec) (KB : Nat), k2 ≤ KB →
    (∀ i, i < KB →
      ((F2.get? i).getD defaultFuncRec).name = ((F.get? i).getD defaultFuncRec).name ∧
      ((F2.get? i).getD defaultFuncRec).location =
        ((F.get? i).getD defaultFuncRec).location ∧
      ((F2.get? i).getD defaultFuncRec).parameterNames =
        ((F.get? i).getD defaultFuncRec).parameterNames) →
    ∀ acc, aggL F2 l acc = aggL F l acc := by
  intro m
  induction m with
  | zero =>
    intro l k k2 hs h F F2 KB hKB hstat acc
    cases l with
    | nil => rw [aggL_nil, aggL_nil]
    | cons n rest =>
      rw [sizeF_cons] at hs
      have := sizeN_pos n
      omega
  | succ m ih =>
    intro l k k2 hs h F F2 KB hKB hstat acc
    cases l with
    | nil => rw [aggL_nil, aggL_nil]
    | cons n rest =>
      cases n with
      | mk f sT eT a r t y kids =>
        rw [sizeF_cons, sizeN_mk] at hs
        rw [dfsL_cons] at h
        cases hn : dfsN (FrameJSON.mk f sT eT a r t y kids) k with
        | none =>
          rw [hn] at h
          exact Option.noConfusion h
        | some k3 =>
          rw [hn] at h
          dsimp only at h
          have hk3k2 : k3 ≤ k2 := dfs_mono m rest k3 k2 (by omega) h
          rw [dfsN_mk] at hn
          have hbr : (∀ acc0, aggL F2 kids acc0 = aggL F kids acc0) ∧ f < KB := by
            by_cases h1 : f < k
            · rw [if_pos h1] at hn
              have hk3 : k ≤ k3 := dfs_mono m kids k k3 (by omega) hn
              exact ⟨ih kids k k3 (by omega) hn F F2 KB (by omega) hstat, by omega⟩
            · rw [if_neg h1] at hn
              by_cases h2 : f = k
              · rw [if_pos h2] at hn
                have hk3 : k + 1 ≤ k3 := dfs_mono m kids (k + 1) k3 (by omega) hn
                exact ⟨ih kids (k + 1) k3 (by omega) hn F F2 KB (by omega) hstat,
                  by omega⟩
              · rw [if_neg h2] at hn
                exact Option.noConfusion hn
          obtain ⟨hkids, hfKB⟩ := hbr
          rw [aggL_cons, aggL_cons]
          have haggN : aggN F2 (FrameJSON.mk f sT eT a r t y kids) acc =
              aggN F (FrameJSON.mk f sT eT a r t y kids) acc := by
            simp only [aggN]
            rw [(hstat f hfKB).1, (hstat f hfKB).2.1, (hstat f hfKB).2.2, hkids]
          rw [haggN]
          exact ih rest k3 k2 (by omega) h F F2 KB hKB hstat _

theorem openAggF_found (F : List FuncRec) (f : Nat) (acc : List FuncRec)
    (h : f < acc.length) :
    openAggF F f acc = acc.modify (fun r => { r with count := r.count + 1 }) f := by
  unfold openAggF
  rw [if_pos h]

theorem aggN_decompose (F : List FuncRec) (f : Nat) (sT eT : Option Int)
    (a r t y : Option Val) (kids : List FrameJSON) (acc : List FuncRec) :
    aggN F (.mk f sT eT a r t y kids) acc =
      (aggL F kids (openAggF F f acc)).modify (fun rr =>
        let r1 := if rr.totalTime.isNone
          then { rr with totalTime := some 0, selfTime := some 0 } else rr
        { r1 with totalTime := jsAdd r1.totalTime (jsSub eT sT),
                  selfTime := jsAdd r1.selfTime
                    (kids.foldl (fun a2 c => jsSub a2 (nodeTotal c)) (jsSub eT sT)) })
        f := by
  simp only [aggN, openAggF]

theorem fTJ_fields (frames : List FrameSt) (fuel u : Nat) (n : FrameJSON)
    (h : frameToJSONObj frames (fuel + 1) u = some n) :
    ∃ fr kids, frames.get? u = some fr ∧
      mapO (frameToJSONObj frames fuel) fr.childrenL = some kids ∧
      n = .mk fr.fid fr.startTime fr.endTime fr.args fr.ret fr.thr fr.yld kids := by
  unfold frameToJSONObj at h
  cases hg : frames.get? u with
  | none =>
    rw [hg] at h
    exact Option.noConfusion h
  | some fr =>
    rw [hg] at h
    dsimp only at h
    cases hm : mapO (frameToJSONObj frames fuel) fr.childrenL with
    | none =>
      rw [hm] at h
      exact Option.noConfusion h
    | some kids =>
      rw [hm] at h
      exact ⟨fr, kids, rfl, hm, (Option.some.inj h).symm⟩

theorem lastOwner_append_single : ∀ (l : List Nat) (owner : Option Nat) (x : Nat),
    lastOwner owner (l ++ [x]) = some x := by
  intro l
  induction l with
  | nil =>
    intro owner x
    rfl
  | cons v rest ih =>
    intro owner x
    rw [List.cons_append, lastOwner_cons]
    exact ih (some v) x

theorem openAgg_length (F : List FuncRec) (f : Nat) (acc : List FuncRec) (kv kv2 : Nat)
    (hl : acc.length = kv) (hs : openStep f kv = some kv2) :
    (openAggF F f acc).length = kv2 := by
  unfold openAggF
  unfold openStep at hs
  by_cases h1 : f < kv
  · rw [if_pos h1] at hs
    obtain rfl := Option.some.inj hs
    rw [if_pos (by omega), List.length_modify]
    exact hl
  · rw [if_neg h1] at hs
    by_cases h2 : f = kv
    · rw [if_pos h2] at hs
      obtain rfl := Option.some.inj hs
      rw [if_neg (by omega), List.length_modify, List.length_append, hl]
      rfl
    · rw [if_neg h2] at hs
      exact Option.noConfusion hs

theorem openAggF_stable (F F2 : List FuncRec)
    (hstat : ∀ i, i < F.length →
      ((F2.get? i).getD defaultFuncRec).name = ((F.get? i).getD defaultFuncRec).name ∧
      ((F2.get? i).getD defaultFuncRec).location =
        ((F.get? i).getD defaultFuncRec).location ∧
      ((F2.get? i).getD defaultFuncRec).parameterNames =
        ((F.get? i).getD defaultFuncRec).parameterNames)
    (f : Nat) (acc : List FuncRec) (kv kv2 : Nat)
    (hl : acc.length = kv) (hs : openStep f kv = some kv2) (hkv2 : kv2 ≤ F.length) :
    openAggF F2 f acc = openAggF F f acc := by
  unfold openAggF
  by_cases h1 : f < acc.length
  · rw [if_pos h1, if_pos h1]
  · rw [if_neg h1, if_neg h1]
    have hf : f < F.length := by
      unfold openStep at hs
      rw [if_neg (by omega)] at hs
      by_cases h2 : f = kv
      · rw [if_pos h2] at hs
        obtain rfl := Option.some.inj hs
        omega
      · rw [if_neg h2] at hs
        exact Option.noConfusion hs
    rw [(hstat f hf).1, (hstat f hf).2.1, (hstat f hf).2.2]

theorem lookup_map_some (g : Nat → String) (key : String) : ∀ (l : List Nat) (i : Nat),
    List.lookup key (l.map (fun j => (g j, j))) = some i → i ∈ l ∧ g i = key := by
  intro l
  induction l with
  | nil =>
    intro i h
    exact Option.noConfusion h
  | cons j rest ih =>
    intro i h
    rw [List.map_cons] at h
    by_cases hk : key = g j
    · have hj : List.lookup key ((g j, j) :: rest.map (fun j2 => (g j2, j2))) =
          some j := by
        simp [List.lookup, hk]
      rw [hj] at h
      obtain rfl := Option.some.inj h
      exact ⟨List.mem_cons_self _ _, hk.symm⟩
    · have hskip : List.lookup key ((g j, j) :: rest.map (fun j2 => (g j2, j2))) =
          List.lookup key (rest.map (fun j2 => (g j2, j2))) := by
        simp [List.lookup, beq_eq_false_iff_ne.2 hk]
      rw [hskip] at h
      obtain ⟨h1, h2⟩ := ih i h
      exact ⟨List.mem_cons_of_mem _ h1, h2⟩

theorem lookup_map_none (g : Nat → String) (key : String) : ∀ (l : List Nat),
    List.lookup key (l.map (fun j => (g j, j))) = none → ∀ i ∈ l, g i ≠ key := by
  intro l
  induction l with
  | nil =>
    intro _ i hi
    exact absurd hi (List.not_mem_nil i)
  | cons j rest ih =>
    intro h i hi
    rw [List.map_cons] at h
    by_cases hk : key = g j
    · have hj : List.lookup key ((g j, j) :: rest.map (fun j2 => (g j2, j2))) =
          some j := by
        simp [List.lookup, hk]
      rw [hj] at h
      exact Option.noConfusion h
    · have hskip : List.lookup key ((g j, j) :: rest.map (fun j2 => (g j2, j2))) =
          List.lookup key (rest.map (fun j2 => (g j2, j2))) := by
        simp [List.lookup, beq_eq_false_iff_ne.2 hk]
      rw [hskip] at h
      rcases List.mem_cons.1 hi with rfl | hi2
      · exact fun hx => hk hx.symm
      · exact ih h i hi2

theorem levelOk_last_lt (frames : List FrameSt) (functions : List FuncRec)
    (childrenT : List Nat) : ∀ (rs : List Nat) (owner : Option Nat)
    (lo k : Nat) (acc : List FuncRec),
    levelOk frames functions childrenT owner rs lo k acc →
    (∀ y, owner = some y → y < lo) →
    ∀ x, lastOwner owner rs = some x → x < frames.length := by
  intro rs
  induction rs with
  | nil =>
    intro owner lo k acc h howlo x hx
    rw [lastOwner_nil] at hx
    have h1 := howlo x hx
    have h2 := levelOk_lo_le frames functions childrenT [] owner lo k acc h
    omega
  | cons v rs2 ih =>
    intro owner lo k acc h howlo x hx
    simp only [levelOk] at h
    obtain ⟨J, kv, kv2, fv, _, hv, _, _, _, _, hrec⟩ := h
    rw [lastOwner_cons] at hx
    exact ih (some v) (v + 1) kv2 _ hrec
      (fun y hy => by cases hy; omega) x hx

theorem foldl_selfT_of_ser (frames : List FrameSt)
    (hd : ∀ u fr, frames.get? u = some fr → fr.endTime.isSome = true →
      closedOk frames fr) (fuel : Nat) :
    ∀ (roots : List Nat) (Jm : List FrameJSON),
    List.Forall₂ (fun c nn => frameToJSONObj frames fuel c = some nn) roots Jm →
    (∀ c ∈ roots, ∃ cf, frames.get? c = some cf ∧ cf.endTime.isSome = true) →
    ∀ init : Option Int,
      roots.foldl (fun a c => jsSub a (childTotal frames c)) init =
      Jm.foldl (fun a nn => jsSub a (nodeTotal nn)) init := by
  intro roots Jm hfa
  induction hfa with
  | nil =>
    intro _ init
    rfl
  | cons hx hrest ih =>
    rename_i c nn l1 l2
    intro hall init
    rw [List.foldl_cons, List.foldl_cons]
    have hct : childTotal frames c = nodeTotal nn := by
      cases fuel with
      | zero => exact Option.noConfusion hx
      | succ fl =>
        obtain ⟨fr, kids, hfr, _, hnn⟩ := fTJ_fields frames fl c nn hx
        obtain ⟨cf, hcf, hcfend⟩ := hall c (List.mem_cons_self _ _)
        rw [hfr] at hcf
        obtain rfl := Option.some.inj hcf
        obtain ⟨s, e, ts, k1, k2, k3, _, _⟩ := hd c fr hfr hcfend
        have hct2 : childTotal frames c = fr.totalTime := by
          unfold childTotal
          rw [hfr]
        rw [hct2, k3, hnn, nodeTotal_mk, k1, k2]
        rfl
    rw [hct]
    exact ih (fun c2 hc2 => hall c2 (List.mem_cons_of_mem _ hc2))
      (jsSub init (nodeTotal nn))

theorem lastOwner_isSome : ∀ (rs : List Nat) (v : Nat),
    ∃ x, lastOwner (some v) rs = some x := by
  intro rs
  induction rs with
  | nil =>
    intro v
    exact ⟨v, rfl⟩
  | cons w rs2 ih =>
    intro v
    rw [lastOwner_cons]
    exact ih w

/-- One enter event extends the zipper: the innermost level gains the
new open frame as a fresh level, every outer level is untouched. -/
theorem zip_enter (frames frames2 : List FrameSt) (functions functions2 : List FuncRec)
    (childrenT childrenT2 : List Nat) (cuo : Option Nat) (fNew : Nat)
    (hN : frames2.length = frames.length + 1)
    (hnew : ∃ nf, frames2.get? frames.length = some nf ∧ nf.fid = fNew ∧
      nf.childrenL = [])
    (hsi : ∀ c, c < frames.length → cuo ≠ some c → sItem frames2 c = sItem frames c)
    (hoc : ∀ o : Option Nat, o ≠ cuo →
      ownerChildren frames2 childrenT2 o = ownerChildren frames childrenT o)
    (hocCu : ownerChildren frames2 childrenT2 cuo =
      ownerChildren frames childrenT cuo ++ [frames.length])
    (hfid : ∀ u fr, frames.get? u = some fr →
      ∃ fr2, frames2.get? u = some fr2 ∧ fr2.fid = fr.fid)
    (hstep : openStep fNew functions.length = some functions2.length)
    (hstat : ∀ i, i < functions.length →
      ((functions2.get? i).getD defaultFuncRec).name =
        ((functions.get? i).getD defaultFuncRec).name ∧
      ((functions2.get? i).getD defaultFuncRec).location =
        ((functions.get? i).getD defaultFuncRec).location ∧
      ((functions2.get? i).getD defaultFuncRec).parameterNames =
        ((functions.get? i).getD defaultFuncRec).parameterNames)
    (hopen : openAggF functions2 fNew functions = functions2) :
    ∀ (rs : List Nat) (owner : Option Nat) (lo k : Nat) (acc : List FuncRec),
    levelOk frames functions childrenT owner rs lo k acc →
    lastOwner owner rs = cuo →
    (∀ y, owner = some y → y < lo) →
    acc.length = k →
    levelOk frames2 functions2 childrenT2 owner (rs ++ [frames.length]) lo k acc := by
  intro rs
  induction rs with
  | nil =>
    intro owner lo k acc h hlast howlo hacck
    rw [lastOwner_nil] at hlast
    subst hlast
    simp only [levelOk] at h
    obtain ⟨J, hocJ, hcov, hdfs, hagg, hser⟩ := h
    rw [List.nil_append]
    simp only [levelOk]
    obtain ⟨nf, hnf, hnffid, hnfch⟩ := hnew
    refine ⟨J, functions.length, functions2.length, fNew, ?_, hcov, hdfs, ?_,
      hstep, ?_, ?_⟩
    · rw [hocCu, hocJ]
    · rw [hnf]
      simp only [Option.map_some']
      rw [hnffid]
    · intro frames3 fuel hf hag
      refine hser frames3 fuel hf ?_
      intro c hc1 hc2
      rw [hag c hc1 hc2]
      refine hsi c (by omega) ?_
      intro hx
      have := howlo c hx
      omega
    · refine ⟨[], ?_, ?_, ?_, ?_, ?_⟩
      · show ((frames2.get? frames.length).map FrameSt.childrenL).getD [] =
          rootsUids (frames.length + 1) []
        rw [hnf, rootsUids_nil]
        simp only [Option.map_some', Option.getD_some]
        exact hnfch
      · rw [sizeF_nil, hN]
      · rw [dfsL_nil]
      · rw [aggL_nil]
        have h1 : aggL functions2 J acc = aggL functions J acc :=
          agg_stable (sizeF J) J k functions.length (le_refl _) hdfs functions
            functions2 functions.length (le_refl _) hstat acc
        rw [h1, hagg]
        exact hopen
      · intro frames3 fuel _ _
        rw [rootsUids_nil]
        rfl
  | cons v rs2 ih =>
    intro owner lo k acc h hlast howlo hacck
    simp only [levelOk] at h
    obtain ⟨J, kv, kv2, fv, hocJ, hv, hdfs, hfidv, hstepv, hser, hrec⟩ := h
    rw [lastOwner_cons] at hlast
    have hkvkv2 := openStep_le fv kv kv2 hstepv
    have hkv2F : kv2 ≤ functions.length :=
      levelOk_k_le frames functions childrenT rs2 (some v) (v + 1) kv2 _ hrec
    have hkkv : k ≤ kv := dfs_mono (sizeF J) J k kv (le_refl _) hdfs
    have hcuolarge : ∀ x, cuo = some x → v ≤ x := by
      intro x hx
      cases rs2 with
      | nil =>
        rw [lastOwner_nil] at hlast
        rw [← hlast] at hx
        obtain rfl := Option.some.inj hx
        exact le_refl _
      | cons w rs3 =>
        have := levelOk_last_lo frames functions childrenT (w :: rs3) (some v)
          (v + 1) kv2 _ hrec (by simp) x (hlast.trans hx)
        omega
    have howner_ne : owner ≠ cuo := by
      intro he
      rcases hhe : owner with _ | y
      · rw [hhe] at he
        obtain ⟨x, hx⟩ := lastOwner_isSome rs2 v
        rw [hlast, ← he] at hx
        exact Option.noConfusion hx
      · rw [hhe] at he
        have h1 := hcuolarge y he.symm
        have h2 := howlo y hhe
        omega
    rw [List.cons_append]
    simp only [levelOk]
    refine ⟨J, kv, kv2, fv, ?_, hv, hdfs, ?_, hstepv, ?_, ?_⟩
    · rw [hoc owner howner_ne, hocJ]
    · obtain ⟨frv, hfrv, hfvv⟩ := Option.map_eq_some'.1 hfidv
      obtain ⟨fr2, hfr2, hfid2⟩ := hfid v frv hfrv
      rw [hfr2]
      simp only [Option.map_some']
      rw [hfid2, hfvv]
    · intro frames3 fuel hf hag
      refine hser frames3 fuel hf ?_
      intro c hc1 hc2
      rw [hag c hc1 hc2]
      refine hsi c ?_ ?_
      · have := levelOk_lo_le frames functions childrenT rs2 (some v) (v + 1) kv2 _ hrec
        omega
      · intro hx
        have := hcuolarge c hx
        omega
    · have hacc2 : (openAggF functions fv (aggL functions J acc)).length = kv2 :=
        openAgg_length functions fv _ kv kv2
          (agg_length (sizeF J) J k kv (le_refl _) hdfs functions acc hacck) hstepv
      have hstab1 : aggL functions2 J acc = aggL functions J acc :=
        agg_stable (sizeF J) J k kv (le_refl _) hdfs functions functions2
          functions.length (by omega) hstat acc
      have hstab2 : openAggF functions2 fv (aggL functions J acc) =
          openAggF functions fv (aggL functions J acc) :=
        openAggF_stable functions functions2 hstat fv _ kv kv2
          (agg_length (sizeF J) J k kv (le_refl _) hdfs functions acc hacck)
          hstepv hkv2F
      rw [hstab1, hstab2]
      exact ih (some v) (v + 1) kv2 _ hrec hlast (fun y hy => by cases hy; omega) hacc2

/-- One exit event folds the zipper: the innermost open frame closes
into its parent level's forest as one more serialized node; every outer
level is untouched. -/
theorem zip_exit (frames frames2 : List FrameSt) (functions functions2 : List FuncRec)
    (childrenT : List Nat) (vTop : Nat) (frPre nfr : FrameSt) (pT : Option Int)
    (hfrPre : frames.get? vTop = some frPre)
    (hframes2 : frames2 = frames.set vTop nfr)
    (hfun2 : functions2 = functions.modify (fun r =>
        let r1 := if r.totalTime.isNone
          then { r with totalTime := some 0, selfTime := some 0 } else r
        { r1 with totalTime := jsAdd r1.totalTime (jsSub pT frPre.startTime),
                  selfTime := jsAdd r1.selfTime
                    (frPre.childrenL.foldl (fun acc c => jsSub acc (childTotal frames c))
                      (jsSub pT frPre.startTime)) }) frPre.fid)
    (hnstart : nfr.startTime = frPre.startTime)
    (hnend : nfr.endTime = pT)
    (hnch : nfr.childrenL = frPre.childrenL)
    (hnfid : nfr.fid = frPre.fid)
    (hd : ∀ u fr, frames.get? u = some fr → fr.endTime.isSome = true →
      closedOk frames fr)
    (hallc : ∀ c ∈ frPre.childrenL,
      ∃ cf, frames.get? c = some cf ∧ cf.endTime.isSome = true) :
    ∀ (rs : List Nat) (owner : Option Nat) (lo k : Nat) (acc : List FuncRec),
    levelOk frames functions childrenT owner rs lo k acc →
    lastOwner owner rs = some vTop →
    (∀ y, owner = some y → y < lo) →
    acc.length = k → rs ≠ [] →
    levelOk frames2 functions2 childrenT owner rs.dropLast lo k acc := by
  have hvTlt : vTop < frames.length := (List.get?_eq_some.1 hfrPre).1
  have hocpres : ∀ o, ownerChildren frames2 childrenT o =
      ownerChildren frames childrenT o := by
    intro o
    cases o with
    | none => rfl
    | some u =>
      show ((frames2.get? u).map FrameSt.childrenL).getD [] =
        ((frames.get? u).map FrameSt.childrenL).getD []
      rw [hframes2, listGet?_set_gen]
      by_cases hu : vTop = u
      · subst hu
        rw [if_pos rfl, hfrPre]
        simp only [Option.map_some', Option.getD_some]
        exact hnch
      · rw [if_neg hu]
  have hsi2 : ∀ c, c ≠ vTop → sItem frames2 c = sItem frames c := by
    intro c hc
    rw [hframes2]
    exact sItem_set_ne frames vTop nfr hc
  have hfid2 : ∀ u fr, frames.get? u = some fr →
      ∃ fr2, frames2.get? u = some fr2 ∧ fr2.fid = fr.fid := by
    intro u fr hfr
    rw [hframes2, listGet?_set_gen]
    by_cases hu : vTop = u
    · subst hu
      rw [hfrPre] at hfr
      obtain rfl := Option.some.inj hfr
      rw [if_pos rfl, hfrPre]
      exact ⟨nfr, rfl, by rw [hnfid]⟩
    · rw [if_neg hu]
      exact ⟨fr, hfr, rfl⟩
  have hstat : ∀ i, i < functions.length →
      ((functions2.get? i).getD defaultFuncRec).name =
        ((functions.get? i).getD defaultFuncRec).name ∧
      ((functions2.get? i).getD defaultFuncRec).location =
        ((functions.get? i).getD defaultFuncRec).location ∧
      ((functions2.get? i).getD defaultFuncRec).parameterNames =
        ((functions.get? i).getD defaultFuncRec).parameterNames := by
    intro i _
    rw [hfun2, listGet?_modify]
    by_cases hfi : frPre.fid = i
    · rw [if_pos hfi]
      cases hgi : functions.get? i with
      | none => exact ⟨rfl, rfl, rfl⟩
      | some r =>
        simp only [Option.map_some', Option.getD_some]
        refine ⟨?_, ?_, ?_⟩ <;> (dsimp only; split <;> rfl)
    · rw [if_neg hfi]
      exact ⟨rfl, rfl, rfl⟩
  have hlenf2 : functions2.length = functions.length := by
    rw [hfun2, List.length_modify]
  intro rs
  induction rs with
  | nil =>
    intro owner lo k acc _ _ _ _ hne
    exact absurd rfl hne
  | cons v rs2 ih =>
    intro owner lo k acc h hlast howlo hacck _
    simp only [levelOk] at h
    obtain ⟨J, kv, kv2, fv, hocJ, hv, hdfs, hfidv, hstepv, hser, hrec⟩ := h
    rw [lastOwner_cons] at hlast
    cases rs2 with
    | nil =>
      rw [lastOwner_nil] at hlast
      obtain rfl := Option.some.inj hlast
      simp only [levelOk] at hrec
      obtain ⟨Jm, hocm, hcovm, hdfsm, haggm, hserm⟩ := hrec
      rw [hfrPre] at hfidv
      have hfv : frPre.fid = fv := Option.some.inj (by
        simpa only [Option.map_some'] using hfidv)
      have hch : frPre.childrenL = rootsUids (v + 1) Jm := by
        simp only [ownerChildren] at hocm
        rw [hfrPre] at hocm
        simpa only [Option.map_some', Option.getD_some] using hocm
      have hsing : ∀ (x : Nat) (nn : FrameJSON), rootsUids x [nn] = [x] := by
        intro x nn
        rw [rootsUids_cons, rootsUids_nil]
      have hszn : sizeN (FrameJSON.mk fv nfr.startTime nfr.endTime nfr.args nfr.ret
          nfr.thr nfr.yld Jm) = 1 + sizeF Jm := sizeN_mk _ _ _ _ _ _ _ _
      have hdfsn : dfsN (FrameJSON.mk fv nfr.startTime nfr.endTime nfr.args nfr.ret
          nfr.thr nfr.yld Jm) kv = some functions.length := by
        rw [dfsN_mk]
        unfold openStep at hstepv
        by_cases h1 : fv < kv
        · rw [if_pos h1] at hstepv ⊢
          obtain rfl := Option.some.inj hstepv
          exact hdfsm
        · rw [if_neg h1] at hstepv ⊢
          by_cases h2 : fv = kv
          · rw [if_pos h2] at hstepv ⊢
            obtain rfl := Option.some.inj hstepv
            exact hdfsm
          · rw [if_neg h2] at hstepv
            exact Option.noConfusion hstepv
      have hdfsJn : dfsL (J ++ [FrameJSON.mk fv nfr.startTime nfr.endTime nfr.args
          nfr.ret nfr.thr nfr.yld Jm]) k = some functions.length := by
        rw [dfsL_append J _ k kv hdfs, dfsL_cons, hdfsn]
        exact dfsL_nil _
      have hfold : frPre.childrenL.foldl
          (fun a2 c => jsSub a2 (childTotal frames c)) (jsSub pT frPre.startTime) =
          Jm.foldl (fun a2 nn => jsSub a2 (nodeTotal nn))
            (jsSub pT frPre.startTime) := by
        rw [hch]
        exact foldl_selfT_of_ser frames hd (sizeF Jm) _ Jm
          (mapO_forall2 _ _ _ (hserm frames (sizeF Jm) (le_refl _)
            (fun c _ _ => rfl)))
          (fun c hc => hallc c (by rw [hch]; exact hc))
          (jsSub pT frPre.startTime)
      refine ⟨J ++ [FrameJSON.mk fv nfr.startTime nfr.endTime nfr.args nfr.ret
        nfr.thr nfr.yld Jm], ?_, ?_, ?_, ?_, ?_⟩
      · rw [hocpres owner, hocJ, rootsUids_append, hsing, hv]
      · rw [hframes2, List.length_set, sizeF_append, sizeF_cons, sizeF_nil, hszn]
        omega
      · rw [hdfsJn, hlenf2]
      · have hstab : aggL functions2 (J ++ [FrameJSON.mk fv nfr.startTime nfr.endTime
            nfr.args nfr.ret nfr.thr nfr.yld Jm]) acc =
            aggL functions (J ++ [FrameJSON.mk fv nfr.startTime nfr.endTime
            nfr.args nfr.ret nfr.thr nfr.yld Jm]) acc :=
          agg_stable (sizeF (J ++ [FrameJSON.mk fv nfr.startTime nfr.endTime nfr.args
            nfr.ret nfr.thr nfr.yld Jm])) _ k functions.length (le_refl _) hdfsJn
            functions functions2 functions.length (le_refl _) hstat acc
        rw [hstab, aggL_append, aggL_cons, aggL_nil, aggN_decompose, haggm, hfun2,
          hfv]
        simp only [hnend, hnstart, hfold]
      · intro frames3 fuel hf hag
        rw [sizeF_append, sizeF_cons, sizeF_nil, hszn] at hf
        rw [rootsUids_append, hsing, hv]
        have hpart1 : mapO (frameToJSONObj frames3 fuel) (rootsUids lo J) =
            some J := by
          refine hser frames3 fuel (by omega) ?_
          intro c hc1 hc2
          rw [hag c hc1
            (by rw [sizeF_append, sizeF_cons, sizeF_nil, hszn]; omega)]
          exact hsi2 c (by omega)
        have hv1 : v < frames.length := by omega
        cases fuel with
        | zero => omega
        | succ fl =>
          have hsiv : sItem frames3 v = some (fv, nfr.startTime, nfr.endTime,
              nfr.args, nfr.ret, nfr.thr, nfr.yld, rootsUids (v + 1) Jm) := by
            rw [hag v (by omega)
              (by rw [sizeF_append, sizeF_cons, sizeF_nil, hszn]; omega)]
            unfold sItem
            rw [hframes2, listGet?_set_self _ _ hvTlt]
            simp only [Option.map_some']
            rw [hnfid, hfv, hnch, hch]
          unfold sItem at hsiv
          obtain ⟨fr3, hfr3, htup⟩ := Option.map_eq_some'.1 hsiv
          simp only [Prod.mk.injEq] at htup
          obtain ⟨t1, t2, t3, t4, t5, t6, t7, t8⟩ := htup
          have hkids : mapO (frameToJSONObj frames3 fl) fr3.childrenL =
              some Jm := by
            rw [t8]
            refine hserm frames3 fl (by omega) ?_
            intro c hc1 hc2
            rw [hag c (by omega)
              (by rw [sizeF_append, sizeF_cons, sizeF_nil, hszn]; omega)]
            exact hsi2 c (by omega)
          have hnode := frameToJSONObj_succ frames3 fl v fr3 hfr3 Jm hkids
          rw [t1, t2, t3, t4, t5, t6, t7] at hnode
          refine mapO_append _ _ _ _ _ hpart1 ?_
          exact mapO_cons_some _ _ _ _ _ hnode rfl
    | cons w rs3 =>
      have hvT : v + 1 ≤ vTop :=
        levelOk_last_lo frames functions childrenT (w :: rs3) (some v) (v + 1) kv2 _
          hrec (by simp) vTop hlast
      have hkvkv2 := openStep_le fv kv kv2 hstepv
      have hkv2F : kv2 ≤ functions.length :=
        levelOk_k_le frames functions childrenT (w :: rs3) (some v) (v + 1) kv2 _ hrec
      have hkkv : k ≤ kv := dfs_mono (sizeF J) J k kv (le_refl _) hdfs
      show levelOk frames2 functions2 childrenT owner
        (v :: (w :: rs3).dropLast) lo k acc
      simp only [levelOk]
      refine ⟨J, kv, kv2, fv, ?_, hv, hdfs, ?_, hstepv, ?_, ?_⟩
      · rw [hocpres owner, hocJ]
      · obtain ⟨frv, hfrv, hfvv⟩ := Option.map_eq_some'.1 hfidv
        obtain ⟨fr2, hfr2, hfid3⟩ := hfid2 v frv hfrv
        rw [hfr2]
        simp only [Option.map_some']
        rw [hfid3, hfvv]
      · intro frames3 fuel hf hag
        refine hser frames3 fuel hf ?_
        intro c hc1 hc2
        rw [hag c hc1 hc2]
        exact hsi2 c (by omega)
      · have hacc2 : (openAggF functions fv (aggL functions J acc)).length = kv2 :=
          openAgg_length functions fv _ kv kv2
            (agg_length (sizeF J) J k kv (le_refl _) hdfs functions acc hacck) hstepv
        have hstab1 : aggL functions2 J acc = aggL functions J acc :=
          agg_stable (sizeF J) J k kv (le_refl _) hdfs functions functions2
            functions.length (by omega) hstat acc
        have hstab2 : openAggF functions2 fv (aggL functions J acc) =
            openAggF functions fv (aggL functions J acc) :=
          openAggF_stable functions functions2 hstat fv _ kv kv2
            (agg_length (sizeF J) J k kv (le_refl _) hdfs functions acc hacck)
            hstepv hkv2F
        rw [hstab1, hstab2]
        exact ih (some v) (v + 1) kv2 _ hrec hlast
          (fun y hy => by cases hy; omega) hacc2 (by simp)

/-- Modifying one record with a statics-preserving function preserves the
statics of every entry. -/
theorem stat_modify (F : List FuncRec) (g : FuncRec → FuncRec) (f0 : Nat)
    (hg : ∀ r, (g r).name = r.name ∧ (g r).location = r.location ∧
      (g r).parameterNames = r.parameterNames) :
    ∀ i, i < F.length →
      (((F.modify g f0).get? i).getD defaultFuncRec).name =
        ((F.get? i).getD defaultFuncRec).name ∧
      (((F.modify g f0).get? i).getD defaultFuncRec).location =
        ((F.get? i).getD defaultFuncRec).location ∧
      (((F.modify g f0).get? i).getD defaultFuncRec).parameterNames =
        ((F.get? i).getD defaultFuncRec).parameterNames := by
  intro i _
  rw [listGet?_modify]
  by_cases hfi : f0 = i
  · rw [if_pos hfi]
    cases hgi : F.get? i with
    | none => exact ⟨rfl, rfl, rfl⟩
    | some r =>
      simp only [Option.map_some', Option.getD_some]
      exact hg r
  · rw [if_neg hfi]
    exact ⟨rfl, rfl, rfl⟩

/-- Tables of the same length agreeing on statics have equal keys. -/
theorem keyF_congr (F F2 : List FuncRec) (hlen : F2.length = F.length)
    (hstat : ∀ i, i < F.length →
      ((F2.get? i).getD defaultFuncRec).name = ((F.get? i).getD defaultFuncRec).name ∧
      ((F2.get? i).getD defaultFuncRec).location =
        ((F.get? i).getD defaultFuncRec).location ∧
      ((F2.get? i).getD defaultFuncRec).parameterNames =
        ((F.get? i).getD defaultFuncRec).parameterNames) :
    ∀ i, keyF F2 i = keyF F i := by
  intro i
  by_cases hi : i < F.length
  · rw [keyF_getD, keyF_getD, (hstat i hi).1, (hstat i hi).2.1]
  · unfold keyF
    rw [List.get?_eq_none.2 (by omega), List.get?_eq_none.2 (by omega)]

theorem rangemap_congr (g g2 : Nat → String) (k : Nat)
    (h : ∀ i, i < k → g2 i = g i) :
    (List.range k).map (fun i => (g2 i, i)) =
      (List.range k).map (fun i => (g i, i)) :=
  mapCongrOn _ _ _ (fun i hi => by rw [h i (List.mem_range.1 hi)])

theorem keysInj_congr (F F2 : List FuncRec) (hlen : F2.length = F.length)
    (hk : ∀ i, keyF F2 i = keyF F i) (hinj : keysInj F) : keysInj F2 := by
  intro i j hi hj he
  exact hinj i j (by omega) (by omega) (by rw [← hk i, ← hk j]; exact he)

/-- The zipper invariant holds of a fresh trace. -/
theorem jinv_newTrace : JInv (newTrace true) := by
  refine ⟨by simp [newTrace], ?_, Or.inr ⟨[], rfl, ?_⟩⟩
  · intro i j hi _ _
    exact absurd hi (by simp [newTrace])
  · simp only [List.reverse_nil]
    refine ⟨[], rfl, rfl, rfl, rfl, ?_⟩
    intro frames3 fuel _ _
    rw [rootsUids_nil]
    rfl

/-- One enter event preserves the zipper invariant. -/
theorem jinv_enter (st : TraceSt) (p : EnterPacket) (hJ : JInv st) :
    JInv (Trace.onEnteredFrame st p) := by
  obtain ⟨hI1, hI2, hstk⟩ := hJ
  rcases hstk with ⟨hnone, hlev0⟩ | ⟨sp, hsp, hlev⟩
  · have hid : Trace.onEnteredFrame st p = st := by
      unfold Trace.onEnteredFrame
      rw [hnone]
    rw [hid]
    exact ⟨hI1, hI2, Or.inl ⟨hnone, hlev0⟩⟩
  · obtain ⟨cuo, srest, hco, hlast, hcur, hsh⟩ :
        ∃ cuo srest, st.stack = some (cuo :: srest) ∧
          lastOwner none sp.reverse = cuo ∧
          (∀ x, cuo = some x → x < st.frames.length) ∧
          (st.frames.length :: sp).map some ++ [none] =
            some st.frames.length :: cuo :: srest := by
      cases sp with
      | nil =>
        refine ⟨none, [], by rw [hsp]; rfl, rfl, ?_, rfl⟩
        intro x hx
        exact Option.noConfusion hx
      | cons u sp2 =>
        refine ⟨some u, sp2.map some ++ [none], by rw [hsp]; rfl, ?_, ?_, ?_⟩
        · rw [List.reverse_cons]
          exact lastOwner_append_single _ _ _
        · intro x hx
          obtain rfl := Option.some.inj hx
          refine levelOk_last_lt st.frames st.functions st.childrenT
            (u :: sp2).reverse none 0 0 [] hlev
            (fun y hy => Option.noConfusion hy) u ?_
          rw [List.reverse_cons]
          exact lastOwner_append_single _ _ _
        · rw [List.map_cons, List.map_cons, List.cons_append, List.cons_append]
    cases hlook : List.lookup (locationToString p.location p.name) st.fmap with
    | some i =>
      obtain ⟨hfun2, hfmap2, hstk2, hN, hchTn, hchTs, ⟨nf, hnf, hnffid, hnfstart,
        hnfend, hnftot, hnfself, hnfargs, hnfret, hnfthr, hnfyld, hnfch⟩, hext⟩ :=
        enter_char_found st p cuo srest hco hcur i hlook
      have hlk2 := hlook
      rw [hI1] at hlk2
      obtain ⟨hiMem, hkeyi⟩ := lookup_map_some (keyF st.functions)
        (locationToString p.location p.name) (List.range st.functions.length) i hlk2
      have hiK : i < st.functions.length := List.mem_range.1 hiMem
      have hstat2 : ∀ i2, i2 < st.functions.length →
          (((Trace.onEnteredFrame st p).functions.get? i2).getD defaultFuncRec).name =
            ((st.functions.get? i2).getD defaultFuncRec).name ∧
          (((Trace.onEnteredFrame st p).functions.get? i2).getD
              defaultFuncRec).location =
            ((st.functions.get? i2).getD defaultFuncRec).location ∧
          (((Trace.onEnteredFrame st p).functions.get? i2).getD
              defaultFuncRec).parameterNames =
            ((st.functions.get? i2).getD defaultFuncRec).parameterNames := by
        rw [hfun2]
        exact stat_modify st.functions (fun r => { r with count := r.count + 1 }) i
          (fun r => ⟨rfl, rfl, rfl⟩)
      have hlen2 : (Trace.onEnteredFrame st p).functions.length =
          st.functions.length := by
        rw [hfun2, List.length_modify]
      have hkeyeq := keyF_congr st.functions
        (Trace.onEnteredFrame st p).functions hlen2 hstat2
      refine ⟨?_, ?_, Or.inr ⟨st.frames.length :: sp, ?_, ?_⟩⟩
      · rw [hfmap2, hI1, hlen2]
        exact (rangemap_congr (keyF st.functions)
          (keyF (Trace.onEnteredFrame st p).functions) st.functions.length
          (fun i2 _ => hkeyeq i2)).symm
      · exact keysInj_congr st.functions _ hlen2 hkeyeq hI2
      · rw [hstk2, hsh]
      · rw [List.reverse_cons]
        refine zip_enter st.frames (Trace.onEnteredFrame st p).frames st.functions
          (Trace.onEnteredFrame st p).functions st.childrenT
          (Trace.onEnteredFrame st p).childrenT cuo i hN
          ⟨nf, hnf, hnffid, hnfch⟩ ?_ ?_ ?_ ?_ ?_ hstat2 ?_ sp.reverse none 0 0 []
          hlev hlast (fun y hy => Option.noConfusion hy) rfl
        · intro c hc hne
          exact sItem_replayExt hext c hne _ (List.get?_eq_get hc)
        · intro o hne
          cases o with
          | none =>
            cases cuo with
            | none => exact absurd rfl hne
            | some cu =>
              show (Trace.onEnteredFrame st p).childrenT = st.childrenT
              exact hchTs cu rfl
          | some u2 =>
            show (((Trace.onEnteredFrame st p).frames.get? u2).map
                FrameSt.childrenL).getD [] =
              ((st.frames.get? u2).map FrameSt.childrenL).getD []
            by_cases hu2 : u2 < st.frames.length
            · obtain ⟨fr2, hfr2, e1, e2, e3, e4, e5, e6, e7, e8, e9⟩ :=
                hext u2 (st.frames.get ⟨u2, hu2⟩) (List.get?_eq_get hu2)
              have h9 : fr2.childrenL = (st.frames.get ⟨u2, hu2⟩).childrenL := by
                rcases e9 with ⟨hc, _⟩ | ⟨_, h⟩
                · exact absurd hc.symm hne
                · exact h
              rw [hfr2, List.get?_eq_get hu2]
              simp only [Option.map_some', Option.getD_some]
              exact h9
            · by_cases hu2e : u2 = st.frames.length
              · subst hu2e
                rw [hnf, List.get?_eq_none.2 (le_refl _)]
                simp only [Option.map_some', Option.getD_some, Option.map_none',
                  Option.getD_none]
                exact hnfch
              · rw [List.get?_eq_none.2
                  (show (Trace.onEnteredFrame st p).frames.length ≤ u2 by
                    rw [hN]; omega),
                  List.get?_eq_none.2 (show st.frames.length ≤ u2 by omega)]
        · cases cuo with
          | none =>
            show (Trace.onEnteredFrame st p).childrenT =
              st.childrenT ++ [st.frames.length]
            exact hchTn rfl
          | some cu =>
            show (((Trace.onEnteredFrame st p).frames.get? cu).map
                FrameSt.childrenL).getD [] =
              ((st.frames.get? cu).map FrameSt.childrenL).getD [] ++
                [st.frames.length]
            have hcuN : cu < st.frames.length := hcur cu rfl
            obtain ⟨fr2, hfr2, e1, e2, e3, e4, e5, e6, e7, e8, e9⟩ :=
              hext cu (st.frames.get ⟨cu, hcuN⟩) (List.get?_eq_get hcuN)
            have h9 : fr2.childrenL = (st.frames.get ⟨cu, hcuN⟩).childrenL ++
                [st.frames.length] := by
              rcases e9 with ⟨_, h⟩ | ⟨hc, _⟩
              · exact h
              · exact absurd rfl hc
            rw [hfr2, List.get?_eq_get hcuN]
            simp only [Option.map_some', Option.getD_some]
            exact h9
        · intro u fr hfr
          obtain ⟨fr2, hfr2, e1, _⟩ := hext u fr hfr
          exact ⟨fr2, hfr2, e1⟩
        · rw [hlen2]
          exact openStep_found i st.functions.length hiK
        · rw [openAggF_found _ _ _ hiK]
          exact hfun2.symm
    | none =>
      obtain ⟨hfun2, hfmap2, hstk2, hN, hchTn, hchTs, ⟨nf, hnf, hnffid, hnfstart,
        hnfend, hnftot, hnfself, hnfargs, hnfret, hnfthr, hnfyld, hnfch⟩, hext⟩ :=
        enter_char_new st p cuo srest hco hcur hlook
      have hlk2 := hlook
      rw [hI1] at hlk2
      have hfreshkey := lookup_map_none (keyF st.functions)
        (locationToString p.location p.name) (List.range st.functions.length) hlk2
      have hlen2 : (Trace.onEnteredFrame st p).functions.length =
          st.functions.length + 1 := by
        rw [hfun2, List.length_modify, List.length_append]
        rfl
      have hgKL : (Trace.onEnteredFrame st p).functions.get? st.functions.length =
          some ({ count := 1, name := p.name, location := p.location,
                  parameterNames := p.parameterNames } : FuncRec) := by
        rw [hfun2, listGet?_modify, if_pos rfl, listGet?_append_len]
        rfl
      have hstat2 : ∀ i2, i2 < st.functions.length →
          (((Trace.onEnteredFrame st p).functions.get? i2).getD defaultFuncRec).name =
            ((st.functions.get? i2).getD defaultFuncRec).name ∧
          (((Trace.onEnteredFrame st p).functions.get? i2).getD
              defaultFuncRec).location =
            ((st.functions.get? i2).getD defaultFuncRec).location ∧
          (((Trace.onEnteredFrame st p).functions.get? i2).getD
              defaultFuncRec).parameterNames =
            ((st.functions.get? i2).getD defaultFuncRec).parameterNames := by
        intro i2 hi2
        rw [hfun2, listGet?_modify, if_neg (by omega : st.functions.length ≠ i2),
          listGet?_append_left _ _ hi2]
        exact ⟨rfl, rfl, rfl⟩
      have hkeyP : ∀ i2, i2 < st.functions.length →
          keyF (Trace.onEnteredFrame st p).functions i2 = keyF st.functions i2 := by
        intro i2 hi2
        rw [keyF_getD, keyF_getD, (hstat2 i2 hi2).1, (hstat2 i2 hi2).2.1]
      have hkeyN : keyF (Trace.onEnteredFrame st p).functions st.functions.length =
          locationToString p.location p.name := by
        rw [keyF_getD, hgKL]
        rfl
      refine ⟨?_, ?_, Or.inr ⟨st.frames.length :: sp, ?_, ?_⟩⟩
      · rw [hfmap2, hI1, hlen2, rangemap_succ, hkeyN,
          rangemap_congr (keyF st.functions)
            (keyF (Trace.onEnteredFrame st p).functions) st.functions.length hkeyP]
      · intro i2 j2 hi2 hj2 he
        rw [hlen2] at hi2 hj2
        by_cases hi2K : i2 < st.functions.length
        · by_cases hj2K : j2 < st.functions.length
          · refine hI2 i2 j2 hi2K hj2K ?_
            rw [← hkeyP i2 hi2K, ← hkeyP j2 hj2K]
            exact he
          · have hj2e : j2 = st.functions.length := by omega
            subst hj2e
            rw [hkeyP i2 hi2K, hkeyN] at he
            exact absurd he (hfreshkey i2 (List.mem_range.2 hi2K))
        · have hi2e : i2 = st.functions.length := by omega
          subst hi2e
          by_cases hj2K : j2 < st.functions.length
          · rw [hkeyN, hkeyP j2 hj2K] at he
            exact absurd he.symm (hfreshkey j2 (List.mem_range.2 hj2K))
          · omega
      · rw [hstk2, hsh]
      · rw [List.reverse_cons]
        refine zip_enter st.frames (Trace.onEnteredFrame st p).frames st.functions
          (Trace.onEnteredFrame st p).functions st.childrenT
          (Trace.onEnteredFrame st p).childrenT cuo st.functions.length hN
          ⟨nf, hnf, hnffid, hnfch⟩ ?_ ?_ ?_ ?_ ?_ hstat2 ?_ sp.reverse none 0 0 []
          hlev hlast (fun y hy => Option.noConfusion hy) rfl
        · intro c hc hne
          exact sItem_replayExt hext c hne _ (List.get?_eq_get hc)
        · intro o hne
          cases o with
          | none =>
            cases cuo with
            | none => exact absurd rfl hne
            | some cu =>
              show (Trace.onEnteredFrame st p).childrenT = st.childrenT
              exact hchTs cu rfl
          | some u2 =>
            show (((Trace.onEnteredFrame st p).frames.get? u2).map
                FrameSt.childrenL).getD [] =
              ((st.frames.get? u2).map FrameSt.childrenL).getD []
            by_cases hu2 : u2 < st.frames.length
            · obtain ⟨fr2, hfr2, e1, e2, e3, e4, e5, e6, e7, e8, e9⟩ :=
                hext u2 (st.frames.get ⟨u2, hu2⟩) (List.get?_eq_get hu2)
              have h9 : fr2.childrenL = (st.frames.get ⟨u2, hu2⟩).childrenL := by
                rcases e9 with ⟨hc, _⟩ | ⟨_, h⟩
                · exact absurd hc.symm hne
                · exact h
              rw [hfr2, List.get?_eq_get hu2]
              simp only [Option.map_some', Option.getD_some]
              exact h9
            · by_cases hu2e : u2 = st.frames.length
              · subst hu2e
                rw [hnf, List.get?_eq_none.2 (le_refl _)]
                simp only [Option.map_some', Option.getD_some, Option.map_none',
                  Option.getD_none]
                exact hnfch
              · rw [List.get?_eq_none.2
                  (show (Trace.onEnteredFrame st p).frames.length ≤ u2 by
                    rw [hN]; omega),
                  List.get?_eq_none.2 (show st.frames.length ≤ u2 by omega)]
        · cases cuo with
          | none =>
            show (Trace.onEnteredFrame st p).childrenT =
              st.childrenT ++ [st.frames.length]
            exact hchTn rfl
          | some cu =>
            show (((Trace.onEnteredFrame st p).frames.get? cu).map
                FrameSt.childrenL).getD [] =
              ((st.frames.get? cu).map FrameSt.childrenL).getD [] ++
                [st.frames.length]
            have hcuN : cu < st.frames.length := hcur cu rfl
            obtain ⟨fr2, hfr2, e1, e2, e3, e4, e5, e6, e7, e8, e9⟩ :=
              hext cu (st.frames.get ⟨cu, hcuN⟩) (List.get?_eq_get hcuN)
            have h9 : fr2.childrenL = (st.frames.get ⟨cu, hcuN⟩).childrenL ++
                [st.frames.length] := by
              rcases e9 with ⟨_, h⟩ | ⟨hc, _⟩
              · exact h
              · exact absurd rfl hc
            rw [hfr2, List.get?_eq_get hcuN]
            simp only [Option.map_some', Option.getD_some]
            exact h9
        · intro u fr hfr
          obtain ⟨fr2, hfr2, e1, _⟩ := hext u fr hfr
          exact ⟨fr2, hfr2, e1⟩
        · rw [hlen2]
          exact openStep_fresh st.functions.length
        · show openAggF (Trace.onEnteredFrame st p).functions st.functions.length
            st.functions = (Trace.onEnteredFrame st p).functions
          unfold openAggF
          rw [if_neg (by omega : ¬ st.functions.length < st.functions.length),
            hgKL, hfun2]
          rfl

/-- One exit event preserves the zipper invariant (the structural
invariant supplies the closedness facts the merge needs). -/
theorem jinv_exit (st : TraceSt) (p : ExitPacket) (hS : SInv st) (hJ : JInv st) :
    JInv (Trace.onExitedFrame st p) := by
  obtain ⟨hI1, hI2, hstk⟩ := hJ
  rcases hstk with ⟨hnone, hlev0⟩ | ⟨sp, hsp, hlev⟩
  · have hid : Trace.onExitedFrame st p = st := by
      unfold Trace.onExitedFrame
      rw [hnone]
    rw [hid]
    exact ⟨hI1, hI2, Or.inl ⟨hnone, hlev0⟩⟩
  · cases sp with
    | nil =>
      have hfin : Trace.onExitedFrame st p = Trace.finish st := by
        unfold Trace.onExitedFrame
        rw [hsp]
        rfl
      rw [hfin]
      unfold Trace.finish
      by_cases hc : st.hasClient
      · rw [if_pos hc]
        refine ⟨hI1, hI2, Or.inl ⟨rfl, ?_⟩⟩
        simp only [List.reverse_nil] at hlev
        exact hlev
      · rw [if_neg hc]
        exact ⟨hI1, hI2, Or.inr ⟨[], hsp, hlev⟩⟩
    | cons u sp2 =>
      have hstack2 : st.stack = some (some u :: (sp2.map some ++ [none])) := by
        rw [hsp]
        rfl
      obtain ⟨hdS, hfS, hstkS⟩ := hS
      rcases hstkS with hn | ⟨spS, hspS, hnd, hval, hspine⟩
      · rw [hsp] at hn
        exact Option.noConfusion hn
      · rw [hsp] at hspS
        obtain rfl := spine_repr_inj (u :: sp2) spS (Option.some.inj hspS)
        simp only [spineOk] at hspine
        obtain ⟨⟨fr, hfr, hstart, hend, htot, hchcl⟩, hrest⟩ := hspine
        have hallc : ∀ c ∈ fr.childrenL,
            ∃ cf, st.frames.get? c = some cf ∧ cf.endTime.isSome = true :=
          fun c hc => hchcl c hc (fun h => Option.noConfusion h)
        obtain ⟨hfun2, hfmap2, hstk2, hchT2, nfr, hframes2, hnfid, hnstart, hnend,
          hntot, hnself, hnargs, hnret, hnthr, hnyld, hnch⟩ :=
          exit_full_char st p u (sp2.map some ++ [none]) hstack2 fr hfr
        have hstat2 : ∀ i2, i2 < st.functions.length →
            (((Trace.onExitedFrame st p).functions.get? i2).getD
                defaultFuncRec).name =
              ((st.functions.get? i2).getD defaultFuncRec).name ∧
            (((Trace.onExitedFrame st p).functions.get? i2).getD
                defaultFuncRec).location =
              ((st.functions.get? i2).getD defaultFuncRec).location ∧
            (((Trace.onExitedFrame st p).functions.get? i2).getD
                defaultFuncRec).parameterNames =
              ((st.functions.get? i2).getD defaultFuncRec).parameterNames := by
          rw [hfun2]
          refine stat_modify st.functions _ fr.fid ?_
          intro r
          refine ⟨?_, ?_, ?_⟩ <;> (dsimp only; split <;> rfl)
        have hlen2 : (Trace.onExitedFrame st p).functions.length =
            st.functions.length := by
          rw [hfun2, List.length_modify]
        have hkeyeq := keyF_congr st.functions
          (Trace.onExitedFrame st p).functions hlen2 hstat2
        refine ⟨?_, ?_, Or.inr ⟨sp2, hstk2, ?_⟩⟩
        · rw [hfmap2, hI1, hlen2]
          exact (rangemap_congr (keyF st.functions)
            (keyF (Trace.onExitedFrame st p).functions) st.functions.length
            (fun i2 _ => hkeyeq i2)).symm
        · exact keysInj_congr st.functions _ hlen2 hkeyeq hI2
        · rw [hchT2]
          have hz := zip_exit st.frames (Trace.onExitedFrame st p).frames
            st.functions (Trace.onExitedFrame st p).functions st.childrenT u fr nfr
            p.time hfr hframes2 hfun2 hnstart hnend hnch hnfid hdS hallc
            ((u :: sp2).reverse) none 0 0 [] hlev
            (by rw [List.reverse_cons]; exact lastOwner_append_single _ _ _)
            (fun y hy => Option.noConfusion hy) rfl (by simp)
          rw [List.reverse_cons, List.dropLast_concat] at hz
          exact hz

/-- Well-formed ingestion preserves the zipper invariant. -/
theorem jinv_run_from (es : List Event) : ∀ st : TraceSt, SInv st → JInv st →
    wfEvents es → JInv (Trace.run st es) := by
  induction es with
  | nil =>
    intro st _ hj _
    exact hj
  | cons e rest ih =>
    intro st hs hj hwf
    have hte : (Event.time e).isSome = true := hwf e (List.mem_cons_self _ _)
    have hs2 : SInv (Trace.step st e) := by
      cases e with
      | enter p => exact sinv_enter st p hte hs
      | exitF p => exact sinv_exit st p hte hs
    have hj2 : JInv (Trace.step st e) := by
      cases e with
      | enter p => exact jinv_enter st p hj
      | exitF p => exact jinv_exit st p hs hj
    exact ih (Trace.step st e) hs2 hj2 (fun x hx => hwf x (List.mem_cons_of_mem _ hx))

/-- C1: serialize, then deserialize, then serialize is idempotent: for
every trace built by well-formed ingestion that is finished with every
frame closed, `toJSON` succeeds, re-ingesting the snapshot through
`parseTrace` succeeds, and serializing the rebuilt trace yields the
identical snapshot. -/
theorem c1_roundtrip_idempotent (es : List Event) (hwf : wfEvents es)
    (_hfin : (Trace.run (newTrace true) es).finished = true)
    (hclosed : ∀ u fr, (Trace.run (newTrace true) es).frames.get? u = some fr →
      fr.endTime.isSome = true) :
    ∃ s T2, Trace.toJSON (Trace.run (newTrace true) es) = some s ∧
      parseTrace s = some T2 ∧ Trace.toJSON T2 = some s := by
  have hS : SInv (Trace.run (newTrace true) es) :=
    sinv_run_from es (newTrace true) sinv_newTrace hwf
  have hJ : JInv (Trace.run (newTrace true) es) :=
    jinv_run_from es (newTrace true) sinv_newTrace jinv_newTrace hwf
  obtain ⟨hI1, hI2, hstk⟩ := hJ
  have hlev : levelOk (Trace.run (newTrace true) es).frames
      (Trace.run (newTrace true) es).functions
      (Trace.run (newTrace true) es).childrenT none [] 0 0 [] := by
    rcases hstk with ⟨_, h⟩ | ⟨sp, hsp, hlev⟩
    · exact h
    · cases sp with
      | nil =>
        simp only [List.reverse_nil] at hlev
        exact hlev
      | cons u sp2 =>
        obtain ⟨hdS, hfS, hstkS⟩ := hS
        rcases hstkS with hn | ⟨spS, hspS, _, _, hspine⟩
        · rw [hsp] at hn
          exact Option.noConfusion hn
        · rw [hsp] at hspS
          obtain rfl := spine_repr_inj (u :: sp2) spS (Option.some.inj hspS)
          simp only [spineOk] at hspine
          obtain ⟨⟨fr, hfr, _, hend, _, _⟩, _⟩ := hspine
          have hcl := hclosed u fr hfr
          rw [hend] at hcl
          exact absurd hcl (by simp)
  simp only [levelOk] at hlev
  obtain ⟨J, hroots, hcov, hdfs, hagg, hser⟩ := hlev
  have hchT : (Trace.run (newTrace true) es).childrenT = rootsUids 0 J := hroots
  have hserT : mapO (frameToJSONObj (Trace.run (newTrace true) es).frames
      (Trace.run (newTrace true) es).frames.length)
      (Trace.run (newTrace true) es).childrenT = some J := by
    rw [hchT]
    exact hser (Trace.run (newTrace true) es).frames
      (Trace.run (newTrace true) es).frames.length (by omega) (fun c _ _ => rfl)
  have htoJ : Trace.toJSON (Trace.run (newTrace true) es) =
      some ⟨(Trace.run (newTrace true) es).functions, J⟩ := by
    unfold Trace.toJSON
    rw [hserT]
  obtain ⟨T2, hparse, htoJ2⟩ := roundtrip_snapshot
    ⟨(Trace.run (newTrace true) es).functions, J⟩ ⟨hdfs, hI2, hagg⟩
  exact ⟨_, T2, htoJ, hparse, htoJ2⟩

theorem c1_roundtrip_idempotent_witness :
    ∃ s T2, Trace.toJSON (Trace.run (newTrace true) c1events) = some s ∧
      parseTrace s = some T2 ∧ Trace.toJSON T2 = some s :=
  c1_roundtrip_idempotent c1events
    (fun e he => List.all_eq_true.1
      (rfl : c1events.all (fun e2 => (Event.time e2).isSome) = true) e he)
    rfl
    (fun u fr h => List.all_eq_true.1
      (rfl : (Trace.run (newTrace true) c1events).frames.all
        (fun x => x.endTime.isSome) = true) fr (List.get?_mem h))

end MozTrace
